import Mathlib

/-!
# VNote editing kernel (`src/utils/veditutils.cpp`)

A shallow embedding of the text-buffer editing helpers of `VEditUtils` and of the part of
Qt's `QTextDocument` / `QTextCursor` interface they are written against, followed by the
theorems about them.

Conventions of the embedding

* A `QChar` is a Lean `Char`; the null `QChar()` is `U+0000` and the block separator is
  `U+2029` (`QChar::ParagraphSeparator`).
* A document is its character buffer: the block texts joined by paragraph separators.  Qt
  appends one more separator as final sentinel, so `characterCount = |buffer| + 1`.  A
  cursor is a caret position and an anchor; functions that edit return the new document
  and cursor.
* The Qt calls (`select`, `movePosition`, `deleteChar`, `insertText`, `setPosition`, ...)
  follow the Qt sources for a plain-text document without tables or frames.
* A `Char` is a whole code point, so there are no surrogate pairs.  `deleteChar` removes
  the grapheme cluster at the caret, as Qt does; where the clusters of a block text start
  is not fixed by the embedding but given by a parameter `gb : GraphemeBoundary`, and the
  theorems hold for every `gb`.  Closed examples use `asciiAcuteBoundary`, the boundaries
  of texts made of printable ASCII characters and combining acute accents.
* In a document of the data model no character of the buffer is null (`characterAt`
  answers null only outside the document); theorems that need this say so.
* C++ `int` locals are `Int`; document positions are far below `2^31`, and the
  arithmetic that can leave the `int` range (the list number, the scrollbar value plus or
  minus the single step) wraps explicitly.
* Loops are recursive functions that carry the loop variable of the source; each is given
  as many iterations as there are indices between its start and the end of its range.  The
  scroll loops of `scrollBlockInPage` have no such range: they take the number of rounds
  as fuel and return `none` when it is spent.
* `Q_ASSERT` expands to nothing in a release build; `selectPairTargetAround` is embedded
  with that semantics (an out-of-range `characterAt` yields the null character and
  execution goes on), and `selectPairTargetAroundReads` lists the positions it reads.
  `V_ASSERT` is a flag of `insertListMarkAsPreviousBlock` and `isListBlock`.
  `unindentBlockReads` lists the indices `unindentBlock` reads in the block text.
* The viewport of `scrollBlockInPage` is the sequence of the `y` coordinates that
  `cursorRect()` answers; a scrollbar keeps its minimum, maximum and single step while
  the function runs.
* The pattern of `removeObjectReplacementCharacter` is matched by a function written for
  that pattern; definitions named `spec...` or ending in `Spec` follow the wording of the
  specification and are there to be compared with the code.
-/

namespace VNote

/-! ## Qt document model -/

/-- The character `QChar::ParagraphSeparator`. -/
def paragraphSeparator : Char := Char.ofNat 0x2029

/-- The null character `QChar()`. -/
def nullChar : Char := Char.ofNat 0

/-- Mode of a cursor movement: `QTextCursor::MoveAnchor` or `QTextCursor::KeepAnchor`. -/
inductive MoveMode where
  | MoveAnchor
  | KeepAnchor
  deriving DecidableEq

/-- Plain-text `QTextDocument`: the buffer without the final sentinel separator. -/
structure QTextDocument where
  text : List Char
  deriving DecidableEq

/-- A `QTextCursor` on a document: caret `position` and selection `anchor`. -/
structure QTextCursor where
  position : Nat
  anchor : Nat
  deriving DecidableEq

namespace QTextDocument

/-- Document built from its sequence of block texts. -/
def ofBlocks (bs : List (List Char)) : QTextDocument :=
  ⟨List.intercalate [paragraphSeparator] bs⟩

/-- The call `characterCount()`: buffer length plus the final sentinel. -/
def characterCount (d : QTextDocument) : Nat := d.text.length + 1

/-- The call `characterAt(pos)`: null outside `[0, characterCount)`, the separator at the
sentinel position. -/
def characterAt (d : QTextDocument) (pos : Int) : Char :=
  if pos < 0 then nullChar
  else if pos.toNat < d.text.length then d.text.getD pos.toNat nullChar
  else if pos.toNat = d.text.length then paragraphSeparator
  else nullChar

/-- The call `blockCount()`. -/
def blockCount (d : QTextDocument) : Nat := d.text.count paragraphSeparator + 1

/-- Start position of the block containing position `p` (`findBlock(p).position()`). -/
def blockPosition (d : QTextDocument) (p : Nat) : Nat :=
  p - (((d.text.take p).reverse.takeWhile (fun c => c != paragraphSeparator)).length)

/-- Number of the block containing position `p` (`findBlock(p).blockNumber()`). -/
def blockNumber (d : QTextDocument) (p : Nat) : Nat :=
  (d.text.take p).count paragraphSeparator

/-- Text of the block containing position `p` (`findBlock(p).text()`). -/
def blockText (d : QTextDocument) (p : Nat) : List Char :=
  (d.text.drop (d.blockPosition p)).takeWhile (fun c => c != paragraphSeparator)

/-- Length of the block containing `p`, its separator included (`findBlock(p).length()`). -/
def blockLength (d : QTextDocument) (p : Nat) : Nat := (d.blockText p).length + 1

/-- The sequence of block texts of the document. -/
def blocks (d : QTextDocument) : List (List Char) :=
  d.text.splitOn paragraphSeparator

end QTextDocument

namespace QTextCursor

/-- The call `positionInBlock()`. -/
def positionInBlock (d : QTextDocument) (c : QTextCursor) : Nat :=
  c.position - d.blockPosition c.position

/-- The call `setPosition(pos, mode)`: ignored (with a warning) when `pos` is out of range. -/
def setPosition (d : QTextDocument) (c : QTextCursor) (pos : Int) (m : MoveMode) :
    QTextCursor :=
  if pos < 0 ∨ pos ≥ d.characterCount then c
  else match m with
    | .MoveAnchor => ⟨pos.toNat, pos.toNat⟩
    | .KeepAnchor => ⟨pos.toNat, c.anchor⟩

/-- The call `selectionStart()`. -/
def selectionStart (c : QTextCursor) : Nat := min c.position c.anchor

/-- The call `selectionEnd()`. -/
def selectionEnd (c : QTextCursor) : Nat := max c.position c.anchor

/-- The call `hasSelection()`. -/
def hasSelection (c : QTextCursor) : Bool := c.position != c.anchor

/-- The call `selectedText()`: the characters between selection start and end. -/
def selectedText (d : QTextDocument) (c : QTextCursor) : List Char :=
  (d.text.drop c.selectionStart).take (c.selectionEnd - c.selectionStart)

end QTextCursor

/-! ## `VEditUtils::selectPairTargetAround` -/

/-- The leftward loop `for (; i >= start; --i)` looking for the opening that brings
`nrPair` to zero; returns the final value of `i` (below `start` when the loop ran out). -/
def scanOpening (doc : QTextDocument) (p_opening p_closing : Char) (start : Int) :
    Nat → Int → Int → Int
  | 0, i, _ => i
  | fuel + 1, i, nrPair =>
    if i ≥ start then
      let ch := doc.characterAt i
      if ch = p_opening then
        if nrPair - 1 = 0 then i
        else scanOpening doc p_opening p_closing start fuel (i - 1) (nrPair - 1)
      else if ch = p_closing then
        scanOpening doc p_opening p_closing start fuel (i - 1) (nrPair + 1)
      else scanOpening doc p_opening p_closing start fuel (i - 1) nrPair
    else i

/-- The rightward loop `for (; j <= end; ++j)` looking for the closing that brings
`nrPair` to zero; returns the final value of `j` (above `end` when the loop ran out). -/
def scanClosing (doc : QTextDocument) (p_opening p_closing : Char) (end_ : Int) :
    Nat → Int → Int → Int
  | 0, j, _ => j
  | fuel + 1, j, nrPair =>
    if j ≤ end_ then
      let ch := doc.characterAt j
      if ch = p_closing then
        if nrPair - 1 = 0 then j
        else scanClosing doc p_opening p_closing end_ fuel (j + 1) (nrPair - 1)
      else if ch = p_opening then
        scanClosing doc p_opening p_closing end_ fuel (j + 1) (nrPair + 1)
      else scanClosing doc p_opening p_closing end_ fuel (j + 1) nrPair
    else j

/-- Number of iterations that lets the leftward loop from `i` reach `start - 1`. -/
def leftFuel (start i : Int) : Nat := (i - start + 1).toNat

/-- Number of iterations that lets the rightward loop from `j` reach `end + 1`. -/
def rightFuel (end_ j : Int) : Nat := (end_ - j + 1).toNat

/-- One pass through the code between the label `round:` and the test of `found`:
`none` when no strategy found a pair, otherwise the new `(opening, closing)`. -/
def pairRound (doc : QTextDocument) (p_opening p_closing : Char) (start end_ : Int)
    (opening closing : Int) : Option (Int × Int) :=
  -- strategy 1: the caret sits on a closing
  let r1 : Option Int :=
    if doc.characterAt closing = p_closing then
      let i0 := if opening = closing then opening - 1 else opening
      let i := scanOpening doc p_opening p_closing start (leftFuel start i0) i0 1
      if i ≥ start then some i else none
    else none
  match r1 with
  | some i => some (i, closing)
  | none =>
    -- strategy 2: the caret sits on an opening
    let r2 : Option Int :=
      if doc.characterAt opening = p_opening then
        let j0 := if opening = closing then closing + 1 else closing
        let j := scanClosing doc p_opening p_closing end_ (rightFuel end_ j0) j0 1
        if j ≤ end_ then some j else none
      else none
    match r2 with
    | some j => some (opening, j)
    | none =>
      -- strategy 3: find both
      if doc.characterAt opening ≠ p_opening ∧ doc.characterAt closing ≠ p_closing then
        let i0 := opening - 1
        let j0 := closing + 1
        let i := scanOpening doc p_opening p_closing start (leftFuel start i0) i0 1
        if i ≥ start then
          let j := scanClosing doc p_opening p_closing end_ (rightFuel end_ j0) j0 1
          if j ≤ end_ then some (i, j) else none
        else none
      else none

/-- The rounds of `selectPairTargetAround` (the `goto round` loop), `p_repeat` rounds
being still to do: `none` for `return false`, otherwise the final `(opening, closing)`. -/
def pairRounds (doc : QTextDocument) (p_opening p_closing : Char) (start end_ : Int) :
    Nat → Int → Int → Option (Int × Int)
  | 0, _, _ => none
  | p_repeat + 1, opening, closing =>
    match pairRound doc p_opening p_closing start end_ opening closing with
    | none => none
    | some (o, c) =>
      if p_repeat = 0 then some (o, c)
      else if o - 1 < start ∧ c + 1 > end_ then none
      else pairRounds doc p_opening p_closing start end_ p_repeat (o - 1) (c + 1)

/-- The function `VEditUtils::selectPairTargetAround`; returns the result and the cursor.
The precondition `Q_ASSERT(p_repeat >= 1)` is the caller's. -/
def selectPairTargetAround (doc : QTextDocument) (p_cursor : QTextCursor)
    (p_opening p_closing : Char) (p_inclusive p_crossBlock : Bool) (p_repeat : Nat) :
    Bool × QTextCursor :=
  let pos : Int := p_cursor.position
  let start : Int := if p_crossBlock then 0 else doc.blockPosition p_cursor.position
  let end_ : Int :=
    if p_crossBlock then (doc.characterCount : Int) - 1
    else (doc.blockPosition p_cursor.position : Int) + doc.blockLength p_cursor.position - 1
  if start = end_ ∨ pos > end_ then (false, p_cursor)
  else
    match pairRounds doc p_opening p_closing start end_ p_repeat pos pos with
    | none => (false, p_cursor)
    | some (opening, closing) =>
      let opening' := if p_inclusive then opening else opening + 1
      let closing' := if p_inclusive then closing + 1 else closing
      let c1 := p_cursor.setPosition doc opening' .MoveAnchor
      let c2 := c1.setPosition doc closing' .KeepAnchor
      (true, c2)

/-! ## Balanced delimiters -/

/-- Balanced-delimiter check with `d` openings pending: every closing has an earlier
opening and nothing is left open at the end. -/
def balancedFrom (O C : Char) : Nat → List Char → Bool
  | d, [] => d == 0
  | d, c :: cs =>
    if c = O then balancedFrom O C (d + 1) cs
    else if c = C then d != 0 && balancedFrom O C (d - 1) cs
    else balancedFrom O C d cs

/-- A text whose `O`/`C` delimiters are balanced. -/
def balanced (O C : Char) (l : List Char) : Bool := balancedFrom O C 0 l

/-- Contribution of one character to the nesting depth. -/
def delta (O C c : Char) : Int := if c = O then 1 else if c = C then -1 else 0

/-- Openings minus closings of a text. -/
def excess (O C : Char) (l : List Char) : Int := (l.map (delta O C)).sum

/-! ## `VEditUtils::findTargetWithinBlock` and `findTargetsWithinBlock` -/

/-- The loop `for (; idx < text.size() && idx >= 0; idx += delta)` of
`findTargetWithinBlock`; returns the final `(idx, p_repeat)`. -/
def findTargetLoop (text : List Char) (p_target : Char) (delta : Int) :
    Nat → Int → Int → Int × Int
  | 0, idx, p_repeat => (idx, p_repeat)
  | fuel + 1, idx, p_repeat =>
    if idx < text.length ∧ idx ≥ 0 then
      if text.getD idx.toNat nullChar = p_target then
        if p_repeat - 1 = 0 then (idx, p_repeat - 1)
        else findTargetLoop text p_target delta fuel (idx + delta) (p_repeat - 1)
      else findTargetLoop text p_target delta fuel (idx + delta) p_repeat
    else (idx, p_repeat)

/-- The adjustment of the found index by direction, inclusivity and move mode. -/
def adjustTargetIndex (p_mode : MoveMode) (p_forward p_inclusive : Bool) (idx : Int) : Int :=
  if (p_forward ∧ p_inclusive ∧ p_mode = MoveMode.KeepAnchor)
      ∨ (¬ p_forward ∧ ¬ p_inclusive) then idx + 1
  else if p_forward ∧ ¬ p_inclusive ∧ p_mode = MoveMode.MoveAnchor then idx - 1
  else idx

/-- The function `VEditUtils::findTargetWithinBlock`; returns the result and the cursor.
The loop is given `text.size()` iterations, one for each index it can visit. -/
def findTargetWithinBlock (doc : QTextDocument) (p_cursor : QTextCursor) (p_mode : MoveMode)
    (p_target : Char) (p_forward p_inclusive : Bool) (p_repeat : Int) : Bool × QTextCursor :=
  if p_repeat < 1 then (false, p_cursor)
  else
    let text := doc.blockText p_cursor.position
    let pib : Int := p_cursor.positionInBlock doc
    let delta : Int := if p_forward then 1 else -1
    let idx0 := pib + (if p_inclusive then delta else 2 * delta)
    let r := findTargetLoop text p_target delta text.length idx0 p_repeat
    if r.1 < 0 ∨ r.1 ≥ text.length ∨ r.2 > 0 then (false, p_cursor)
    else
      let idx := adjustTargetIndex p_mode p_forward p_inclusive r.1
      (true, p_cursor.setPosition doc ((doc.blockPosition p_cursor.position : Int) + idx) p_mode)

/-- The call `QList<QChar>::indexOf`: index of the first occurrence, or `-1`. -/
def qListIndexOf (l : List Char) (c : Char) : Int :=
  if l.indexOf c < l.length then (l.indexOf c : Int) else -1

/-- The loop of `findTargetsWithinBlock`; returns the final `(idx, targetIdx)`. -/
def findTargetsLoop (text : List Char) (p_targets : List Char) (delta : Int) :
    Nat → Int → Int × Int
  | 0, idx => (idx, -1)
  | fuel + 1, idx =>
    if idx < text.length ∧ idx ≥ 0 then
      let index := qListIndexOf p_targets (text.getD idx.toNat nullChar)
      if index ≠ -1 then (idx, index)
      else findTargetsLoop text p_targets delta fuel (idx + delta)
    else (idx, -1)

/-- The function `VEditUtils::findTargetsWithinBlock`; returns the result and the cursor. -/
def findTargetsWithinBlock (doc : QTextDocument) (p_cursor : QTextCursor) (p_mode : MoveMode)
    (p_targets : List Char) (p_forward p_inclusive : Bool) : Int × QTextCursor :=
  if p_targets.isEmpty then (-1, p_cursor)
  else
    let text := doc.blockText p_cursor.position
    let pib : Int := p_cursor.positionInBlock doc
    let delta : Int := if p_forward then 1 else -1
    let idx0 := pib + (if p_inclusive then delta else 2 * delta)
    let r := findTargetsLoop text p_targets delta text.length idx0
    if r.1 < 0 ∨ r.1 ≥ text.length then (-1, p_cursor)
    else
      let idx := adjustTargetIndex p_mode p_forward p_inclusive r.1
      (r.2, p_cursor.setPosition doc ((doc.blockPosition p_cursor.position : Int) + idx) p_mode)

/-! ### Reference notions for the find motions -/

/-- The characters at the indices the scan visits, in visiting order: forward the indices
`>= pib + 1` (inclusive) or `>= pib + 2` (exclusive); backward the indices `<= pib - 1`
(inclusive) or `<= pib - 2` (exclusive), highest first. -/
def scanRange (text : List Char) (pib : Nat) (forward inclusive : Bool) : List Char :=
  if forward then text.drop (pib + (if inclusive then 1 else 2))
  else (text.take (pib - (if inclusive then 0 else 1))).reverse

/-- Index in the block of the character visited as number `j` (from 0) by the scan. -/
def scanIndex (pib : Nat) (forward inclusive : Bool) (j : Nat) : Int :=
  if forward then (pib : Int) + (if inclusive then 1 else 2) + j
  else (pib : Int) - (if inclusive then 1 else 2) - j

/-- Block index `m` holds the `k`-th occurrence of `t` met by the scan: it is visited, it
holds `t`, and exactly `k - 1` occurrences of `t` are visited before it. -/
def IsKthOccurrence (text : List Char) (t : Char) (pib : Nat) (forward inclusive : Bool)
    (k : Nat) (m : Int) : Prop :=
  ∃ j : Nat, m = scanIndex pib forward inclusive j
    ∧ (scanRange text pib forward inclusive)[j]? = some t
    ∧ ((scanRange text pib forward inclusive).take j).count t + 1 = k

/-- Offset in `l` of the `k`-th occurrence (`k >= 1`) of `t`, when there is one. -/
def kthIndex (t : Char) : Nat → List Char → Option Nat
  | _, [] => none
  | k, c :: cs =>
    if c = t then
      if k = 1 then some 0 else (kthIndex t (k - 1) cs).map (· + 1)
    else (kthIndex t k cs).map (· + 1)

/-- Offset and character of the first element of `l` that `QList::indexOf` finds in
`targets`, when there is one. -/
def firstHit (targets : List Char) : List Char → Option (Nat × Char)
  | [] => none
  | c :: cs =>
    if qListIndexOf targets c ≠ -1 then some (0, c)
    else (firstHit targets cs).map (fun r => (r.1 + 1, r.2))

/-! ## Qt cursor movement and editing -/

/-- The move operations of `QTextCursor::movePosition` used by the editing helpers. -/
inductive MoveOperation where
  | StartOfBlock
  | EndOfBlock
  | PreviousBlock
  | NextBlock
  deriving DecidableEq

/-- The attribute `graphemeBoundary` that Qt's text engine computes for a block text
(the grapheme cluster boundaries of Unicode): `gb T i` tells whether a cluster starts at
index `i` of the block text `T`.  The embedding does not fix these boundaries; what
depends on them takes them as a parameter. -/
abbrev GraphemeBoundary : Type := List Char → Nat → Bool

/-- The loop `while (oldPos < len && !attributes[oldPos].graphemeBoundary) oldPos++` of
`QTextLayout::nextCursorPosition`; `len` rounds reach the end of the text. -/
def skipCluster (gb : GraphemeBoundary) (T : List Char) : Nat → Nat → Nat
  | 0, oldPos => oldPos
  | fuel + 1, oldPos =>
    if oldPos < T.length ∧ gb T oldPos = false then skipCluster gb T fuel (oldPos + 1)
    else oldPos

/-- The call `QTextLayout::nextCursorPosition(oldPos, QTextLayout::SkipCharacters)` of the
layout of a block with text `T`: the end of the cluster that starts at `oldPos`. -/
def layoutNextCursorPosition (gb : GraphemeBoundary) (T : List Char) (oldPos : Nat) : Nat :=
  if oldPos ≥ T.length then oldPos else skipCluster gb T T.length (oldPos + 1)

/-- The call `QTextDocumentPrivate::nextCursorPosition(position, SkipCharacters)`: the
position itself at the final sentinel, the next position at the end of a block, and else
what the layout of the block answers. -/
def QTextDocument.nextCursorPosition (gb : GraphemeBoundary) (d : QTextDocument)
    (position : Nat) : Nat :=
  if position = d.characterCount - 1 then position
  else
    let start := d.blockPosition position
    let end_ := start + d.blockLength position - 1
    if position = end_ then end_ + 1
    else layoutNextCursorPosition gb (d.blockText position) (position - start) + start

/-- The grapheme boundaries of a block text made of printable ASCII characters and
combining acute accents `U+0301`: a cluster starts at every index but that of an accent
that follows another character (no break before an extending character). -/
def asciiAcuteBoundary : GraphemeBoundary :=
  fun T i => i == 0 || T.getD i nullChar != Char.ofNat 0x301

namespace QTextCursor

/-- The call `movePosition(op, mode)`: the result tells whether the caret moved; a move
to a missing previous or next block fails and leaves the cursor alone. -/
def movePosition (d : QTextDocument) (c : QTextCursor) (op : MoveOperation) (m : MoveMode) :
    Bool × QTextCursor :=
  let p := c.position
  let newPosition : Option Nat :=
    match op with
    | .StartOfBlock => some (d.blockPosition p)
    | .EndOfBlock => some (d.blockPosition p + d.blockLength p - 1)
    | .PreviousBlock =>
      if d.blockPosition p = 0 then none
      else some (d.blockPosition (d.blockPosition p - 1))
    | .NextBlock =>
      if d.blockPosition p + d.blockLength p ≤ d.text.length then
        some (d.blockPosition p + d.blockLength p)
      else none
  match newPosition with
  | none => (false, c)
  | some q =>
    (decide (q ≠ p),
      match m with
      | .MoveAnchor => ⟨q, q⟩
      | .KeepAnchor => ⟨q, c.anchor⟩)

/-- The call `clearSelection()`. -/
def clearSelection (c : QTextCursor) : QTextCursor := ⟨c.position, c.position⟩

/-- The call `select(QTextCursor::BlockUnderCursor)`, as in Qt: nothing is selected in an
empty block; otherwise the block text is selected together with the separator that
precedes the block, when the block is not the first one. -/
def selectBlockUnderCursor (d : QTextDocument) (c : QTextCursor) : QTextCursor :=
  let c0 := c.clearSelection
  if d.blockLength c0.position = 1 then c0
  else
    let c1 := (c0.movePosition d .StartOfBlock .MoveAnchor).2
    let r := c1.movePosition d .PreviousBlock .MoveAnchor
    let c2 :=
      if r.1 then
        let c3 := (r.2.movePosition d .EndOfBlock .MoveAnchor).2
        (c3.movePosition d .NextBlock .KeepAnchor).2
      else r.2
    (c2.movePosition d .EndOfBlock .KeepAnchor).2

/-- Removal of the selected characters; the cursor collapses on the selection start. -/
def removeSelection (d : QTextDocument) (c : QTextCursor) : QTextDocument × QTextCursor :=
  (⟨d.text.take c.selectionStart ++ d.text.drop c.selectionEnd⟩,
    ⟨c.selectionStart, c.selectionStart⟩)

/-- The call `deleteChar()`: removes the selection if there is one, else the characters
from the caret to the next cursor position, which is the whole grapheme cluster at the
caret (nothing at the final sentinel, whose next cursor position is itself). -/
def deleteChar (gb : GraphemeBoundary) (d : QTextDocument) (c : QTextCursor) :
    QTextDocument × QTextCursor :=
  if c.position ≠ c.anchor then c.removeSelection d
  else if c.position < d.text.length then
    (⟨d.text.take c.position ++ d.text.drop (d.nextCursorPosition gb c.position)⟩, c)
  else (d, c)

/-- The call `deletePreviousChar()`: removes the selection if there is one, else the
character before the caret (nothing at position 0). -/
def deletePreviousChar (d : QTextDocument) (c : QTextCursor) : QTextDocument × QTextCursor :=
  if c.position ≠ c.anchor then c.removeSelection d
  else if c.anchor < 1 then (d, c)
  else (⟨d.text.eraseIdx (c.position - 1)⟩, ⟨c.position - 1, c.position - 1⟩)

/-- The call `removeSelectedText()`. -/
def removeSelectedText (d : QTextDocument) (c : QTextCursor) : QTextDocument × QTextCursor :=
  if c.position ≠ c.anchor then c.removeSelection d else (d, c)

/-- The call `atBlockStart()`. -/
def atBlockStart (d : QTextDocument) (c : QTextCursor) : Bool :=
  c.position == d.blockPosition c.position

end QTextCursor

/-! ## `VEditUtils::selectedText` and `VEditUtils::removeBlock` -/

/-- The function `VEditUtils::selectedText`: the selection with every paragraph separator
replaced by a newline. -/
def selectedText (doc : QTextDocument) (p_cursor : QTextCursor) : List Char :=
  (p_cursor.selectedText doc).map (fun ch => if ch = paragraphSeparator then '\n' else ch)

/-- Result of `removeBlock`: the document, the cursor and the text stored through `p_text`
when the caller passes one. -/
structure RemoveBlockResult where
  doc : QTextDocument
  cursor : QTextCursor
  text : List Char
  deriving DecidableEq

/-- The function `VEditUtils::removeBlock(QTextCursor &, QString *)`; `gb` gives the
grapheme boundaries `deleteChar` goes by. -/
def removeBlock (gb : GraphemeBoundary) (doc : QTextDocument) (p_cursor : QTextCursor) :
    RemoveBlockResult :=
  let blockCount : Int := doc.blockCount
  let blockNum : Int := doc.blockNumber p_cursor.position
  let c1 := p_cursor.selectBlockUnderCursor doc
  let p_text := selectedText doc c1 ++ ['\n']
  let s2 := c1.deleteChar gb doc
  -- Deleting the first block will leave an empty block.
  -- Deleting the last empty block will not work with deleteChar().
  let s3 :=
    if blockCount = (s2.1.blockCount : Int) then
      if blockNum = blockCount - 1 then s2.2.deletePreviousChar s2.1
      else s2.2.deleteChar gb s2.1
    else s2
  let c4 :=
    if (s3.1.blockNumber s3.2.position : Int) < blockNum then
      (s3.2.movePosition s3.1 .NextBlock .MoveAnchor).2
    else s3.2
  let c5 := (c4.movePosition s3.1 .StartOfBlock .MoveAnchor).2
  ⟨s3.1, c5, p_text⟩

/-- The block text `T` sits in a buffer between `P` and `Q`: it holds no separator, `P` is
empty or ends with a separator, and `Q` is empty or starts with one. -/
def IsBlockFrame (P T Q : List Char) : Prop :=
  paragraphSeparator ∉ T
  ∧ (P = [] ∨ ∃ P', P = P' ++ [paragraphSeparator])
  ∧ (Q = [] ∨ ∃ Q', Q = paragraphSeparator :: Q')

/-- Buffer made of the given blocks, each followed by its separator: what precedes a block
in the buffer when these are the blocks before it. -/
def blocksBefore (bs : List (List Char)) : List Char :=
  (bs.map (fun b => b ++ [paragraphSeparator])).flatten

/-- Buffer made of the given blocks, each preceded by a separator: what follows a block in
the buffer when these are the blocks after it. -/
def blocksAfter (bs : List (List Char)) : List Char :=
  (bs.map (fun b => paragraphSeparator :: b)).flatten

/-- Every block text of the sequence is free of paragraph separators (invariant I3). -/
def SeparatorFree (bs : List (List Char)) : Prop := ∀ b ∈ bs, paragraphSeparator ∉ b

/-! ## Qt character classes, text insertion and number conversion -/

/-- The test `QChar::isSpace`, also the class `\s` of `QRegExp`: the space, the controls
`U+0009`..`U+000D`, `U+0085`, `U+00A0` and the separators of the categories Zs, Zl, Zp. -/
def isSpace (c : Char) : Bool :=
  let u := c.toNat
  u == 0x20 || (0x09 ≤ u && u ≤ 0x0d) || u == 0x85 || u == 0xa0 || u == 0x1680
    || (0x2000 ≤ u && u ≤ 0x200a) || u == 0x2028 || u == 0x2029 || u == 0x202f
    || u == 0x205f || u == 0x3000

/-- The class `\d` of `QRegExp`, restricted to the digits `0`..`9`, the only ones
`QString::toInt` converts. -/
def isDigit (c : Char) : Bool := '0'.toNat ≤ c.toNat && c.toNat ≤ '9'.toNat

/-- The characters that `QTextCursor::insertText` turns into a block separator. -/
def isBlockBreak (c : Char) : Bool :=
  c == '\n' || c == paragraphSeparator || c == Char.ofNat 0xfdd0 || c == Char.ofNat 0xfdd1
    || c == '\r'

/-- What `QTextCursor::insertText` puts into the buffer for a text: a block separator for
each line break (a carriage return followed by a newline counts once). -/
def insertedChars : List Char → List Char
  | [] => []
  | [c] => if isBlockBreak c then [paragraphSeparator] else [c]
  | c :: d :: rest =>
    if c = '\r' ∧ d = '\n' then paragraphSeparator :: insertedChars rest
    else if isBlockBreak c then paragraphSeparator :: insertedChars (d :: rest)
    else c :: insertedChars (d :: rest)

namespace QTextCursor

/-- The call `insertText(text)`: a selection is removed first, then the text goes in at the
caret, which ends after it. -/
def insertText (d : QTextDocument) (c : QTextCursor) (text : List Char) :
    QTextDocument × QTextCursor :=
  let s := c.removeSelectedText d
  let ins := insertedChars text
  (⟨s.1.text.take s.2.position ++ ins ++ s.1.text.drop s.2.position⟩,
    ⟨s.2.position + ins.length, s.2.position + ins.length⟩)

end QTextCursor

/-- Largest value of the C++ type `int`. -/
def INT_MAX : Int := 2147483647

/-- The call `QString::toInt(&ok, 10)` on a text: `(ok, value)`, with `(false, 0)` when the
text is not a digit string or its value does not fit an `int`. -/
def qStringToInt (s : List Char) : Bool × Int :=
  if s ≠ [] ∧ s.all isDigit then
    let v : Int := s.foldl (fun acc ch => acc * 10 + ((ch.toNat : Int) - ('0'.toNat : Int))) 0
    if v ≤ INT_MAX then (true, v) else (false, 0)
  else (false, 0)

/-- Two's-complement wrap of a value into the range of `int` (what `num++` yields on the
usual targets when it leaves the range). -/
def wrapInt (n : Int) : Int := (n + 2 ^ 31) % 2 ^ 32 - 2 ^ 31

/-- The call `QString::number(n, 10)`. -/
def qStringNumber (n : Int) : List Char :=
  if n < 0 then '-' :: Nat.toDigits 10 n.natAbs else Nat.toDigits 10 n.natAbs

/-! ## `VEditUtils::insertListMarkAsPreviousBlock` -/

/-- The capture `capturedTexts()[1]` of the pattern `^\s*(-|\d+\.)\s` on a text, `none`
when `indexIn` returns -1.  The pattern is anchored and none of its parts can give back a
character to the next one, so matching is a single left-to-right pass: all leading
whitespace, then a dash or a digit string with a dot, then one whitespace character. -/
def listMarkCapture (text : List Char) : Option (List Char) :=
  let rest := text.dropWhile isSpace
  match rest with
  | '-' :: c :: _ => if isSpace c then some ['-'] else none
  | _ =>
    let digits := rest.takeWhile isDigit
    match rest.dropWhile isDigit with
    | '.' :: c :: _ => if digits ≠ [] ∧ isSpace c then some (digits ++ ['.']) else none
    | _ => none

/-- Result of an editing helper that returns a flag: the flag, the document, the cursor. -/
structure EditResult where
  ret : Bool
  doc : QTextDocument
  cursor : QTextCursor
  deriving DecidableEq

/-- The function `VEditUtils::insertListMarkAsPreviousBlock`.  With `assertsOn` the macro
`V_ASSERT` aborts on a false condition (result `none`); without it the macro is empty. -/
def insertListMarkAsPreviousBlock (assertsOn : Bool) (doc : QTextDocument)
    (p_cursor : QTextCursor) : Option EditResult :=
  -- `preBlock.isValid()` fails exactly for the first block
  if doc.blockPosition p_cursor.position = 0 then some ⟨false, doc, p_cursor⟩
  else
    let text := doc.blockText (doc.blockPosition p_cursor.position - 1)
    match listMarkCapture text with
    | none => some ⟨false, doc, p_cursor⟩
    | some markText =>
      if markText = ['-'] then
        let s := p_cursor.insertText doc ['-', ' ']
        some ⟨true, s.1, s.2⟩
      else if assertsOn ∧ markText.getLast? ≠ some '.' then none
      else
        let r := qStringToInt markText.dropLast
        if assertsOn ∧ r.1 = false then none
        else
          let num := wrapInt (r.2 + 1)
          let s := p_cursor.insertText doc (qStringNumber num ++ ['.', ' '])
          some ⟨true, s.1, s.2⟩

/-! ## `VEditUtils::moveCursorFirstNonSpaceCharacter` and `indentBlockAsPreviousBlock` -/

/-- The loop of `moveCursorFirstNonSpaceCharacter` on the text from `idx` on: the final
value of `idx`. -/
def firstNonSpaceLoop : List Char → Nat → Nat
  | [], idx => idx
  | ch :: rest, idx => if isSpace ch then firstNonSpaceLoop rest (idx + 1) else idx

/-- The function `VEditUtils::moveCursorFirstNonSpaceCharacter`. -/
def moveCursorFirstNonSpaceCharacter (doc : QTextDocument) (p_cursor : QTextCursor)
    (p_mode : MoveMode) : QTextCursor :=
  let text := doc.blockText p_cursor.position
  let idx := firstNonSpaceLoop text 0
  p_cursor.setPosition doc ((doc.blockPosition p_cursor.position : Int) + idx) p_mode

/-- The function `VEditUtils::indentBlockAsPreviousBlock`.  The pattern `(^\s*)` always
matches at index 0 and captures the leading whitespace. -/
def indentBlockAsPreviousBlock (doc : QTextDocument) (p_cursor : QTextCursor) : EditResult :=
  if doc.blockNumber p_cursor.position = 0 then ⟨false, doc, p_cursor⟩
  else
    let text := doc.blockText (doc.blockPosition p_cursor.position - 1)
    let leadingSpaces := text.takeWhile isSpace
    let c1 := moveCursorFirstNonSpaceCharacter doc p_cursor .MoveAnchor
    let r1 : EditResult :=
      if ¬ c1.atBlockStart doc then
        let c2 := (c1.movePosition doc .StartOfBlock .KeepAnchor).2
        let s := c2.removeSelectedText doc
        ⟨true, s.1, s.2⟩
      else ⟨false, doc, c1⟩
    if ¬ leadingSpaces.isEmpty then
      let s := r1.cursor.insertText r1.doc leadingSpaces
      ⟨true, s.1, s.2⟩
    else r1

/-- A well-formed document: no block text holds a character that Qt stores as a block
separator (the separator itself, newline, carriage return, frame marks). -/
def PlainBlocks (bs : List (List Char)) : Prop := ∀ b ∈ bs, ∀ c ∈ b, isBlockBreak c = false

/-! ## `VEditUtils::isListBlock` -/

/-- The function `VEditUtils::isListBlock` on the text of the block: the result and the
value stored through `p_seq`; `none` when `V_ASSERT` aborts (see
`insertListMarkAsPreviousBlock`). -/
def isListBlock (assertsOn : Bool) (text : List Char) : Option (Bool × Int) :=
  match listMarkCapture text with
  | none => some (false, -1)
  | some markText =>
    if markText ≠ ['-'] then
      if assertsOn ∧ markText.getLast? ≠ some '.' then none
      else
        let r := qStringToInt markText.dropLast
        if assertsOn ∧ r.1 = false then none
        else some (true, r.2)
    else some (true, -1)

/-! ## `VEditUtils::removeObjectReplacementCharacter` -/

/-- The character `QChar::ObjectReplacementCharacter`. -/
def objectReplacementCharacter : Char := Char.ofNat 0xfffc

/-- The class `[ |\t]` of the pattern in the source: space, vertical bar, tab. -/
def orcPadSource (c : Char) : Bool := c == ' ' || c == '|' || c == '\t'

/-- Modelled from the spec: the class `[ \t]` of the pattern as the specification writes
it, space and tab only. -/
def orcPadSpec (c : Char) : Bool := c == ' ' || c == '\t'

/-- Length of the match of `[\n|^]pad*\xfffc pad*(?=\n)` at the head of `s`, if there is
one.  The first class holds newline, vertical bar and caret.  The starred classes hold
neither `U+FFFC` nor newline, so the greedy match never has to give a character back. -/
def orcMatchLength (pad : Char → Bool) (s : List Char) : Option Nat :=
  match s with
  | [] => none
  | c :: rest =>
    if c = '\n' ∨ c = '|' ∨ c = '^' then
      match rest.dropWhile pad with
      | x :: rest2 =>
        if x = objectReplacementCharacter then
          match rest2.dropWhile pad with
          | y :: _ =>
            if y = '\n' then
              some (1 + (rest.takeWhile pad).length + 1 + (rest2.takeWhile pad).length)
            else none
          | [] => none
        else none
      | [] => none
    else none

/-- The call `QString::remove(const QRegExp &)` for that pattern: every match is removed,
leftmost first, the search going on after each match.  Each round takes at least one
character, so `fuel = |s|` rounds reach the end of the text. -/
def orcRemoveMatches (pad : Char → Bool) : Nat → List Char → List Char
  | 0, s => s
  | fuel + 1, s =>
    match orcMatchLength pad s with
    | some n => orcRemoveMatches pad fuel (s.drop n)
    | none =>
      match s with
      | [] => []
      | c :: rest => c :: orcRemoveMatches pad fuel rest

/-- The function `VEditUtils::removeObjectReplacementCharacter`. -/
def removeObjectReplacementCharacter (p_text : List Char) : List Char :=
  (orcRemoveMatches orcPadSource p_text.length p_text).filter
    (fun c => c != objectReplacementCharacter)

/-- Modelled from the spec: the result the specification describes, every match of
`[\n|^][ \t]*￼[ \t]*(?=\n)` removed and then every remaining `U+FFFC`. -/
def removeObjectReplacementCharacterSpec (text : List Char) : List Char :=
  (orcRemoveMatches orcPadSpec text.length text).filter
    (fun c => c != objectReplacementCharacter)

/-! ## The positions `selectPairTargetAround` reads -/

/-- The positions the leftward loop of `scanOpening` passes to `characterAt`, in order. -/
def scanOpeningReads (doc : QTextDocument) (p_opening p_closing : Char) (start : Int) :
    Nat → Int → Int → List Int
  | 0, _, _ => []
  | fuel + 1, i, nrPair =>
    if i ≥ start then
      let ch := doc.characterAt i
      if ch = p_opening then
        if nrPair - 1 = 0 then [i]
        else i :: scanOpeningReads doc p_opening p_closing start fuel (i - 1) (nrPair - 1)
      else if ch = p_closing then
        i :: scanOpeningReads doc p_opening p_closing start fuel (i - 1) (nrPair + 1)
      else i :: scanOpeningReads doc p_opening p_closing start fuel (i - 1) nrPair
    else []

/-- The positions the rightward loop of `scanClosing` passes to `characterAt`, in order. -/
def scanClosingReads (doc : QTextDocument) (p_opening p_closing : Char) (end_ : Int) :
    Nat → Int → Int → List Int
  | 0, _, _ => []
  | fuel + 1, j, nrPair =>
    if j ≤ end_ then
      let ch := doc.characterAt j
      if ch = p_closing then
        if nrPair - 1 = 0 then [j]
        else j :: scanClosingReads doc p_opening p_closing end_ fuel (j + 1) (nrPair - 1)
      else if ch = p_opening then
        j :: scanClosingReads doc p_opening p_closing end_ fuel (j + 1) (nrPair + 1)
      else j :: scanClosingReads doc p_opening p_closing end_ fuel (j + 1) nrPair
    else []

/-- The positions one pass through the code after the label `round:` passes to
`characterAt`, in order.  The pass reads `closing`, runs the leftward loop when that
character is the closing, reads `opening` (already moved when the loop found it), runs the
rightward loop when nothing is found yet and that character is the opening, and, when
still nothing is found, reads `opening` and then (if the first test holds) `closing` for
the test of the third strategy before its two loops. -/
def pairRoundReads (doc : QTextDocument) (p_opening p_closing : Char) (start end_ : Int)
    (opening closing : Int) : List Int :=
  let i0 := if opening = closing then opening - 1 else opening
  let onClosing : Bool := doc.characterAt closing = p_closing
  let i := scanOpening doc p_opening p_closing start (leftFuel start i0) i0 1
  let reads1 : List Int :=
    closing ::
      (if onClosing then scanOpeningReads doc p_opening p_closing start (leftFuel start i0) i0 1
       else [])
  if onClosing ∧ i ≥ start then reads1 ++ [i]
  else
    let j0 := if opening = closing then closing + 1 else closing
    let onOpening : Bool := doc.characterAt opening = p_opening
    let j := scanClosing doc p_opening p_closing end_ (rightFuel end_ j0) j0 1
    let reads2 : List Int :=
      opening ::
        (if onOpening then
          scanClosingReads doc p_opening p_closing end_ (rightFuel end_ j0) j0 1
         else [])
    if onOpening ∧ j ≤ end_ then reads1 ++ reads2
    else
      let test : List Int :=
        opening :: (if doc.characterAt opening ≠ p_opening then [closing] else [])
      if doc.characterAt opening ≠ p_opening ∧ doc.characterAt closing ≠ p_closing then
        let i3 := scanOpening doc p_opening p_closing start (leftFuel start (opening - 1))
          (opening - 1) 1
        reads1 ++ reads2 ++ test
          ++ scanOpeningReads doc p_opening p_closing start (leftFuel start (opening - 1))
              (opening - 1) 1
          ++ (if i3 ≥ start then
                scanClosingReads doc p_opening p_closing end_ (rightFuel end_ (closing + 1))
                  (closing + 1) 1
              else [])
      else reads1 ++ reads2 ++ test

/-- The positions the rounds of `selectPairTargetAround` pass to `characterAt`; the rounds
go on as in `pairRounds`. -/
def pairRoundsReads (doc : QTextDocument) (p_opening p_closing : Char) (start end_ : Int) :
    Nat → Int → Int → List Int
  | 0, _, _ => []
  | p_repeat + 1, opening, closing =>
    pairRoundReads doc p_opening p_closing start end_ opening closing ++
      match pairRound doc p_opening p_closing start end_ opening closing with
      | none => []
      | some (o, c) =>
        if p_repeat = 0 then []
        else if o - 1 < start ∧ c + 1 > end_ then []
        else pairRoundsReads doc p_opening p_closing start end_ p_repeat (o - 1) (c + 1)

/-- Every position `selectPairTargetAround` passes to `characterAt`, in order, starting
with the read of `Q_ASSERT(!doc->characterAt(pos).isNull())`.  The final placement of the
cursor reads nothing, so `p_inclusive` plays no part. -/
def selectPairTargetAroundReads (doc : QTextDocument) (p_cursor : QTextCursor)
    (p_opening p_closing : Char) (p_crossBlock : Bool) (p_repeat : Nat) : List Int :=
  let pos : Int := p_cursor.position
  let start : Int := if p_crossBlock then 0 else doc.blockPosition p_cursor.position
  let end_ : Int :=
    if p_crossBlock then (doc.characterCount : Int) - 1
    else (doc.blockPosition p_cursor.position : Int) + doc.blockLength p_cursor.position - 1
  if start = end_ ∨ pos > end_ then []
  else pos :: pairRoundsReads doc p_opening p_closing start end_ p_repeat pos pos

/-! ## `VEditUtils::scrollBlockInPage` -/

/-- The state of a `QScrollBar` the function uses. -/
structure QScrollBar where
  minimum : Int
  maximum : Int
  value : Int
  singleStep : Int
deriving DecidableEq

/-- The call `QAbstractSlider::setValue`: the value is bound to `[minimum, maximum]` as
`qMax(minimum, qMin(maximum, value))`. -/
def QScrollBar.setValue (sb : QScrollBar) (v : Int) : QScrollBar :=
  { sb with value := max sb.minimum (min sb.maximum v) }

/-- The loop `while (rect.y() > limit && vsbar->value() < vsbar->maximum())` with the body
`vsbar->setValue(vsbar->value() + vsbar->singleStep()); rect = p_edit->cursorRect();`.
The viewport is given by `ys`: `ys n` is `rect.y()` after `n` nudges (`ys 0` is the
rectangle read before the loops).  The sum is an `int`.  The fuel bounds the number of
tests of the condition; the result is the final scrollbar and the number of nudges, or
`none` when the loop is still running once the fuel is spent. -/
def scrollForward (ys : Nat → Int) (limit : Int) : Nat → Nat → QScrollBar →
    Option (QScrollBar × Nat)
  | 0, _, _ => none
  | fuel + 1, n, sb =>
    if ys n > limit ∧ sb.value < sb.maximum then
      scrollForward ys limit fuel (n + 1) (sb.setValue (wrapInt (sb.value + sb.singleStep)))
    else some (sb, n)

/-- The loop `while (rect.y() < limit && vsbar->value() > vsbar->minimum())` with the body
`vsbar->setValue(vsbar->value() - vsbar->singleStep()); rect = p_edit->cursorRect();`. -/
def scrollBackward (ys : Nat → Int) (limit : Int) : Nat → Nat → QScrollBar →
    Option (QScrollBar × Nat)
  | 0, _, _ => none
  | fuel + 1, n, sb =>
    if ys n < limit ∧ sb.value > sb.minimum then
      scrollBackward ys limit fuel (n + 1) (sb.setValue (wrapInt (sb.value - sb.singleStep)))
    else some (sb, n)

/-- The `switch (p_dest)` of `VEditUtils::scrollBlockInPage`, entered with a visible
vertical scrollbar `vsbar`, the viewport height `height` (the horizontal scrollbar already
taken off) and the cursor rectangles `ys`.  What precedes the switch moves the cursor to
the block and has no loop.  The result is the final scrollbar and the number of nudges. -/
def scrollBlockInPage (vsbar : QScrollBar) (height : Int) (ys : Nat → Int) (p_dest : Int)
    (fuel : Nat) : Option (QScrollBar × Nat) :=
  if p_dest = 0 then scrollForward ys 0 fuel 0 vsbar
  else if p_dest = 1 then
    let height := max (height.tdiv 2) 1
    if ys 0 > height then scrollForward ys height fuel 0 vsbar
    else if ys 0 < height then scrollBackward ys height fuel 0 vsbar
    else some (vsbar, 0)
  else if p_dest = 2 then scrollBackward ys height fuel 0 vsbar
  else some (vsbar, 0)

/-! ## `VEditUtils::indentSelectedBlocks`, `indentBlock` and `unindentBlock` -/

/-- The loop `for (int i = 0; i < width; ++i)` of `unindentBlock`, with `n = width - i`
rounds left: a `deleteChar` for each space of the block text read before the edit.  An
index beyond the text reads as the null character. -/
def unindentLoop (gb : GraphemeBoundary) (text : List Char) :
    Nat → Nat → QTextDocument × QTextCursor → QTextDocument × QTextCursor
  | 0, _, s => s
  | n + 1, i, s =>
    if text.getD i nullChar = ' ' then
      unindentLoop gb text n (i + 1) (s.2.deleteChar gb s.1)
    else s

/-- The function `VEditUtils::unindentBlock`. -/
def unindentBlock (gb : GraphemeBoundary) (doc : QTextDocument) (p_cursor : QTextCursor)
    (p_indentationText : List Char) : QTextDocument × QTextCursor :=
  let text := doc.blockText p_cursor.position
  if text.isEmpty then (doc, p_cursor)
  else
    let c1 := (p_cursor.movePosition doc .StartOfBlock .MoveAnchor).2
    if text.getD 0 nullChar = '\t' then c1.deleteChar gb doc
    else if isSpace (text.getD 0 nullChar) then
      unindentLoop gb text p_indentationText.length 0 (doc, c1)
    else (doc, c1)

/-- Modelled from the spec: the text of a touched block after an unindent, `T` without its
first character if `T` starts with a tab, otherwise `T` without its first `j` characters,
`j` being the number of consecutive leading spaces of `T` capped at `|I|`. -/
def specUnindentedText (I T : List Char) : List Char :=
  if T.head? = some '\t' then T.drop 1
  else T.drop (min I.length (T.takeWhile (fun c => c == ' ')).length)

/-- Modelled from the spec: the number of characters the specification takes off a touched
block on unindent, one for a leading tab, otherwise the number of leading spaces capped at
`|I|`. -/
def specUnindentCount (I T : List Char) : Nat :=
  if T.head? = some '\t' then 1
  else min I.length (T.takeWhile (fun c => c == ' ')).length

/-- The first `n` characters of the block text `T` are grapheme clusters of their own: in
`T` without its first `k < n` characters, the second character, if there is one, starts a
cluster.  Then `n` calls of `deleteChar` at the block start remove one character each. -/
def DeletesByCharacter (gb : GraphemeBoundary) (T : List Char) (n : Nat) : Prop :=
  ∀ k, k < n → 1 < (T.drop k).length → gb (T.drop k) 1 = true

instance (gb : GraphemeBoundary) (T : List Char) (n : Nat) :
    Decidable (DeletesByCharacter gb T n) := by
  unfold DeletesByCharacter
  infer_instance

/-! ## The indices `unindentBlock` reads in the block text -/

/-- The indices the loop of `unindentBlock` passes to `text[i]`, in order, with `n` rounds
left from index `i`. -/
def unindentLoopReads (text : List Char) : Nat → Nat → List Nat
  | 0, _ => []
  | n + 1, i =>
    i :: (if text.getD i nullChar = ' ' then unindentLoopReads text n (i + 1) else [])

/-- The indices at which `unindentBlock` reads the block text, in order: `text[0]` for the
test of the tab, `text[0]` again for the test of `isSpace`, then the reads of the loop. -/
def unindentBlockReads (doc : QTextDocument) (p_cursor : QTextCursor)
    (p_indentationText : List Char) : List Nat :=
  let text := doc.blockText p_cursor.position
  if text.isEmpty then []
  else
    0 :: (if text.getD 0 nullChar = '\t' then []
      else
        0 :: (if isSpace (text.getD 0 nullChar) then
            unindentLoopReads text p_indentationText.length 0
          else []))

/-! # Theorems -/

/-! ### Pair selection -/

theorem excess_nil (O C : Char) : excess O C [] = 0 := rfl

theorem excess_cons (O C c : Char) (l : List Char) :
    excess O C (c :: l) = delta O C c + excess O C l := by
  simp [excess]

theorem excess_append (O C : Char) (l₁ l₂ : List Char) :
    excess O C (l₁ ++ l₂) = excess O C l₁ + excess O C l₂ := by
  simp [excess]

theorem balancedFrom_excess (O C : Char) :
    ∀ (l : List Char) (d : Nat), balancedFrom O C d l = true →
      (d : Int) + excess O C l = 0 ∧ ∀ k, 0 ≤ (d : Int) + excess O C (l.take k) := by
  intro l
  induction l with
  | nil =>
    intro d h
    simp [balancedFrom] at h
    simp [excess_nil, h]
  | cons c cs ih =>
    intro d h
    unfold balancedFrom at h
    by_cases hO : c = O
    · rw [if_pos hO] at h
      obtain ⟨h1, h2⟩ := ih (d + 1) h
      have hd : delta O C c = 1 := by simp [delta, hO]
      refine ⟨by rw [excess_cons, hd]; push_cast at h1; omega, ?_⟩
      intro k
      cases k with
      | zero => simp [excess_nil]
      | succ k =>
        have := h2 k
        rw [List.take_succ_cons, excess_cons, hd]
        push_cast at this; omega
    · rw [if_neg hO] at h
      by_cases hC : c = C
      · rw [if_pos hC] at h
        simp only [Bool.and_eq_true, bne_iff_ne, ne_eq] at h
        obtain ⟨hd0, h⟩ := h
        obtain ⟨h1, h2⟩ := ih (d - 1) h
        have hd : delta O C c = -1 := by unfold delta; rw [if_neg hO, if_pos hC]
        have hcast : ((d - 1 : Nat) : Int) = (d : Int) - 1 := by omega
        refine ⟨by rw [excess_cons, hd]; rw [hcast] at h1; omega, ?_⟩
        intro k
        cases k with
        | zero => simp [excess_nil]
        | succ k =>
          have := h2 k
          rw [List.take_succ_cons, excess_cons, hd]
          rw [hcast] at this; omega
      · rw [if_neg hC] at h
        obtain ⟨h1, h2⟩ := ih d h
        have hd : delta O C c = 0 := by simp [delta, hO, hC]
        refine ⟨by rw [excess_cons, hd]; omega, ?_⟩
        intro k
        cases k with
        | zero => simp [excess_nil]
        | succ k =>
          have := h2 k
          rw [List.take_succ_cons, excess_cons, hd]
          omega

theorem characterAt_mid (doc : QTextDocument) (pre post : List Char) (c : Char)
    (h : doc.text = pre ++ c :: post) : doc.characterAt (pre.length : Int) = c := by
  unfold QTextDocument.characterAt
  have h1 : ¬ ((pre.length : Int) < 0) := by omega
  have h2 : ((pre.length : Int)).toNat < doc.text.length := by
    rw [h]; simp
  rw [if_neg h1, if_pos h2, h, Int.toNat_ofNat, List.getD_eq_getElem?_getD,
    List.getElem?_append_right (Nat.le_refl _)]
  simp

theorem scanClosing_succ (doc : QTextDocument) (O C : Char) (end_ : Int) (fuel : Nat)
    (j nrPair : Int) :
    scanClosing doc O C end_ (fuel + 1) j nrPair =
      if j ≤ end_ then
        if doc.characterAt j = C then
          if nrPair - 1 = 0 then j
          else scanClosing doc O C end_ fuel (j + 1) (nrPair - 1)
        else if doc.characterAt j = O then
          scanClosing doc O C end_ fuel (j + 1) (nrPair + 1)
        else scanClosing doc O C end_ fuel (j + 1) nrPair
      else j := rfl

theorem scanOpening_succ (doc : QTextDocument) (O C : Char) (start : Int) (fuel : Nat)
    (i nrPair : Int) :
    scanOpening doc O C start (fuel + 1) i nrPair =
      if i ≥ start then
        if doc.characterAt i = O then
          if nrPair - 1 = 0 then i
          else scanOpening doc O C start fuel (i - 1) (nrPair - 1)
        else if doc.characterAt i = C then
          scanOpening doc O C start fuel (i - 1) (nrPair + 1)
        else scanOpening doc O C start fuel (i - 1) nrPair
      else i := rfl

theorem scanClosing_pass (doc : QTextDocument) (O C : Char) (end_ : Int) (hOC : O ≠ C) :
    ∀ (l pre post : List Char) (fuel : Nat) (m : Int),
      doc.text = pre ++ l ++ post →
      (pre.length : Int) + l.length ≤ end_ + 1 →
      l.length ≤ fuel →
      (∀ k, 1 ≤ m + excess O C (l.take k)) →
      scanClosing doc O C end_ fuel pre.length m
        = scanClosing doc O C end_ (fuel - l.length) ((pre.length : Int) + l.length)
            (m + excess O C l) := by
  intro l
  induction l with
  | nil =>
    intro pre post fuel m _ _ _ _
    simp [excess_nil]
  | cons c cs ih =>
    intro pre post fuel m htext hend hfuel hk
    obtain ⟨f, rfl⟩ : ∃ f, fuel = f + 1 := ⟨fuel - 1, by simp at hfuel; omega⟩
    have hch : doc.characterAt (pre.length : Int) = c :=
      characterAt_mid doc pre (cs ++ post) c (by rw [htext]; simp)
    have htext' : doc.text = (pre ++ [c]) ++ cs ++ post := by rw [htext]; simp
    have hlen : (((pre ++ [c]).length : Nat) : Int) = (pre.length : Int) + 1 := by simp
    have hj : (pre.length : Int) ≤ end_ := by simp at hend; omega
    have hend' : (((pre ++ [c]).length : Nat) : Int) + cs.length ≤ end_ + 1 := by
      rw [hlen]; simp at hend; omega
    have hfuel' : cs.length ≤ f := by simp at hfuel; omega
    have hk1 := hk 1
    simp only [List.take_succ_cons, List.take_zero, excess_cons, excess_nil] at hk1
    have hstep : ∀ k, 1 ≤ (m + delta O C c) + excess O C (cs.take k) := by
      intro k
      have := hk (k + 1)
      rw [List.take_succ_cons, excess_cons] at this
      omega
    have key := ih (pre ++ [c]) post f (m + delta O C c) htext' hend' hfuel' hstep
    rw [hlen] at key
    have hgoal : (pre.length : Int) + ((c :: cs).length : Nat) = (pre.length : Int) + 1 + cs.length := by
      simp; omega
    have hf : f + 1 - (c :: cs).length = f - cs.length := by simp
    rw [hgoal, hf, excess_cons, ← add_assoc, ← key]
    rw [scanClosing_succ, if_pos hj, hch]
    by_cases hC : c = C
    · have hO : c ≠ O := fun h => hOC (h.symm.trans hC)
      have hd : delta O C c = -1 := by unfold delta; rw [if_neg hO, if_pos hC]
      rw [hd] at hk1
      have hne : ¬ (m - 1 = 0) := by omega
      rw [if_pos hC, if_neg hne, hd, ← Int.sub_eq_add_neg]
    · rw [if_neg hC]
      by_cases hO : c = O
      · have hd : delta O C c = 1 := by simp [delta, hO]
        rw [if_pos hO, hd]
      · have hd : delta O C c = 0 := by simp [delta, hO, hC]
        rw [if_neg hO, hd, add_zero]

theorem scanOpening_pass (doc : QTextDocument) (O C : Char) (start : Int) :
    ∀ (l pre post : List Char) (fuel : Nat) (m : Int),
      doc.text = pre ++ l ++ post →
      start ≤ (pre.length : Int) →
      l.length ≤ fuel →
      (∀ k, 1 ≤ m - excess O C (l.drop k)) →
      scanOpening doc O C start fuel ((pre.length : Int) + l.length - 1) m
        = scanOpening doc O C start (fuel - l.length) ((pre.length : Int) - 1)
            (m - excess O C l) := by
  intro l
  induction l using List.reverseRecOn with
  | nil =>
    intro pre post fuel m _ _ _ _
    simp [excess_nil]
  | append_singleton cs c ih =>
    intro pre post fuel m htext hstart hfuel hk
    obtain ⟨f, rfl⟩ : ∃ f, fuel = f + 1 := ⟨fuel - 1, by simp at hfuel; omega⟩
    have hch : doc.characterAt (((pre ++ cs).length : Nat) : Int) = c :=
      characterAt_mid doc (pre ++ cs) post c (by rw [htext]; simp)
    have hpos : (pre.length : Int) + ((cs ++ [c]).length : Nat) - 1
        = (((pre ++ cs).length : Nat) : Int) := by simp; omega
    have htext' : doc.text = pre ++ cs ++ (c :: post) := by rw [htext]; simp
    have hfuel' : cs.length ≤ f := by simp at hfuel; omega
    have hk1 := hk cs.length
    rw [List.drop_left, excess_cons, excess_nil] at hk1
    have hstep : ∀ k, 1 ≤ (m - delta O C c) - excess O C (cs.drop k) := by
      intro k
      by_cases hle : k ≤ cs.length
      · have := hk k
        rw [List.drop_append_of_le_length hle, excess_append, excess_cons, excess_nil] at this
        omega
      · rw [List.drop_eq_nil_of_le (by omega), excess_nil]
        omega
    have key := ih pre (c :: post) f (m - delta O C c) htext' hstart hfuel' hstep
    have hi : (((pre ++ cs).length : Nat) : Int) ≥ start := by simp; omega
    have hf : f + 1 - (cs ++ [c]).length = f - cs.length := by simp
    have hprev : (((pre ++ cs).length : Nat) : Int) - 1 = (pre.length : Int) + cs.length - 1 := by
      simp
    have hex : m - excess O C (cs ++ [c]) = m - delta O C c - excess O C cs := by
      rw [excess_append, excess_cons, excess_nil]; omega
    rw [hpos, hf, hex, ← key, scanOpening_succ, if_pos hi, hch, hprev]
    by_cases hO : c = O
    · have hd : delta O C c = 1 := by simp [delta, hO]
      rw [hd] at hk1
      have hne : ¬ (m - 1 = 0) := by omega
      rw [if_pos hO, if_neg hne, hd]
    · rw [if_neg hO]
      by_cases hC : c = C
      · have hd : delta O C c = -1 := by unfold delta; rw [if_neg hO, if_pos hC]
        rw [if_pos hC, hd, Int.sub_neg]
      · have hd : delta O C c = 0 := by simp [delta, hO, hC]
        rw [if_neg hC, hd, sub_zero]

theorem balanced_take (O C : Char) (l : List Char) (h : balanced O C l = true) (k : Nat) :
    0 ≤ excess O C (l.take k) := by
  have := (balancedFrom_excess O C l 0 h).2 k
  simpa using this

theorem balanced_excess (O C : Char) (l : List Char) (h : balanced O C l = true) :
    excess O C l = 0 := by
  have := (balancedFrom_excess O C l 0 h).1
  simpa using this

theorem balanced_drop (O C : Char) (l : List Char) (h : balanced O C l = true) (k : Nat) :
    excess O C (l.drop k) ≤ 0 := by
  have h1 := balanced_take O C l h k
  have h2 := balanced_excess O C l h
  have h3 : excess O C (l.take k ++ l.drop k) = excess O C l := by rw [List.take_append_drop]
  rw [excess_append] at h3
  omega

/-- The rightward loop started with `nrPair = 1` just before a balanced stretch that is
followed by a closing stops on that closing. -/
theorem scanClosing_balanced (doc : QTextDocument) (O C : Char) (end_ : Int) (hOC : O ≠ C)
    (pre l post : List Char) (fuel : Nat)
    (htext : doc.text = pre ++ l ++ C :: post)
    (hbal : balanced O C l = true)
    (hend : (pre.length : Int) + l.length ≤ end_)
    (hfuel : l.length + 1 ≤ fuel) :
    scanClosing doc O C end_ fuel pre.length 1 = (pre.length : Int) + l.length := by
  have hpass := scanClosing_pass doc O C end_ hOC l pre (C :: post) fuel 1 htext
    (by omega) (by omega) (fun k => by have := balanced_take O C l hbal k; omega)
  rw [hpass, balanced_excess O C l hbal]
  obtain ⟨f, hf⟩ : ∃ f, fuel - l.length = f + 1 := ⟨fuel - l.length - 1, by omega⟩
  have hch : doc.characterAt (((pre ++ l).length : Nat) : Int) = C :=
    characterAt_mid doc (pre ++ l) post C (by rw [htext])
  have hlen : (((pre ++ l).length : Nat) : Int) = (pre.length : Int) + l.length := by simp
  rw [hlen] at hch
  rw [hf, scanClosing_succ, if_pos hend, hch]
  simp

/-- The leftward loop started with `nrPair = 1` just after a balanced stretch that is
preceded by an opening stops on that opening. -/
theorem scanOpening_balanced (doc : QTextDocument) (O C : Char) (start : Int)
    (pre l post : List Char) (fuel : Nat)
    (htext : doc.text = pre ++ O :: l ++ post)
    (hbal : balanced O C l = true)
    (hstart : start ≤ (pre.length : Int))
    (hfuel : l.length + 1 ≤ fuel) :
    scanOpening doc O C start fuel ((pre.length : Int) + l.length) 1 = (pre.length : Int) := by
  have htext' : doc.text = (pre ++ [O]) ++ l ++ post := by rw [htext]; simp
  have hpass := scanOpening_pass doc O C start l (pre ++ [O]) post fuel 1 htext'
    (by simp; omega) (by omega) (fun k => by have := balanced_drop O C l hbal k; omega)
  have hlen : (((pre ++ [O]).length : Nat) : Int) = (pre.length : Int) + 1 := by simp
  rw [hlen] at hpass
  have hidx : (pre.length : Int) + l.length = (pre.length : Int) + 1 + l.length - 1 := by omega
  rw [hidx, hpass, balanced_excess O C l hbal]
  obtain ⟨f, hf⟩ : ∃ f, fuel - l.length = f + 1 := ⟨fuel - l.length - 1, by omega⟩
  have hch : doc.characterAt (pre.length : Int) = O :=
    characterAt_mid doc pre (l ++ post) O (by rw [htext]; simp)
  have h0 : (pre.length : Int) + 1 - 1 = pre.length := by omega
  rw [hf, h0, scanOpening_succ, if_pos hstart, hch]
  simp

/-! ### Blocks of a document -/

theorem blockPosition_le (doc : QTextDocument) (p : Nat) : doc.blockPosition p ≤ p := by
  unfold QTextDocument.blockPosition
  omega

/-- The buffer splits into what precedes the block of `p`, the block text, and the rest. -/
theorem block_frame (doc : QTextDocument) (p : Nat) :
    doc.text = doc.text.take (doc.blockPosition p) ++ doc.blockText p
      ++ (doc.text.drop (doc.blockPosition p)).dropWhile (fun c => c != paragraphSeparator) := by
  unfold QTextDocument.blockText
  rw [List.append_assoc, List.takeWhile_append_dropWhile, List.take_append_drop]

theorem blockText_length_le (doc : QTextDocument) (p : Nat) :
    doc.blockPosition p + (doc.blockText p).length ≤ doc.text.length ∨ doc.blockText p = [] := by
  by_cases h : doc.blockPosition p ≤ doc.text.length
  · left
    have h1 : (doc.blockText p).length ≤ (doc.text.drop (doc.blockPosition p)).length := by
      unfold QTextDocument.blockText
      exact (List.takeWhile_sublist _).length_le
    rw [List.length_drop] at h1
    omega
  · right
    unfold QTextDocument.blockText
    rw [List.drop_eq_nil_of_le (by omega)]
    rfl

theorem delta_eq_zero (O C x : Char) (h : delta O C x = 0) : x ≠ O ∧ x ≠ C := by
  unfold delta at h
  by_cases hO : x = O
  · rw [if_pos hO] at h; omega
  · rw [if_neg hO] at h
    by_cases hC : x = C
    · rw [if_pos hC] at h; omega
    · exact ⟨hO, hC⟩

/-- One round with the caret on a character `x` that is no delimiter, between an opening
and a closing with balanced stretches on both sides: strategy 3 finds exactly that pair. -/
theorem pairRound_between (doc : QTextDocument) (O C : Char) (start end_ : Int) (hOC : O ≠ C)
    (pre L R post : List Char) (x : Char)
    (htext : doc.text = pre ++ O :: L ++ x :: R ++ C :: post)
    (hL : balanced O C L = true) (hR : balanced O C R = true)
    (hx : delta O C x = 0)
    (hstart : start ≤ (pre.length : Int))
    (hend : (pre.length : Int) + 1 + L.length + 1 + R.length ≤ end_) :
    pairRound doc O C start end_ ((pre.length : Int) + 1 + L.length)
        ((pre.length : Int) + 1 + L.length)
      = some ((pre.length : Int), (pre.length : Int) + 1 + L.length + 1 + R.length) := by
  obtain ⟨hxO, hxC⟩ := delta_eq_zero O C x hx
  have hch : doc.characterAt ((pre.length : Int) + 1 + L.length) = x := by
    have h := characterAt_mid doc (pre ++ O :: L) (R ++ C :: post) x (by rw [htext]; simp)
    have h2 : (((pre ++ O :: L).length : Nat) : Int) = (pre.length : Int) + 1 + L.length := by
      simp; omega
    rw [h2] at h
    exact h
  have hleft : scanOpening doc O C start
      (leftFuel start ((pre.length : Int) + 1 + L.length - 1))
      ((pre.length : Int) + 1 + L.length - 1) 1 = (pre.length : Int) := by
    have h1 : (pre.length : Int) + 1 + L.length - 1 = (pre.length : Int) + L.length := by omega
    rw [h1]
    exact scanOpening_balanced doc O C start pre L (x :: R ++ C :: post) _
      (by rw [htext]; simp) hL hstart (by unfold leftFuel; omega)
  have hright : scanClosing doc O C end_
      (rightFuel end_ ((pre.length : Int) + 1 + L.length + 1))
      ((pre.length : Int) + 1 + L.length + 1) 1
        = (pre.length : Int) + 1 + L.length + 1 + R.length := by
    have h := scanClosing_balanced doc O C end_ hOC (pre ++ O :: L ++ [x]) R post
      (rightFuel end_ ((pre.length : Int) + 1 + L.length + 1))
      (by rw [htext]; simp) hR (by simp; omega) (by unfold rightFuel; omega)
    have h2 : (((pre ++ O :: L ++ [x]).length : Nat) : Int)
        = (pre.length : Int) + 1 + L.length + 1 := by simp; omega
    rw [h2] at h
    exact h
  unfold pairRound
  simp only [hch, hxC, hxO, if_false, ne_eq, not_false_eq_true, and_self, if_true, hleft,
    hright]
  simp [hstart, hend]

theorem pairRounds_one (doc : QTextDocument) (O C : Char) (start end_ opening closing : Int) :
    pairRounds doc O C start end_ 1 opening closing
      = pairRound doc O C start end_ opening closing := by
  unfold pairRounds
  cases pairRound doc O C start end_ opening closing with
  | none => rfl
  | some oc => simp

theorem setPosition_ok (doc : QTextDocument) (c : QTextCursor) (n : Nat) (m : MoveMode)
    (h : n < doc.characterCount) :
    c.setPosition doc (n : Int) m
      = match m with
        | .MoveAnchor => ⟨n, n⟩
        | .KeepAnchor => ⟨n, c.anchor⟩ := by
  unfold QTextCursor.setPosition
  have hg : ¬ ((n : Int) < 0 ∨ (n : Int) ≥ (doc.characterCount : Int)) := by omega
  rw [if_neg hg, Int.toNat_ofNat]

theorem selectedText_frame (doc : QTextDocument) (pre M post : List Char) (p a : Nat)
    (h : doc.text = pre ++ M ++ post) (ha : a = pre.length) (hp : p = pre.length + M.length) :
    QTextCursor.selectedText doc ⟨p, a⟩ = M := by
  unfold QTextCursor.selectedText QTextCursor.selectionStart QTextCursor.selectionEnd
  simp only
  have h1 : min p a = pre.length := by omega
  have h2 : max p a - pre.length = M.length := by omega
  rw [h1, h2, h, List.append_assoc, List.drop_left' rfl, List.take_left' rfl]

/-- C1: `selectPairTargetAround` with repeat 1 on the innermost enclosing pair.  The block
text is `A ++ O :: L ++ x :: R ++ C :: B` with the caret on `x`: the opening at index
`a = |A|` and the closing at index `b = |A| + |L| + |R| + 2` match (the text between them
is balanced), and no delimiter is left unpaired between the opening and the caret (`L` is
balanced) nor between the caret and the closing (`R` is balanced).  Then, with or without
`p_crossBlock`, the call returns true; in inner mode the selection runs from `a + 1` to
`b` and is exactly `L ++ x :: R`, in outer mode it runs from `a` to `b + 1` and is
`O :: L ++ x :: R ++ [C]`.  Nothing is assumed about the text outside the pair. -/
theorem selectPairTargetAround_innermost
    (doc : QTextDocument) (cur : QTextCursor) (O C : Char) (incl cross : Bool)
    (A L R B : List Char) (x : Char)
    (hOC : O ≠ C)
    (hblock : doc.blockText cur.position = A ++ O :: L ++ x :: R ++ C :: B)
    (hpos : cur.positionInBlock doc = A.length + 1 + L.length)
    (hmatch : balanced O C (L ++ x :: R) = true)
    (hL : balanced O C L = true) (hR : balanced O C R = true) :
    (selectPairTargetAround doc cur O C incl cross 1).1 = true
    ∧ (selectPairTargetAround doc cur O C incl cross 1).2.anchor
        = doc.blockPosition cur.position + (if incl then A.length else A.length + 1)
    ∧ (selectPairTargetAround doc cur O C incl cross 1).2.position
        = doc.blockPosition cur.position + A.length + 1 + L.length + 1 + R.length
            + (if incl then 1 else 0)
    ∧ (selectPairTargetAround doc cur O C incl cross 1).2.selectedText doc
        = (if incl then O :: (L ++ x :: R) ++ [C] else L ++ x :: R) := by
  have hsle := blockPosition_le doc cur.position
  have hcur : cur.position = doc.blockPosition cur.position + A.length + 1 + L.length := by
    unfold QTextCursor.positionInBlock at hpos
    omega
  have hTlen : (doc.blockText cur.position).length
      = A.length + 1 + L.length + 1 + R.length + 1 + B.length := by
    rw [hblock]; simp; omega
  have hfit : doc.blockPosition cur.position + (doc.blockText cur.position).length
      ≤ doc.text.length := by
    rcases blockText_length_le doc cur.position with h | h
    · exact h
    · rw [h] at hTlen; simp at hTlen; omega
  have hframe := block_frame doc cur.position
  rw [hblock] at hframe
  generalize hs : doc.blockPosition cur.position = s at *
  generalize hrest : (doc.text.drop s).dropWhile (fun c => c != paragraphSeparator) = rest
    at hframe
  have hprelen : (doc.text.take s ++ A).length = s + A.length := by
    rw [List.length_append, List.length_take]
    omega
  have htext : doc.text = (doc.text.take s ++ A) ++ O :: L ++ x :: R ++ C :: (B ++ rest) := by
    conv_lhs => rw [hframe]
    simp
  have hx : delta O C x = 0 := by
    have h1 := balanced_excess O C _ hmatch
    rw [excess_append, excess_cons, balanced_excess O C _ hL, balanced_excess O C _ hR] at h1
    omega
  have hblen : doc.blockLength cur.position
      = A.length + 1 + L.length + 1 + R.length + 1 + B.length + 1 := by
    unfold QTextDocument.blockLength
    rw [hTlen]
  have hcc : doc.characterCount = doc.text.length + 1 := rfl
  -- the search range contains the pair
  have hround : ∀ start end_ : Int, start ≤ (s : Int) + A.length →
      (s : Int) + A.length + 1 + L.length + 1 + R.length ≤ end_ →
      pairRounds doc O C start end_ 1 (cur.position : Int) (cur.position : Int)
        = some ((s : Int) + A.length, (s : Int) + A.length + 1 + L.length + 1 + R.length) := by
    intro start end_ h1 h2
    have := pairRound_between doc O C start end_ hOC (doc.text.take s ++ A) L R (B ++ rest) x
      htext hL hR hx (by rw [hprelen]; push_cast; exact h1) (by rw [hprelen]; push_cast; exact h2)
    rw [hprelen] at this
    push_cast at this
    rw [pairRounds_one, hcur]
    push_cast
    exact this
  have hstart : (if cross = true then (0 : Int) else (s : Int)) ≤ (s : Int) + A.length := by
    split <;> omega
  have hend : (s : Int) + A.length + 1 + L.length + 1 + R.length
      ≤ (if cross = true then (doc.characterCount : Int) - 1
          else (s : Int) + doc.blockLength cur.position - 1) := by
    split
    · rw [hcc]; push_cast; omega
    · rw [hblen]; push_cast; omega
  have hen : (if cross = true then (doc.characterCount : Int) - 1
          else (s : Int) + doc.blockLength cur.position - 1) ≤ doc.text.length := by
    split
    · rw [hcc]; push_cast; omega
    · rw [hblen]; push_cast; omega
  have hr := hround _ _ hstart hend
  have hval : selectPairTargetAround doc cur O C incl cross 1
      = (true, ⟨s + A.length + 1 + L.length + 1 + R.length + (if incl then 1 else 0),
                s + (if incl then A.length else A.length + 1)⟩) := by
    unfold selectPairTargetAround
    rw [hs]
    simp only [hr]
    generalize (if cross = true then (0 : Int) else (s : Int)) = st at *
    generalize (if cross = true then (doc.characterCount : Int) - 1
          else (s : Int) + doc.blockLength cur.position - 1) = en at *
    have hguard : ¬ (st = en ∨ (cur.position : Int) > en) := by omega
    rw [if_neg hguard]
    cases incl
    · have e1 : ((s : Int) + A.length + 1) = ((s + A.length + 1 : Nat) : Int) := by push_cast; rfl
      have e2 : ((s : Int) + A.length + 1 + L.length + 1 + R.length)
          = ((s + A.length + 1 + L.length + 1 + R.length : Nat) : Int) := by push_cast; rfl
      simp only [Bool.false_eq_true, if_false]
      rw [e2, e1, setPosition_ok _ _ _ _ (by omega), setPosition_ok _ _ _ _ (by omega)]
      rfl
    · have e1 : ((s : Int) + A.length) = ((s + A.length : Nat) : Int) := by push_cast; rfl
      have e2 : ((s : Int) + A.length + 1 + L.length + 1 + R.length + 1)
          = ((s + A.length + 1 + L.length + 1 + R.length + 1 : Nat) : Int) := by push_cast; rfl
      simp only [if_true]
      rw [e2, e1, setPosition_ok _ _ _ _ (by omega), setPosition_ok _ _ _ _ (by omega)]
  rw [hval]
  refine ⟨rfl, ?_, ?_, ?_⟩
  · simp only
  · simp only
  · cases incl
    · simp only [Bool.false_eq_true, if_false]
      apply selectedText_frame doc (doc.text.take s ++ A ++ [O]) (L ++ x :: R) (C :: (B ++ rest))
      · exact htext.trans (by simp)
      · simp [List.length_take]; omega
      · simp [List.length_take]; omega
    · simp only [if_true]
      apply selectedText_frame doc (doc.text.take s ++ A) (O :: (L ++ x :: R) ++ [C]) (B ++ rest)
      · exact htext.trans (by simp)
      · simp [List.length_take]; omega
      · simp [List.length_take]; omega

/-- Witness of C1 on the block text of the specification's scenario 3, the caret on the
`a` of `baz`: the inner selection is `baz`. -/
theorem selectPairTargetAround_innermost_witness :
    (selectPairTargetAround ⟨"foo(bar(baz)qux)end".toList⟩ ⟨9, 9⟩ '(' ')' false false 1).1 = true
    ∧ (selectPairTargetAround ⟨"foo(bar(baz)qux)end".toList⟩ ⟨9, 9⟩ '(' ')' false false 1).2.anchor
        = 8
    ∧ (selectPairTargetAround ⟨"foo(bar(baz)qux)end".toList⟩ ⟨9, 9⟩ '(' ')' false false 1).2.position
        = 11
    ∧ QTextCursor.selectedText ⟨"foo(bar(baz)qux)end".toList⟩
        (selectPairTargetAround ⟨"foo(bar(baz)qux)end".toList⟩ ⟨9, 9⟩ '(' ')' false false 1).2
        = "baz".toList :=
  selectPairTargetAround_innermost ⟨"foo(bar(baz)qux)end".toList⟩ ⟨9, 9⟩ '(' ')' false false
    "foo(bar".toList "b".toList "z".toList "qux)end".toList 'a'
    (by decide) (by decide) (by decide) (by decide) (by decide) (by decide)

/-- C2 fails on the code: in `(a(x)())` with the caret on `x`, the second round starts with
`opening` on `a` and `closing` on the `(` of the sibling pair; strategy 3 starts its
rightward walk one past `closing`, never counts that `(`, and stops on the sibling's `)`.
The call answers true with the unbalanced inner selection `a(x)(` instead of `a(x)()`. -/
theorem selectPairTargetAround_second_round_skips_sibling :
    balanced '(' ')' "(a(x)())".toList = true
    ∧ selectPairTargetAround ⟨"(a(x)())".toList⟩ ⟨3, 3⟩ '(' ')' false false 2 = (true, ⟨6, 1⟩)
    ∧ QTextCursor.selectedText ⟨"(a(x)())".toList⟩
        (selectPairTargetAround ⟨"(a(x)())".toList⟩ ⟨3, 3⟩ '(' ')' false false 2).2
        = "a(x)(".toList := by
  decide

/-! ### The find motions -/

theorem kthIndex_some_iff (t : Char) :
    ∀ (l : List Char) (k j : Nat), 1 ≤ k →
      (kthIndex t k l = some j ↔ l[j]? = some t ∧ (l.take j).count t + 1 = k) := by
  intro l
  induction l with
  | nil => intro k j _; simp [kthIndex]
  | cons c cs ih =>
    intro k j hk
    unfold kthIndex
    by_cases hc : c = t
    · rw [if_pos hc]
      by_cases hk1 : k = 1
      · rw [if_pos hk1]
        cases j with
        | zero => simp [hc, hk1]
        | succ j => simp [hc, hk1]
      · rw [if_neg hk1]
        cases j with
        | zero =>
          simp only [Option.map_eq_some', List.getElem?_cons_zero, List.take_zero,
            List.count_nil]
          constructor
          · rintro ⟨a, _, ha⟩; omega
          · rintro ⟨_, h⟩; omega
        | succ j =>
          have := ih (k - 1) j (by omega)
          simp only [Option.map_eq_some', Nat.add_right_cancel_iff, exists_eq_right,
            List.getElem?_cons_succ, List.take_succ_cons, hc, List.count_cons_self]
          rw [this]
          constructor
          · rintro ⟨h1, h2⟩; exact ⟨h1, by omega⟩
          · rintro ⟨h1, h2⟩; exact ⟨h1, by omega⟩
    · rw [if_neg hc]
      cases j with
      | zero =>
        simp only [Option.map_eq_some', List.getElem?_cons_zero, List.take_zero,
          List.count_nil, Option.some.injEq]
        constructor
        · rintro ⟨a, _, ha⟩; omega
        · rintro ⟨h, _⟩; exact absurd h hc
      | succ j =>
        have := ih k j hk
        simp only [Option.map_eq_some', Nat.add_right_cancel_iff, exists_eq_right,
          List.getElem?_cons_succ, List.take_succ_cons, List.count_cons_of_ne (Ne.symm hc)]
        exact this

theorem kthIndex_none_iff (t : Char) :
    ∀ (l : List Char) (k : Nat), 1 ≤ k → (kthIndex t k l = none ↔ l.count t < k) := by
  intro l
  induction l with
  | nil => intro k hk; simp [kthIndex]; omega
  | cons c cs ih =>
    intro k hk
    unfold kthIndex
    by_cases hc : c = t
    · rw [if_pos hc]
      by_cases hk1 : k = 1
      · rw [if_pos hk1]; simp [hc, hk1]
      · rw [if_neg hk1]
        have := ih (k - 1) (by omega)
        simp only [Option.map_eq_none', hc, List.count_cons_self]
        rw [this]; omega
    · rw [if_neg hc]
      simp only [Option.map_eq_none', List.count_cons_of_ne (Ne.symm hc)]
      exact ih k hk

theorem findTargetLoop_succ (text : List Char) (t : Char) (delta : Int) (fuel : Nat)
    (idx rep : Int) :
    findTargetLoop text t delta (fuel + 1) idx rep =
      if idx < text.length ∧ idx ≥ 0 then
        if text.getD idx.toNat nullChar = t then
          if rep - 1 = 0 then (idx, rep - 1)
          else findTargetLoop text t delta fuel (idx + delta) (rep - 1)
        else findTargetLoop text t delta fuel (idx + delta) rep
      else (idx, rep) := rfl

theorem findTargetLoop_out (text : List Char) (t : Char) (delta : Int) (fuel : Nat)
    (idx rep : Int) (h : ¬ (idx < text.length ∧ idx ≥ 0)) :
    findTargetLoop text t delta fuel idx rep = (idx, rep) := by
  cases fuel with
  | zero => rfl
  | succ f => rw [findTargetLoop_succ, if_neg h]

theorem findTargetLoop_forward (text : List Char) (t : Char) :
    ∀ (fuel i k : Nat), 1 ≤ k → text.length - i ≤ fuel →
      (∀ j, kthIndex t k (text.drop i) = some j →
        findTargetLoop text t 1 fuel i k = (((i + j : Nat) : Int), 0))
      ∧ (kthIndex t k (text.drop i) = none →
        (text.length : Int) ≤ (findTargetLoop text t 1 fuel i k).1) := by
  intro fuel
  induction fuel with
  | zero =>
    intro i k _ hfuel
    have hdrop : text.drop i = [] := List.drop_eq_nil_of_le (by omega)
    rw [hdrop]
    refine ⟨fun j h => by simp [kthIndex] at h, fun _ => ?_⟩
    simp only [findTargetLoop]
    omega
  | succ f ih =>
    intro i k hk hfuel
    by_cases hi : i < text.length
    · have hcond : ((i : Int) < text.length ∧ (i : Int) ≥ 0) := by omega
      have hget : text.getD (i : Int).toNat nullChar = text[i] := by
        simp [List.getD_eq_getElem?_getD, hi]
      rw [findTargetLoop_succ, if_pos hcond, hget, List.drop_eq_getElem_cons hi]
      have hnext : ((i : Int) + 1) = ((i + 1 : Nat) : Int) := by push_cast; rfl
      rw [hnext]
      unfold kthIndex
      by_cases hc : text[i] = t
      · rw [if_pos hc, if_pos hc]
        by_cases hk1 : k = 1
        · have h0 : ((k : Int) - 1 = 0) := by omega
          rw [if_pos hk1, if_pos h0]
          refine ⟨fun j h => ?_, fun h => by simp at h⟩
          simp only [Option.some.injEq] at h
          subst h
          simp [h0]
        · have h0 : ¬ ((k : Int) - 1 = 0) := by omega
          have hkc : ((k : Int) - 1) = ((k - 1 : Nat) : Int) := by omega
          rw [if_neg hk1, if_neg h0, hkc]
          obtain ⟨ih1, ih2⟩ := ih (i + 1) (k - 1) (by omega) (by omega)
          refine ⟨fun j h => ?_, fun h => ?_⟩
          · simp only [Option.map_eq_some'] at h
            obtain ⟨a, ha, rfl⟩ := h
            rw [ih1 a ha]
            congr 1
            push_cast; omega
          · simp only [Option.map_eq_none'] at h
            exact ih2 h
      · rw [if_neg hc, if_neg hc]
        obtain ⟨ih1, ih2⟩ := ih (i + 1) k hk (by omega)
        refine ⟨fun j h => ?_, fun h => ?_⟩
        · simp only [Option.map_eq_some'] at h
          obtain ⟨a, ha, rfl⟩ := h
          rw [ih1 a ha]
          congr 1
          push_cast; omega
        · simp only [Option.map_eq_none'] at h
          exact ih2 h
    · have hdrop : text.drop i = [] := List.drop_eq_nil_of_le (by omega)
      rw [hdrop, findTargetLoop_out _ _ _ _ _ _ (by omega)]
      refine ⟨fun j h => by simp [kthIndex] at h, fun _ => ?_⟩
      simp only
      omega

theorem findTargetLoop_backward (text : List Char) (t : Char) :
    ∀ (m fuel k : Nat), 1 ≤ k → m ≤ text.length → m ≤ fuel →
      (∀ j, kthIndex t k (text.take m).reverse = some j →
        findTargetLoop text t (-1) fuel ((m : Int) - 1) k = ((m : Int) - 1 - j, 0))
      ∧ (kthIndex t k (text.take m).reverse = none →
        (findTargetLoop text t (-1) fuel ((m : Int) - 1) k).1 < 0) := by
  intro m
  induction m with
  | zero =>
    intro fuel k _ _ _
    rw [findTargetLoop_out _ _ _ _ _ _ (by omega)]
    refine ⟨fun j h => by simp [kthIndex] at h, fun _ => ?_⟩
    simp
  | succ m ih =>
    intro fuel k hk hm hfuel
    obtain ⟨f, rfl⟩ : ∃ f, fuel = f + 1 := ⟨fuel - 1, by omega⟩
    have hi : m < text.length := by omega
    have hidx : ((m + 1 : Nat) : Int) - 1 = (m : Int) := by push_cast; omega
    have hcond : ((m : Int) < text.length ∧ (m : Int) ≥ 0) := by omega
    have hget : text.getD (m : Int).toNat nullChar = text[m] := by
      simp [List.getD_eq_getElem?_getD, hi]
    have hrev : (text.take (m + 1)).reverse = text[m] :: (text.take m).reverse := by
      rw [List.take_succ, List.getElem?_eq_getElem hi]
      simp
    have hprev : (m : Int) + -1 = (m : Int) - 1 := by omega
    rw [hidx, findTargetLoop_succ, if_pos hcond, hget, hrev, hprev]
    unfold kthIndex
    by_cases hc : text[m] = t
    · rw [if_pos hc, if_pos hc]
      by_cases hk1 : k = 1
      · have h0 : ((k : Int) - 1 = 0) := by omega
        rw [if_pos hk1, if_pos h0]
        refine ⟨fun j h => ?_, fun h => by simp at h⟩
        simp only [Option.some.injEq] at h
        subst h
        simp [h0]
      · have h0 : ¬ ((k : Int) - 1 = 0) := by omega
        have hkc : ((k : Int) - 1) = ((k - 1 : Nat) : Int) := by omega
        rw [if_neg hk1, if_neg h0, hkc]
        obtain ⟨ih1, ih2⟩ := ih f (k - 1) (by omega) (by omega) (by omega)
        refine ⟨fun j h => ?_, fun h => ?_⟩
        · simp only [Option.map_eq_some'] at h
          obtain ⟨a, ha, rfl⟩ := h
          rw [ih1 a ha]
          congr 1
          push_cast; omega
        · simp only [Option.map_eq_none'] at h
          exact ih2 h
    · rw [if_neg hc, if_neg hc]
      obtain ⟨ih1, ih2⟩ := ih f k hk (by omega) (by omega)
      refine ⟨fun j h => ?_, fun h => ?_⟩
      · simp only [Option.map_eq_some'] at h
        obtain ⟨a, ha, rfl⟩ := h
        rw [ih1 a ha]
        congr 1
        push_cast; omega
      · simp only [Option.map_eq_none'] at h
        exact ih2 h

theorem findTargetLoop_spec (text : List Char) (t : Char) (pib : Nat) (fwd incl : Bool)
    (k : Nat) (hk : 1 ≤ k) (hpib : pib ≤ text.length) :
    (∀ j, kthIndex t k (scanRange text pib fwd incl) = some j →
      findTargetLoop text t (if fwd then 1 else -1) text.length
        ((pib : Int) + (if incl then (if fwd then 1 else -1) else 2 * (if fwd then 1 else -1))) k
        = (scanIndex pib fwd incl j, 0))
    ∧ (kthIndex t k (scanRange text pib fwd incl) = none →
      (findTargetLoop text t (if fwd then 1 else -1) text.length
        ((pib : Int) + (if incl then (if fwd then 1 else -1) else 2 * (if fwd then 1 else -1))) k).1 < 0
      ∨ (text.length : Int) ≤ (findTargetLoop text t (if fwd then 1 else -1) text.length
        ((pib : Int) + (if incl then (if fwd then 1 else -1) else 2 * (if fwd then 1 else -1))) k).1) := by
  cases fwd <;> cases incl
  · -- backward, exclusive
    simp only [Bool.false_eq_true, if_false, scanRange, scanIndex]
    by_cases h0 : pib = 0
    · subst h0
      rw [findTargetLoop_out _ _ _ _ _ _ (by simp)]
      refine ⟨fun j h => by simp [kthIndex] at h, fun _ => ?_⟩
      left; simp
    · obtain ⟨b1, b2⟩ := findTargetLoop_backward text t (pib - 1) text.length k hk
        (by omega) (by omega)
      have e : ((pib : Int) + 2 * -1) = ((pib - 1 : Nat) : Int) - 1 := by omega
      rw [e]
      refine ⟨fun j h => ?_, fun h => Or.inl (b2 h)⟩
      rw [b1 j h]
      congr 1
      omega
  · -- backward, inclusive
    simp only [Bool.false_eq_true, if_false, if_true, scanRange, scanIndex, Nat.sub_zero]
    obtain ⟨b1, b2⟩ := findTargetLoop_backward text t pib text.length k hk hpib hpib
    have e : ((pib : Int) + -1) = (pib : Int) - 1 := by omega
    rw [e]
    exact ⟨fun j h => b1 j h, fun h => Or.inl (b2 h)⟩
  · -- forward, exclusive
    simp only [Bool.false_eq_true, if_false, if_true, scanRange, scanIndex]
    obtain ⟨f1, f2⟩ := findTargetLoop_forward text t text.length (pib + 2) k hk (by omega)
    have e : ((pib : Int) + 2 * 1) = ((pib + 2 : Nat) : Int) := by push_cast; omega
    rw [e]
    refine ⟨fun j h => ?_, fun h => Or.inr (f2 h)⟩
    rw [f1 j h]
    congr 1
  · -- forward, inclusive
    simp only [if_true, scanRange, scanIndex]
    obtain ⟨f1, f2⟩ := findTargetLoop_forward text t text.length (pib + 1) k hk (by omega)
    have e : ((pib : Int) + 1) = ((pib + 1 : Nat) : Int) := by push_cast; rfl
    rw [e]
    refine ⟨fun j h => ?_, fun h => Or.inr (f2 h)⟩
    rw [f1 j h]
    congr 1

/-- A visited offset corresponds to an index inside the block text. -/
theorem scanIndex_range (text : List Char) (pib : Nat) (fwd incl : Bool) (j : Nat)
    (hpib : pib ≤ text.length) (hj : j < (scanRange text pib fwd incl).length) :
    0 ≤ scanIndex pib fwd incl j ∧ scanIndex pib fwd incl j < text.length
    ∧ (fwd = true → incl = false → 2 ≤ scanIndex pib fwd incl j) := by
  unfold scanRange at hj
  unfold scanIndex
  cases fwd <;> cases incl <;>
    simp only [Bool.false_eq_true, if_false, if_true, List.length_reverse, List.length_take,
      List.length_drop] at hj ⊢ <;>
    refine ⟨by omega, by omega, ?_⟩ <;> intro h1 h2 <;>
    first
    | omega
    | exact h1.elim
    | exact absurd h2 (by decide)

/-- A caret on a valid position is at most at the end of its block. -/
theorem positionInBlock_le (doc : QTextDocument) (p : Nat) (hp : p ≤ doc.text.length) :
    p - doc.blockPosition p ≤ (doc.blockText p).length := by
  have hsplit : doc.text.take p
      = ((doc.text.take p).reverse.dropWhile (fun c => c != paragraphSeparator)).reverse
        ++ ((doc.text.take p).reverse.takeWhile (fun c => c != paragraphSeparator)).reverse := by
    rw [← List.reverse_append, List.takeWhile_append_dropWhile, List.reverse_reverse]
  have hlen := congrArg List.length hsplit
  rw [List.length_append, List.length_take, List.length_reverse, List.length_reverse,
    Nat.min_eq_left hp] at hlen
  have hs : doc.blockPosition p
      = ((doc.text.take p).reverse.dropWhile (fun c => c != paragraphSeparator)).reverse.length := by
    unfold QTextDocument.blockPosition
    rw [List.length_reverse]
    omega
  have hdrop : doc.text.drop (doc.blockPosition p)
      = ((doc.text.take p).reverse.takeWhile (fun c => c != paragraphSeparator)).reverse
        ++ doc.text.drop p := by
    conv_lhs => rw [← List.take_append_drop p doc.text, hsplit, List.append_assoc, hs]
    rw [List.drop_left]
  have hall : ∀ a ∈ ((doc.text.take p).reverse.takeWhile
      (fun c => c != paragraphSeparator)).reverse, (fun c => c != paragraphSeparator) a = true := by
    intro a ha
    rw [List.mem_reverse] at ha
    exact List.mem_takeWhile_imp (p := fun c => c != paragraphSeparator) ha
  unfold QTextDocument.blockText
  rw [hdrop, List.takeWhile_append_of_pos hall, List.length_append, List.length_reverse]
  unfold QTextDocument.blockPosition
  omega

/-- The function `findTargetWithinBlock` in terms of the `k`-th occurrence in the scanned range. -/
theorem findTargetWithinBlock_eq (doc : QTextDocument) (cur : QTextCursor) (mode : MoveMode)
    (t : Char) (fwd incl : Bool) (k : Nat) (hk : 1 ≤ k)
    (hvalid : cur.position < doc.characterCount) :
    findTargetWithinBlock doc cur mode t fwd incl k =
      match kthIndex t k (scanRange (doc.blockText cur.position) (cur.positionInBlock doc)
          fwd incl) with
      | none => (false, cur)
      | some j => (true, cur.setPosition doc ((doc.blockPosition cur.position : Int)
          + adjustTargetIndex mode fwd incl (scanIndex (cur.positionInBlock doc) fwd incl j))
          mode) := by
  have hpib : cur.positionInBlock doc ≤ (doc.blockText cur.position).length :=
    positionInBlock_le doc cur.position (by unfold QTextDocument.characterCount at hvalid; omega)
  obtain ⟨s1, s2⟩ := findTargetLoop_spec (doc.blockText cur.position) t
    (cur.positionInBlock doc) fwd incl k hk hpib
  unfold findTargetWithinBlock
  have hk' : ¬ ((k : Int) < 1) := by omega
  rw [if_neg hk']
  simp only
  cases hkth : kthIndex t k (scanRange (doc.blockText cur.position) (cur.positionInBlock doc)
      fwd incl) with
  | none =>
    have := s2 hkth
    simp only
    rw [if_pos]
    rcases this with h | h
    · exact Or.inl h
    · exact Or.inr (Or.inl h)
  | some j =>
    have hj : j < (scanRange (doc.blockText cur.position) (cur.positionInBlock doc)
        fwd incl).length := by
      have := (kthIndex_some_iff t _ k j hk).1 hkth
      exact (List.getElem?_eq_some_iff.1 this.1).1
    obtain ⟨r1, r2, _⟩ := scanIndex_range _ _ fwd incl j hpib hj
    rw [s1 j hkth]
    simp only
    rw [if_neg]
    omega

theorem setPosition_int (doc : QTextDocument) (c : QTextCursor) (pos : Int) (m : MoveMode)
    (h0 : 0 ≤ pos) (h1 : pos < doc.characterCount) :
    ((c.setPosition doc pos m).position : Int) = pos
    ∧ (c.setPosition doc pos m).anchor
        = (if m = MoveMode.MoveAnchor then (c.setPosition doc pos m).position
           else c.anchor) := by
  unfold QTextCursor.setPosition
  have hg : ¬ (pos < 0 ∨ pos ≥ (doc.characterCount : Int)) := by omega
  rw [if_neg hg]
  cases m <;> simp <;> omega

theorem adjustTargetIndex_bounds (mode : MoveMode) (fwd incl : Bool) (idx : Int) :
    idx - 1 ≤ adjustTargetIndex mode fwd incl idx
    ∧ adjustTargetIndex mode fwd incl idx ≤ idx + 1
    ∧ (adjustTargetIndex mode fwd incl idx = idx - 1 → fwd = true ∧ incl = false) := by
  unfold adjustTargetIndex
  cases mode <;> cases fwd <;> cases incl <;> simp <;> omega

/-- C3: where `findTargetWithinBlock` puts the caret.  When the call returns true, the
`k`-th occurrence of the target met by the scan exists, and for the block index `m` of that
occurrence the caret's new index in the block is `m + 1` if (forward and inclusive and keep
mode) or (backward and exclusive), `m - 1` if forward and exclusive and move mode, and `m`
otherwise; the anchor follows the caret in move mode and stays in keep mode. -/
theorem findTargetWithinBlock_placement (doc : QTextDocument) (cur : QTextCursor)
    (mode : MoveMode) (t : Char) (fwd incl : Bool) (k : Nat) (hk : 1 ≤ k)
    (hvalid : cur.position < doc.characterCount)
    (hret : (findTargetWithinBlock doc cur mode t fwd incl k).1 = true) :
    (∃ m, IsKthOccurrence (doc.blockText cur.position) t (cur.positionInBlock doc) fwd incl k m)
    ∧ ∀ m, IsKthOccurrence (doc.blockText cur.position) t (cur.positionInBlock doc) fwd incl k m →
        ((findTargetWithinBlock doc cur mode t fwd incl k).2.position : Int)
            - doc.blockPosition cur.position
          = (if (fwd = true ∧ incl = true ∧ mode = MoveMode.KeepAnchor)
                ∨ (fwd = false ∧ incl = false) then m + 1
             else if fwd = true ∧ incl = false ∧ mode = MoveMode.MoveAnchor then m - 1
             else m)
        ∧ (findTargetWithinBlock doc cur mode t fwd incl k).2.anchor
          = (if mode = MoveMode.MoveAnchor then
              (findTargetWithinBlock doc cur mode t fwd incl k).2.position
             else cur.anchor) := by
  have heq := findTargetWithinBlock_eq doc cur mode t fwd incl k hk hvalid
  have hpib : cur.positionInBlock doc ≤ (doc.blockText cur.position).length :=
    positionInBlock_le doc cur.position (by unfold QTextDocument.characterCount at hvalid; omega)
  cases hkth : kthIndex t k (scanRange (doc.blockText cur.position) (cur.positionInBlock doc)
      fwd incl) with
  | none =>
    rw [hkth] at heq
    rw [heq] at hret
    simp at hret
  | some j =>
    rw [hkth] at heq
    simp only at heq
    have hj := (kthIndex_some_iff t _ k j hk).1 hkth
    refine ⟨⟨scanIndex (cur.positionInBlock doc) fwd incl j, j, rfl, hj.1, hj.2⟩, ?_⟩
    rintro m ⟨j', rfl, h1, h2⟩
    have hj' := (kthIndex_some_iff t _ k j' hk).2 ⟨h1, h2⟩
    rw [hkth] at hj'
    simp only [Option.some.injEq] at hj'
    subst hj'
    have hjlt : j < (scanRange (doc.blockText cur.position) (cur.positionInBlock doc)
        fwd incl).length := (List.getElem?_eq_some_iff.1 hj.1).1
    obtain ⟨r1, r2, r3⟩ := scanIndex_range _ _ fwd incl j hpib hjlt
    obtain ⟨a1, a2, a3⟩ := adjustTargetIndex_bounds mode fwd incl
      (scanIndex (cur.positionInBlock doc) fwd incl j)
    have hfit : doc.blockPosition cur.position + (doc.blockText cur.position).length
        ≤ doc.text.length := by
      rcases blockText_length_le doc cur.position with h | h
      · exact h
      · rw [h] at r2; simp at r2; omega
    have hlow : 0 ≤ (doc.blockPosition cur.position : Int)
        + adjustTargetIndex mode fwd incl (scanIndex (cur.positionInBlock doc) fwd incl j) := by
      by_cases hm : adjustTargetIndex mode fwd incl
          (scanIndex (cur.positionInBlock doc) fwd incl j)
          = scanIndex (cur.positionInBlock doc) fwd incl j - 1
      · have := r3 (a3 hm).1 (a3 hm).2
        omega
      · omega
    have hhigh : (doc.blockPosition cur.position : Int)
        + adjustTargetIndex mode fwd incl (scanIndex (cur.positionInBlock doc) fwd incl j)
        < doc.characterCount := by
      unfold QTextDocument.characterCount
      push_cast
      omega
    obtain ⟨p1, p2⟩ := setPosition_int doc cur _ mode hlow hhigh
    rw [heq]
    refine ⟨?_, p2⟩
    simp only
    rw [p1]
    unfold adjustTargetIndex
    cases mode <;> cases fwd <;> cases incl <;> simp

/-- C4: `findTargetWithinBlock` returns true exactly when the target occurs at least `k`
times among the indices the scan visits (forward the indices from `pib + 1`, or `pib + 2`
when exclusive; backward the indices up to `pib - 1`, or `pib - 2` when exclusive), and a
failed call leaves the cursor as it was. -/
theorem findTargetWithinBlock_succeeds_iff (doc : QTextDocument) (cur : QTextCursor)
    (mode : MoveMode) (t : Char) (fwd incl : Bool) (k : Nat) (hk : 1 ≤ k)
    (hvalid : cur.position < doc.characterCount) :
    ((findTargetWithinBlock doc cur mode t fwd incl k).1 = true ↔
      k ≤ (if fwd then
            (doc.blockText cur.position).drop (cur.positionInBlock doc + (if incl then 1 else 2))
          else
            (doc.blockText cur.position).take (cur.positionInBlock doc - (if incl then 0 else 1))
          ).count t)
    ∧ ((findTargetWithinBlock doc cur mode t fwd incl k).1 = false →
        (findTargetWithinBlock doc cur mode t fwd incl k).2 = cur) := by
  have heq := findTargetWithinBlock_eq doc cur mode t fwd incl k hk hvalid
  have hcount : (if fwd then
            (doc.blockText cur.position).drop (cur.positionInBlock doc + (if incl then 1 else 2))
          else
            (doc.blockText cur.position).take (cur.positionInBlock doc - (if incl then 0 else 1))
          ).count t
      = (scanRange (doc.blockText cur.position) (cur.positionInBlock doc) fwd incl).count t := by
    unfold scanRange
    cases fwd <;> simp
  rw [hcount]
  cases hkth : kthIndex t k (scanRange (doc.blockText cur.position) (cur.positionInBlock doc)
      fwd incl) with
  | none =>
    rw [hkth] at heq
    have := (kthIndex_none_iff t _ k hk).1 hkth
    rw [heq]
    simp only [Bool.false_eq_true, false_iff, not_le, implies_true, and_true]
    exact this
  | some j =>
    rw [hkth] at heq
    have hne : ¬ (kthIndex t k (scanRange (doc.blockText cur.position)
        (cur.positionInBlock doc) fwd incl) = none) := by rw [hkth]; simp
    have := mt (kthIndex_none_iff t _ k hk).2 hne
    rw [heq]
    simp only [true_iff, Bool.true_eq_false, false_implies, and_true]
    omega

/-- Witness of C3 on scenario 5: in `hello world` from index 0, target `o`, forward,
exclusive, repeat 2, move mode, the second `o` met is at index 7 and the caret lands
on 6. -/
theorem findTargetWithinBlock_placement_witness :
    IsKthOccurrence "hello world".toList 'o' 0 true false 2 7
    ∧ (findTargetWithinBlock ⟨"hello world".toList⟩ ⟨0, 0⟩ MoveMode.MoveAnchor 'o' true false
        (2 : Nat)).2.position = 6 := by
  have h := findTargetWithinBlock_placement ⟨"hello world".toList⟩ ⟨0, 0⟩ MoveMode.MoveAnchor
    'o' true false 2 (by decide) (by decide) (by decide)
  have hm : IsKthOccurrence "hello world".toList 'o' 0 true false 2 7 :=
    ⟨5, by decide, by decide, by decide⟩
  have h7 := (h.2 7 hm).1
  have hb : (⟨"hello world".toList⟩ : QTextDocument).blockPosition 0 = 0 := by decide
  simp only [hb] at h7
  refine ⟨hm, ?_⟩
  have h6 : ((findTargetWithinBlock ⟨"hello world".toList⟩ ⟨0, 0⟩ MoveMode.MoveAnchor 'o' true
      false (2 : Nat)).2.position : Int) - (0 : Nat) = 7 - 1 := by
    rw [h7]
    decide
  omega

/-- Witness of C4 on scenario 5: two occurrences of `o` lie at the indices from 2 on. -/
theorem findTargetWithinBlock_succeeds_iff_witness :
    (findTargetWithinBlock ⟨"hello world".toList⟩ ⟨0, 0⟩ MoveMode.MoveAnchor 'o' true false
        (2 : Nat)).1 = true :=
  (findTargetWithinBlock_succeeds_iff ⟨"hello world".toList⟩ ⟨0, 0⟩ MoveMode.MoveAnchor
    'o' true false 2 (by decide) (by decide)).1.2 (by decide)

theorem qListIndexOf_ne_iff (L : List Char) (c : Char) : qListIndexOf L c ≠ -1 ↔ c ∈ L := by
  unfold qListIndexOf
  by_cases h : c ∈ L
  · rw [if_pos (List.indexOf_lt_length.2 h)]
    simp only [h, iff_true]
    omega
  · rw [if_neg (fun h' => h (List.indexOf_lt_length.1 h'))]
    simp [h]

theorem indexOf_least (L : List Char) (c : Char) :
    ∀ r, r < L.indexOf c → L[r]? ≠ some c := by
  induction L with
  | nil => intro r h; simp at h
  | cons a as ih =>
    intro r h
    rw [List.indexOf_cons] at h
    by_cases hac : a = c
    · simp [hac] at h
    · have hb : (a == c) = false := by simpa using hac
      rw [hb] at h
      simp only [cond_false] at h
      cases r with
      | zero => simpa using hac
      | succ r =>
        simp only [List.getElem?_cons_succ]
        exact ih r (by omega)

/-- The value of `QList::indexOf` on a member is the least index holding it. -/
theorem qListIndexOf_spec (L : List Char) (c : Char) (h : c ∈ L) :
    ∃ r : Nat, qListIndexOf L c = (r : Int) ∧ L[r]? = some c ∧ ∀ r', r' < r → L[r']? ≠ some c := by
  refine ⟨L.indexOf c, ?_, by rw [← List.get?_eq_getElem?]; exact List.indexOf_get? h,
    indexOf_least L c⟩
  unfold qListIndexOf
  rw [if_pos (List.indexOf_lt_length.2 h)]

theorem firstHit_some_iff (L : List Char) :
    ∀ (l : List Char) (j : Nat) (c : Char),
      (firstHit L l = some (j, c) ↔
        l[j]? = some c ∧ c ∈ L ∧ ∀ i, i < j → ∀ c', l[i]? = some c' → c' ∉ L) := by
  intro l
  induction l with
  | nil => intro j c; simp [firstHit]
  | cons a as ih =>
    intro j c
    unfold firstHit
    by_cases ha : a ∈ L
    · rw [if_pos ((qListIndexOf_ne_iff L a).2 ha)]
      cases j with
      | zero =>
        simp only [Option.some.injEq, Prod.mk.injEq, true_and, List.getElem?_cons_zero,
          Nat.not_lt_zero, false_implies, implies_true, and_true]
        constructor
        · intro h; exact ⟨h, h ▸ ha⟩
        · intro h; exact h.1
      | succ j =>
        simp only [Option.some.injEq, Prod.mk.injEq, List.getElem?_cons_succ]
        constructor
        · rintro ⟨h, _⟩; omega
        · rintro ⟨_, _, h⟩
          exact absurd ha (h 0 (by omega) a (by simp))
    · rw [if_neg (fun h => ha ((qListIndexOf_ne_iff L a).1 h))]
      cases j with
      | zero =>
        simp only [Option.map_eq_some', Prod.mk.injEq, List.getElem?_cons_zero,
          Option.some.injEq]
        constructor
        · rintro ⟨r, _, h, _⟩; omega
        · rintro ⟨h, hc, _⟩; exact absurd (h ▸ hc) ha
      | succ j =>
        simp only [Option.map_eq_some', Prod.mk.injEq, List.getElem?_cons_succ]
        constructor
        · rintro ⟨⟨j', c'⟩, hr, h1, h2⟩
          simp only at h1 h2
          have hj : j' = j := by omega
          subst hj; subst h2
          obtain ⟨g1, g2, g3⟩ := (ih j' c').1 hr
          refine ⟨g1, g2, ?_⟩
          intro i hi c'' hc''
          cases i with
          | zero =>
            simp only [List.getElem?_cons_zero, Option.some.injEq] at hc''
            exact hc'' ▸ ha
          | succ i =>
            simp only [List.getElem?_cons_succ] at hc''
            exact g3 i (by omega) c'' hc''
        · rintro ⟨g1, g2, g3⟩
          refine ⟨(j, c), (ih j c).2 ⟨g1, g2, ?_⟩, rfl, rfl⟩
          intro i hi c'' hc''
          exact g3 (i + 1) (by omega) c'' (by simpa using hc'')

theorem firstHit_none_iff (L : List Char) :
    ∀ (l : List Char), (firstHit L l = none ↔ ∀ c ∈ l, c ∉ L) := by
  intro l
  induction l with
  | nil => simp [firstHit]
  | cons a as ih =>
    unfold firstHit
    by_cases ha : a ∈ L
    · rw [if_pos ((qListIndexOf_ne_iff L a).2 ha)]
      simp [ha]
    · rw [if_neg (fun h => ha ((qListIndexOf_ne_iff L a).1 h))]
      simp only [Option.map_eq_none', List.mem_cons, forall_eq_or_imp, ha, not_false_eq_true,
        true_and]
      exact ih

theorem findTargetsLoop_succ (text L : List Char) (delta : Int) (fuel : Nat) (idx : Int) :
    findTargetsLoop text L delta (fuel + 1) idx =
      if idx < text.length ∧ idx ≥ 0 then
        if qListIndexOf L (text.getD idx.toNat nullChar) ≠ -1 then
          (idx, qListIndexOf L (text.getD idx.toNat nullChar))
        else findTargetsLoop text L delta fuel (idx + delta)
      else (idx, -1) := rfl

theorem findTargetsLoop_out (text L : List Char) (delta : Int) (fuel : Nat) (idx : Int)
    (h : ¬ (idx < text.length ∧ idx ≥ 0)) :
    findTargetsLoop text L delta fuel idx = (idx, -1) := by
  cases fuel with
  | zero => rfl
  | succ f => rw [findTargetsLoop_succ, if_neg h]

theorem findTargetsLoop_forward (text L : List Char) :
    ∀ (fuel i : Nat), text.length - i ≤ fuel →
      (∀ j c, firstHit L (text.drop i) = some (j, c) →
        findTargetsLoop text L 1 fuel i = (((i + j : Nat) : Int), qListIndexOf L c))
      ∧ (firstHit L (text.drop i) = none →
        (text.length : Int) ≤ (findTargetsLoop text L 1 fuel i).1) := by
  intro fuel
  induction fuel with
  | zero =>
    intro i hfuel
    have hdrop : text.drop i = [] := List.drop_eq_nil_of_le (by omega)
    rw [hdrop]
    refine ⟨fun j c h => by simp [firstHit] at h, fun _ => ?_⟩
    simp only [findTargetsLoop]
    omega
  | succ f ih =>
    intro i hfuel
    by_cases hi : i < text.length
    · have hcond : ((i : Int) < text.length ∧ (i : Int) ≥ 0) := by omega
      have hget : text.getD (i : Int).toNat nullChar = text[i] := by
        simp [List.getD_eq_getElem?_getD, hi]
      rw [findTargetsLoop_succ, if_pos hcond, hget, List.drop_eq_getElem_cons hi]
      have hnext : ((i : Int) + 1) = ((i + 1 : Nat) : Int) := by push_cast; rfl
      rw [hnext]
      unfold firstHit
      by_cases hc : qListIndexOf L text[i] ≠ -1
      · rw [if_pos hc, if_pos hc]
        refine ⟨fun j c h => ?_, fun h => by simp at h⟩
        simp only [Option.some.injEq, Prod.mk.injEq] at h
        obtain ⟨rfl, rfl⟩ := h
        simp
      · rw [if_neg hc, if_neg hc]
        obtain ⟨ih1, ih2⟩ := ih (i + 1) (by omega)
        refine ⟨fun j c h => ?_, fun h => ?_⟩
        · simp only [Option.map_eq_some', Prod.mk.injEq] at h
          obtain ⟨⟨j', c'⟩, hr, rfl, rfl⟩ := h
          rw [ih1 j' c' hr]
          congr 1
          push_cast; omega
        · simp only [Option.map_eq_none'] at h
          exact ih2 h
    · have hdrop : text.drop i = [] := List.drop_eq_nil_of_le (by omega)
      rw [hdrop, findTargetsLoop_out _ _ _ _ _ (by omega)]
      refine ⟨fun j c h => by simp [firstHit] at h, fun _ => ?_⟩
      simp only
      omega

theorem findTargetsLoop_backward (text L : List Char) :
    ∀ (m fuel : Nat), m ≤ text.length → m ≤ fuel →
      (∀ j c, firstHit L (text.take m).reverse = some (j, c) →
        findTargetsLoop text L (-1) fuel ((m : Int) - 1) = ((m : Int) - 1 - j, qListIndexOf L c))
      ∧ (firstHit L (text.take m).reverse = none →
        (findTargetsLoop text L (-1) fuel ((m : Int) - 1)).1 < 0) := by
  intro m
  induction m with
  | zero =>
    intro fuel _ _
    rw [findTargetsLoop_out _ _ _ _ _ (by omega)]
    refine ⟨fun j c h => by simp [firstHit] at h, fun _ => ?_⟩
    simp
  | succ m ih =>
    intro fuel hm hfuel
    obtain ⟨f, rfl⟩ : ∃ f, fuel = f + 1 := ⟨fuel - 1, by omega⟩
    have hi : m < text.length := by omega
    have hidx : ((m + 1 : Nat) : Int) - 1 = (m : Int) := by push_cast; omega
    have hcond : ((m : Int) < text.length ∧ (m : Int) ≥ 0) := by omega
    have hget : text.getD (m : Int).toNat nullChar = text[m] := by
      simp [List.getD_eq_getElem?_getD, hi]
    have hrev : (text.take (m + 1)).reverse = text[m] :: (text.take m).reverse := by
      rw [List.take_succ, List.getElem?_eq_getElem hi]
      simp
    have hprev : (m : Int) + -1 = (m : Int) - 1 := by omega
    rw [hidx, findTargetsLoop_succ, if_pos hcond, hget, hrev, hprev]
    unfold firstHit
    by_cases hc : qListIndexOf L text[m] ≠ -1
    · rw [if_pos hc, if_pos hc]
      refine ⟨fun j c h => ?_, fun h => by simp at h⟩
      simp only [Option.some.injEq, Prod.mk.injEq] at h
      obtain ⟨rfl, rfl⟩ := h
      simp
    · rw [if_neg hc, if_neg hc]
      obtain ⟨ih1, ih2⟩ := ih f (by omega) (by omega)
      refine ⟨fun j c h => ?_, fun h => ?_⟩
      · simp only [Option.map_eq_some', Prod.mk.injEq] at h
        obtain ⟨⟨j', c'⟩, hr, rfl, rfl⟩ := h
        rw [ih1 j' c' hr]
        congr 1
        push_cast; omega
      · simp only [Option.map_eq_none'] at h
        exact ih2 h

theorem findTargetsLoop_spec (text L : List Char) (pib : Nat) (fwd incl : Bool)
    (hpib : pib ≤ text.length) :
    (∀ j c, firstHit L (scanRange text pib fwd incl) = some (j, c) →
      findTargetsLoop text L (if fwd then 1 else -1) text.length
        ((pib : Int) + (if incl then (if fwd then 1 else -1) else 2 * (if fwd then 1 else -1)))
        = (scanIndex pib fwd incl j, qListIndexOf L c))
    ∧ (firstHit L (scanRange text pib fwd incl) = none →
      (findTargetsLoop text L (if fwd then 1 else -1) text.length
        ((pib : Int) + (if incl then (if fwd then 1 else -1) else 2 * (if fwd then 1 else -1)))).1 < 0
      ∨ (text.length : Int) ≤ (findTargetsLoop text L (if fwd then 1 else -1) text.length
        ((pib : Int) + (if incl then (if fwd then 1 else -1) else 2 * (if fwd then 1 else -1)))).1) := by
  cases fwd <;> cases incl
  · simp only [Bool.false_eq_true, if_false, scanRange, scanIndex]
    by_cases h0 : pib = 0
    · subst h0
      rw [findTargetsLoop_out _ _ _ _ _ (by simp)]
      refine ⟨fun j c h => by simp [firstHit] at h, fun _ => ?_⟩
      left; simp
    · obtain ⟨b1, b2⟩ := findTargetsLoop_backward text L (pib - 1) text.length
        (by omega) (by omega)
      have e : ((pib : Int) + 2 * -1) = ((pib - 1 : Nat) : Int) - 1 := by omega
      rw [e]
      refine ⟨fun j c h => ?_, fun h => Or.inl (b2 h)⟩
      rw [b1 j c h]
      congr 1
      omega
  · simp only [Bool.false_eq_true, if_false, if_true, scanRange, scanIndex, Nat.sub_zero]
    obtain ⟨b1, b2⟩ := findTargetsLoop_backward text L pib text.length hpib hpib
    have e : ((pib : Int) + -1) = (pib : Int) - 1 := by omega
    rw [e]
    exact ⟨fun j c h => b1 j c h, fun h => Or.inl (b2 h)⟩
  · simp only [Bool.false_eq_true, if_false, if_true, scanRange, scanIndex]
    obtain ⟨f1, f2⟩ := findTargetsLoop_forward text L text.length (pib + 2) (by omega)
    have e : ((pib : Int) + 2 * 1) = ((pib + 2 : Nat) : Int) := by push_cast; omega
    rw [e]
    refine ⟨fun j c h => ?_, fun h => Or.inr (f2 h)⟩
    rw [f1 j c h]
    congr 1
  · simp only [if_true, scanRange, scanIndex]
    obtain ⟨f1, f2⟩ := findTargetsLoop_forward text L text.length (pib + 1) (by omega)
    have e : ((pib : Int) + 1) = ((pib + 1 : Nat) : Int) := by push_cast; rfl
    rw [e]
    refine ⟨fun j c h => ?_, fun h => Or.inr (f2 h)⟩
    rw [f1 j c h]
    congr 1

/-- The function `findTargetsWithinBlock` in terms of the first hit in the scanned range. -/
theorem findTargetsWithinBlock_eq (doc : QTextDocument) (cur : QTextCursor) (mode : MoveMode)
    (L : List Char) (fwd incl : Bool) (hvalid : cur.position < doc.characterCount) :
    findTargetsWithinBlock doc cur mode L fwd incl =
      match firstHit L (scanRange (doc.blockText cur.position) (cur.positionInBlock doc)
          fwd incl) with
      | none => (-1, cur)
      | some (j, c) => (qListIndexOf L c, cur.setPosition doc
          ((doc.blockPosition cur.position : Int)
            + adjustTargetIndex mode fwd incl (scanIndex (cur.positionInBlock doc) fwd incl j))
          mode) := by
  have hpib : cur.positionInBlock doc ≤ (doc.blockText cur.position).length :=
    positionInBlock_le doc cur.position (by unfold QTextDocument.characterCount at hvalid; omega)
  unfold findTargetsWithinBlock
  by_cases hL : L.isEmpty = true
  · rw [if_pos hL]
    have hLnil : L = [] := List.isEmpty_iff.1 hL
    have hnone : firstHit L (scanRange (doc.blockText cur.position) (cur.positionInBlock doc)
        fwd incl) = none := by
      rw [firstHit_none_iff, hLnil]
      intro c _
      simp
    rw [hnone]
  · rw [if_neg hL]
    obtain ⟨s1, s2⟩ := findTargetsLoop_spec (doc.blockText cur.position) L
      (cur.positionInBlock doc) fwd incl hpib
    simp only
    cases hfh : firstHit L (scanRange (doc.blockText cur.position) (cur.positionInBlock doc)
        fwd incl) with
    | none =>
      have := s2 hfh
      simp only
      rw [if_pos]
      exact this
    | some jc =>
      obtain ⟨j, c⟩ := jc
      have hj : j < (scanRange (doc.blockText cur.position) (cur.positionInBlock doc)
          fwd incl).length := by
        have := (firstHit_some_iff L _ j c).1 hfh
        exact (List.getElem?_eq_some_iff.1 this.1).1
      obtain ⟨r1, r2, _⟩ := scanIndex_range _ _ fwd incl j hpib hj
      rw [s1 j c hfh]
      simp only
      rw [if_neg]
      omega

/-- C5: `findTargetsWithinBlock` is `findTargetWithinBlock` over a set of targets with
repeat 1.  (a) When no index visited by the scan holds a character of the list (in
particular when the list is empty) it returns -1 and leaves the cursor unchanged.
(b) Otherwise, for the first visited character `c` that is in the list, it returns the
least list index holding `c`, and the cursor is the one `findTargetWithinBlock` with target
`c` and repeat 1 produces, which succeeds.  (c) For a one-element list `[t]` it returns 0
exactly when `findTargetWithinBlock` with target `t` and repeat 1 returns true, and the
resulting cursors agree. -/
theorem findTargetsWithinBlock_refines (doc : QTextDocument) (cur : QTextCursor)
    (mode : MoveMode) (L : List Char) (fwd incl : Bool)
    (hvalid : cur.position < doc.characterCount) :
    ((∀ c ∈ scanRange (doc.blockText cur.position) (cur.positionInBlock doc) fwd incl, c ∉ L) →
        findTargetsWithinBlock doc cur mode L fwd incl = (-1, cur))
    ∧ (∀ (j : Nat) (c : Char),
        (scanRange (doc.blockText cur.position) (cur.positionInBlock doc) fwd incl)[j]? = some c →
        c ∈ L →
        (∀ i, i < j → ∀ c',
          (scanRange (doc.blockText cur.position) (cur.positionInBlock doc) fwd incl)[i]? = some c'
          → c' ∉ L) →
        (∃ r : Nat, (findTargetsWithinBlock doc cur mode L fwd incl).1 = (r : Int)
            ∧ L[r]? = some c ∧ ∀ r', r' < r → L[r']? ≠ some c)
        ∧ (findTargetWithinBlock doc cur mode c fwd incl 1).1 = true
        ∧ (findTargetsWithinBlock doc cur mode L fwd incl).2
            = (findTargetWithinBlock doc cur mode c fwd incl 1).2)
    ∧ (∀ t : Char,
        ((findTargetsWithinBlock doc cur mode [t] fwd incl).1 = 0
          ↔ (findTargetWithinBlock doc cur mode t fwd incl 1).1 = true)
        ∧ (findTargetsWithinBlock doc cur mode [t] fwd incl).2
            = (findTargetWithinBlock doc cur mode t fwd incl 1).2) := by
  have hfirst : ∀ (L' : List Char) (j : Nat) (c : Char),
      firstHit L' (scanRange (doc.blockText cur.position) (cur.positionInBlock doc) fwd incl)
        = some (j, c) →
      kthIndex c 1 (scanRange (doc.blockText cur.position) (cur.positionInBlock doc) fwd incl)
        = some j := by
    intro L' j c h
    obtain ⟨g1, g2, g3⟩ := (firstHit_some_iff L' _ j c).1 h
    refine (kthIndex_some_iff c _ 1 j (le_refl 1)).2 ⟨g1, ?_⟩
    have : List.count c ((scanRange (doc.blockText cur.position) (cur.positionInBlock doc)
        fwd incl).take j) = 0 := by
      rw [List.count_eq_zero]
      intro hmem
      obtain ⟨i, hi⟩ := List.mem_iff_getElem?.1 hmem
      by_cases hij : i < j
      · rw [List.getElem?_take_of_lt hij] at hi
        exact g3 i hij c hi g2
      · rw [List.getElem?_take_eq_none (by omega)] at hi
        simp at hi
    omega
  refine ⟨?_, ?_, ?_⟩
  · intro h
    rw [findTargetsWithinBlock_eq doc cur mode L fwd incl hvalid,
      (firstHit_none_iff L _).2 h]
  · intro j c h1 h2 h3
    have hfh := (firstHit_some_iff L _ j c).2 ⟨h1, h2, h3⟩
    have e1 := findTargetsWithinBlock_eq doc cur mode L fwd incl hvalid
    rw [hfh] at e1
    have e2 := findTargetWithinBlock_eq doc cur mode c fwd incl 1 (le_refl 1) hvalid
    rw [hfirst L j c hfh] at e2
    simp only at e1 e2
    have e2' : findTargetWithinBlock doc cur mode c fwd incl 1 = _ := e2
    rw [e1, e2']
    exact ⟨qListIndexOf_spec L c h2, rfl, rfl⟩
  · intro t
    have e1 := findTargetsWithinBlock_eq doc cur mode [t] fwd incl hvalid
    have e2 := findTargetWithinBlock_eq doc cur mode t fwd incl 1 (le_refl 1) hvalid
    have e2' : findTargetWithinBlock doc cur mode t fwd incl 1 = _ := e2
    cases hfh : firstHit [t] (scanRange (doc.blockText cur.position) (cur.positionInBlock doc)
        fwd incl) with
    | none =>
      have hno := (firstHit_none_iff [t] _).1 hfh
      have hk : kthIndex t 1 (scanRange (doc.blockText cur.position)
          (cur.positionInBlock doc) fwd incl) = none := by
        rw [kthIndex_none_iff t _ 1 (le_refl 1)]
        have : List.count t (scanRange (doc.blockText cur.position)
            (cur.positionInBlock doc) fwd incl) = 0 := by
          rw [List.count_eq_zero]
          intro hmem
          exact hno t hmem (by simp)
        omega
      rw [hfh] at e1
      rw [hk] at e2'
      rw [e1, e2']
      simp
    | some jc =>
      obtain ⟨j, c⟩ := jc
      obtain ⟨g1, g2, g3⟩ := (firstHit_some_iff [t] _ j c).1 hfh
      have hct : c = t := by simpa using g2
      subst hct
      have hk := hfirst [c] j c hfh
      rw [hfh] at e1
      rw [hk] at e2'
      rw [e1, e2']
      have : qListIndexOf [c] c = 0 := by
        unfold qListIndexOf
        simp
      simp [this]

/-- Witness of C5: in `hello world` from index 0, forward and inclusive, with targets
`w` and `o`, the first visited character of the list is the `o` at offset 3. -/
theorem findTargetsWithinBlock_refines_witness :
    (∃ r : Nat, (findTargetsWithinBlock ⟨"hello world".toList⟩ ⟨0, 0⟩ MoveMode.MoveAnchor
          ['w', 'o'] true true).1 = (r : Int)
        ∧ ['w', 'o'][r]? = some 'o' ∧ ∀ r', r' < r → ['w', 'o'][r']? ≠ some 'o')
    ∧ (findTargetWithinBlock ⟨"hello world".toList⟩ ⟨0, 0⟩ MoveMode.MoveAnchor 'o' true true 1).1
        = true
    ∧ (findTargetsWithinBlock ⟨"hello world".toList⟩ ⟨0, 0⟩ MoveMode.MoveAnchor
          ['w', 'o'] true true).2
        = (findTargetWithinBlock ⟨"hello world".toList⟩ ⟨0, 0⟩ MoveMode.MoveAnchor 'o' true true
            1).2 :=
  (findTargetsWithinBlock_refines ⟨"hello world".toList⟩ ⟨0, 0⟩ MoveMode.MoveAnchor
    ['w', 'o'] true true (by decide)).2.1 3 'o' (by decide) (by decide)
    (by
      intro i hi c' h
      have hc : c' = 'e' ∨ c' = 'l' := by
        interval_cases i
        · left; exact (Option.some.inj h).symm
        · right; exact (Option.some.inj h).symm
        · right; exact (Option.some.inj h).symm
      rcases hc with rfl | rfl <;> decide)

/-! ### Blocks of a buffer -/

theorem takeWhile_notSep_of_not_mem (T : List Char) (h : paragraphSeparator ∉ T) :
    ∀ a ∈ T, (fun c => c != paragraphSeparator) a = true := by
  intro a ha
  simp only [bne_iff_ne, ne_eq]
  intro hc
  exact h (hc ▸ ha)

theorem takeWhile_frame_right (T Q : List Char) (hT : paragraphSeparator ∉ T)
    (hQ : Q = [] ∨ ∃ Q', Q = paragraphSeparator :: Q') :
    (T ++ Q).takeWhile (fun c => c != paragraphSeparator) = T := by
  rw [List.takeWhile_append_of_pos (takeWhile_notSep_of_not_mem T hT)]
  rcases hQ with rfl | ⟨Q', rfl⟩
  · simp
  · simp

theorem blockPosition_frame (doc : QTextDocument) (P T Q : List Char)
    (h : doc.text = P ++ T ++ Q) (hf : IsBlockFrame P T Q) (i : Nat) (hi : i ≤ T.length) :
    doc.blockPosition (P.length + i) = P.length := by
  obtain ⟨hT, hP, _⟩ := hf
  unfold QTextDocument.blockPosition
  have htake : doc.text.take (P.length + i) = P ++ T.take i := by
    rw [h, List.append_assoc, List.take_append, List.take_append_of_le_length hi]
  have hTi : paragraphSeparator ∉ (T.take i).reverse := by
    intro hm
    exact hT (List.mem_of_mem_take (List.mem_reverse.1 hm))
  have hPr : P.reverse = [] ∨ ∃ Q', P.reverse = paragraphSeparator :: Q' := by
    rcases hP with rfl | ⟨P', rfl⟩
    · left; rfl
    · right; exact ⟨P'.reverse, by simp⟩
  rw [htake, List.reverse_append, takeWhile_frame_right _ _ hTi hPr, List.length_reverse,
    List.length_take]
  omega

theorem blockText_frame (doc : QTextDocument) (P T Q : List Char)
    (h : doc.text = P ++ T ++ Q) (hf : IsBlockFrame P T Q) (i : Nat) (hi : i ≤ T.length) :
    doc.blockText (P.length + i) = T := by
  unfold QTextDocument.blockText
  rw [blockPosition_frame doc P T Q h hf i hi, h, List.append_assoc, List.drop_left]
  exact takeWhile_frame_right T Q hf.1 hf.2.2

theorem blockLength_frame (doc : QTextDocument) (P T Q : List Char)
    (h : doc.text = P ++ T ++ Q) (hf : IsBlockFrame P T Q) (i : Nat) (hi : i ≤ T.length) :
    doc.blockLength (P.length + i) = T.length + 1 := by
  unfold QTextDocument.blockLength
  rw [blockText_frame doc P T Q h hf i hi]

theorem blockNumber_frame (doc : QTextDocument) (P T Q : List Char)
    (h : doc.text = P ++ T ++ Q) (hf : IsBlockFrame P T Q) (i : Nat) (hi : i ≤ T.length) :
    doc.blockNumber (P.length + i) = P.count paragraphSeparator := by
  unfold QTextDocument.blockNumber
  have htake : doc.text.take (P.length + i) = P ++ T.take i := by
    rw [h, List.append_assoc, List.take_append, List.take_append_of_le_length hi]
  rw [htake, List.count_append]
  have : List.count paragraphSeparator (T.take i) = 0 :=
    List.count_eq_zero.2 (fun hm => hf.1 (List.mem_of_mem_take hm))
  omega

theorem blockCount_frame (doc : QTextDocument) (P T Q : List Char)
    (h : doc.text = P ++ T ++ Q) (hf : IsBlockFrame P T Q) :
    doc.blockCount = P.count paragraphSeparator + Q.count paragraphSeparator + 1 := by
  unfold QTextDocument.blockCount
  rw [h, List.count_append, List.count_append, List.count_eq_zero.2 hf.1]
  omega

/-! ### Cursor movement inside a framed block -/

theorem movePosition_startOfBlock (doc : QTextDocument) (P T Q : List Char)
    (h : doc.text = P ++ T ++ Q) (hf : IsBlockFrame P T Q) (i a : Nat) (hi : i ≤ T.length)
    (m : MoveMode) :
    (QTextCursor.movePosition doc ⟨P.length + i, a⟩ .StartOfBlock m).2
      = (match m with
        | .MoveAnchor => ⟨P.length, P.length⟩
        | .KeepAnchor => ⟨P.length, a⟩) := by
  unfold QTextCursor.movePosition
  simp only [blockPosition_frame doc P T Q h hf i hi]

theorem movePosition_endOfBlock (doc : QTextDocument) (P T Q : List Char)
    (h : doc.text = P ++ T ++ Q) (hf : IsBlockFrame P T Q) (i a : Nat) (hi : i ≤ T.length)
    (m : MoveMode) :
    (QTextCursor.movePosition doc ⟨P.length + i, a⟩ .EndOfBlock m).2
      = (match m with
        | .MoveAnchor => ⟨P.length + T.length, P.length + T.length⟩
        | .KeepAnchor => ⟨P.length + T.length, a⟩) := by
  unfold QTextCursor.movePosition
  simp only [blockPosition_frame doc P T Q h hf i hi, blockLength_frame doc P T Q h hf i hi,
    Nat.add_succ_sub_one, Nat.add_assoc]

theorem movePosition_nextBlock_none (doc : QTextDocument) (P T : List Char)
    (h : doc.text = P ++ T ++ []) (hf : IsBlockFrame P T []) (i a : Nat) (hi : i ≤ T.length)
    (m : MoveMode) :
    (QTextCursor.movePosition doc ⟨P.length + i, a⟩ .NextBlock m).2 = ⟨P.length + i, a⟩ := by
  unfold QTextCursor.movePosition
  have hlen : doc.text.length = P.length + T.length := by rw [h]; simp
  have hno : ¬ (P.length + (T.length + 1) ≤ doc.text.length) := by omega
  simp only [blockPosition_frame doc P T [] h hf i hi, blockLength_frame doc P T [] h hf i hi,
    hno, if_false]

theorem movePosition_nextBlock_some (doc : QTextDocument) (P T Q' : List Char)
    (h : doc.text = P ++ T ++ paragraphSeparator :: Q')
    (hf : IsBlockFrame P T (paragraphSeparator :: Q')) (i a : Nat) (hi : i ≤ T.length)
    (m : MoveMode) :
    (QTextCursor.movePosition doc ⟨P.length + i, a⟩ .NextBlock m).2
      = (match m with
        | .MoveAnchor => ⟨P.length + T.length + 1, P.length + T.length + 1⟩
        | .KeepAnchor => ⟨P.length + T.length + 1, a⟩) := by
  unfold QTextCursor.movePosition
  have hlen : doc.text.length = P.length + T.length + (Q'.length + 1) := by
    rw [h]; simp; omega
  have hyes : P.length + (T.length + 1) ≤ doc.text.length := by omega
  simp only [blockPosition_frame doc P T _ h hf i hi, blockLength_frame doc P T _ h hf i hi,
    hyes, if_true, Nat.add_assoc]

theorem movePosition_previousBlock_none (doc : QTextDocument) (T Q : List Char)
    (h : doc.text = [] ++ T ++ Q) (hf : IsBlockFrame [] T Q) (i a : Nat) (hi : i ≤ T.length)
    (m : MoveMode) :
    QTextCursor.movePosition doc ⟨i, a⟩ .PreviousBlock m = (false, ⟨i, a⟩) := by
  unfold QTextCursor.movePosition
  have := blockPosition_frame doc [] T Q h hf i hi
  simp only [List.length_nil, Nat.zero_add] at this
  simp only [this, if_true]

theorem movePosition_previousBlock_some (doc : QTextDocument) (P0 Tp T Q : List Char)
    (h : doc.text = (P0 ++ Tp ++ [paragraphSeparator]) ++ T ++ Q)
    (hf : IsBlockFrame (P0 ++ Tp ++ [paragraphSeparator]) T Q)
    (hfp : IsBlockFrame P0 Tp (paragraphSeparator :: (T ++ Q)))
    (i a : Nat) (hi : i ≤ T.length) (m : MoveMode) :
    QTextCursor.movePosition doc ⟨(P0 ++ Tp ++ [paragraphSeparator]).length + i, a⟩
        .PreviousBlock m
      = (true, match m with
        | .MoveAnchor => ⟨P0.length, P0.length⟩
        | .KeepAnchor => ⟨P0.length, a⟩) := by
  unfold QTextCursor.movePosition
  have hb := blockPosition_frame doc _ T Q h hf i hi
  have h' : doc.text = P0 ++ Tp ++ (paragraphSeparator :: (T ++ Q)) := by rw [h]; simp
  have hb' := blockPosition_frame doc P0 Tp _ h' hfp Tp.length (le_refl _)
  have hl : (P0 ++ Tp ++ [paragraphSeparator]).length = P0.length + Tp.length + 1 := by
    simp; omega
  have hne : ¬ ((P0 ++ Tp ++ [paragraphSeparator]).length = 0) := by omega
  have hprev : (P0 ++ Tp ++ [paragraphSeparator]).length - 1 = P0.length + Tp.length := by omega
  simp only [hb, hne, if_false, hprev, hb']
  have hq : P0.length ≠ (P0 ++ Tp ++ [paragraphSeparator]).length + i := by omega
  simp only [ne_eq, hq, not_false_eq_true, decide_True]

/-- Every buffer ends with a block: it splits into a framed last block. -/
theorem exists_last_block (P : List Char) :
    ∃ P0 Tp, P = P0 ++ Tp ∧ paragraphSeparator ∉ Tp
      ∧ (P0 = [] ∨ ∃ P', P0 = P' ++ [paragraphSeparator]) := by
  refine ⟨(P.reverse.dropWhile (fun c => c != paragraphSeparator)).reverse,
    (P.reverse.takeWhile (fun c => c != paragraphSeparator)).reverse, ?_, ?_, ?_⟩
  · rw [← List.reverse_append, List.takeWhile_append_dropWhile, List.reverse_reverse]
  · intro hm
    have := List.mem_takeWhile_imp (p := fun c => c != paragraphSeparator)
      (List.mem_reverse.1 hm)
    simp at this
  · cases hd : P.reverse.dropWhile (fun c => c != paragraphSeparator) with
    | nil => left; rfl
    | cons x xs =>
      right
      have hx : ¬ ((fun c => c != paragraphSeparator) x = true) := by
        have := List.head_dropWhile_not (fun c => c != paragraphSeparator) P.reverse
          (by rw [hd]; simp)
        simpa [hd] using this
      have hxs : x = paragraphSeparator := by simpa using hx
      exact ⟨xs.reverse, by simp [hxs]⟩

/-- Every buffer starts with a block: it splits into a framed first block. -/
theorem exists_first_block (Q : List Char) :
    ∃ T2 Q2, Q = T2 ++ Q2 ∧ paragraphSeparator ∉ T2
      ∧ (Q2 = [] ∨ ∃ Q', Q2 = paragraphSeparator :: Q') := by
  refine ⟨Q.takeWhile (fun c => c != paragraphSeparator),
    Q.dropWhile (fun c => c != paragraphSeparator), ?_, ?_, ?_⟩
  · rw [List.takeWhile_append_dropWhile]
  · intro hm
    have := List.mem_takeWhile_imp (p := fun c => c != paragraphSeparator) hm
    simp at this
  · cases hd : Q.dropWhile (fun c => c != paragraphSeparator) with
    | nil => left; rfl
    | cons x xs =>
      right
      have hx : ¬ ((fun c => c != paragraphSeparator) x = true) := by
        have := List.head_dropWhile_not (fun c => c != paragraphSeparator) Q
          (by rw [hd]; simp)
        simpa [hd] using this
      have hxs : x = paragraphSeparator := by simpa using hx
      exact ⟨xs, by rw [hxs]⟩

/-! ### `removeBlock`, step by step -/

theorem removeBlock_of_steps (gb : GraphemeBoundary) (doc : QTextDocument)
    (cur c1 c2 c3 c4 c5 : QTextCursor)
    (d2 d3 : QTextDocument)
    (h1 : cur.selectBlockUnderCursor doc = c1)
    (h2 : c1.deleteChar gb doc = (d2, c2))
    (h3 : (if (doc.blockCount : Int) = (d2.blockCount : Int) then
            if (doc.blockNumber cur.position : Int) = (doc.blockCount : Int) - 1 then
              c2.deletePreviousChar d2
            else c2.deleteChar gb d2
          else (d2, c2)) = (d3, c3))
    (h4 : (if (d3.blockNumber c3.position : Int) < (doc.blockNumber cur.position : Int) then
            (c3.movePosition d3 .NextBlock .MoveAnchor).2
          else c3) = c4)
    (h5 : (c4.movePosition d3 .StartOfBlock .MoveAnchor).2 = c5) :
    removeBlock gb doc cur = ⟨d3, c5, selectedText doc c1 ++ ['\n']⟩ := by
  unfold removeBlock
  simp only [h1, h2, h3, h4, h5]

theorem selectBlock_empty (doc : QTextDocument) (P Q : List Char)
    (h : doc.text = P ++ [] ++ Q) (hf : IsBlockFrame P [] Q) (a : Nat) :
    QTextCursor.selectBlockUnderCursor doc ⟨P.length, a⟩ = ⟨P.length, P.length⟩ := by
  unfold QTextCursor.selectBlockUnderCursor QTextCursor.clearSelection
  have := blockLength_frame doc P [] Q h hf 0 (le_refl _)
  simp only [Nat.add_zero, List.length_nil, Nat.zero_add] at this
  simp only [this, if_true]

theorem selectBlock_first (doc : QTextDocument) (T Q : List Char)
    (h : doc.text = [] ++ T ++ Q) (hf : IsBlockFrame [] T Q) (hT : T ≠ [])
    (i a : Nat) (hi : i ≤ T.length) :
    QTextCursor.selectBlockUnderCursor doc ⟨i, a⟩ = ⟨T.length, 0⟩ := by
  unfold QTextCursor.selectBlockUnderCursor QTextCursor.clearSelection
  have hl := blockLength_frame doc [] T Q h hf i hi
  simp only [List.length_nil, Nat.zero_add] at hl
  have hTl : T.length ≠ 0 := fun h0 => hT (List.length_eq_zero.1 h0)
  have hne : ¬ (T.length + 1 = 1) := by omega
  have h1 := movePosition_startOfBlock doc [] T Q h hf i i hi .MoveAnchor
  have h2 := movePosition_previousBlock_none doc T Q h hf 0 0 (Nat.zero_le _) .MoveAnchor
  have h3 := movePosition_endOfBlock doc [] T Q h hf 0 0 (Nat.zero_le _) .KeepAnchor
  simp only [List.length_nil, Nat.zero_add] at h1 h3
  simp only [hl, hne, if_false, h1, h2, h3, Bool.false_eq_true]

theorem selectBlock_inner (doc : QTextDocument) (P0 Tp T Q : List Char)
    (h : doc.text = (P0 ++ Tp ++ [paragraphSeparator]) ++ T ++ Q)
    (hf : IsBlockFrame (P0 ++ Tp ++ [paragraphSeparator]) T Q)
    (hfp : IsBlockFrame P0 Tp (paragraphSeparator :: (T ++ Q))) (hT : T ≠ [])
    (i a : Nat) (hi : i ≤ T.length) :
    QTextCursor.selectBlockUnderCursor doc ⟨(P0 ++ Tp ++ [paragraphSeparator]).length + i, a⟩
      = ⟨(P0 ++ Tp ++ [paragraphSeparator]).length + T.length, P0.length + Tp.length⟩ := by
  unfold QTextCursor.selectBlockUnderCursor QTextCursor.clearSelection
  have hl := blockLength_frame doc _ T Q h hf i hi
  have hTl : T.length ≠ 0 := fun h0 => hT (List.length_eq_zero.1 h0)
  have hne : ¬ (T.length + 1 = 1) := by omega
  have h' : doc.text = P0 ++ Tp ++ (paragraphSeparator :: (T ++ Q)) := by rw [h]; simp
  have hPl : (P0 ++ Tp ++ [paragraphSeparator]).length = P0.length + Tp.length + 1 := by
    simp; omega
  have h1 := movePosition_startOfBlock doc _ T Q h hf i
    ((P0 ++ Tp ++ [paragraphSeparator]).length + i) hi .MoveAnchor
  have h2 := movePosition_previousBlock_some doc P0 Tp T Q h hf hfp 0
    (P0 ++ Tp ++ [paragraphSeparator]).length (Nat.zero_le _) .MoveAnchor
  have h3 := movePosition_endOfBlock doc P0 Tp _ h' hfp 0 P0.length (Nat.zero_le _) .MoveAnchor
  have h4 := movePosition_nextBlock_some doc P0 Tp (T ++ Q) h' hfp Tp.length
    (P0.length + Tp.length) (le_refl _) .KeepAnchor
  have h5 := movePosition_endOfBlock doc _ T Q h hf 0 (P0.length + Tp.length)
    (Nat.zero_le _) .KeepAnchor
  simp only [Nat.add_zero] at h2 h3 h5
  simp only [hl, hne, if_false, h1, h2, h3, h4, ← hPl, h5, if_true]

/-! ### `deleteChar` in a framed block -/

/-- The call `deleteChar` with the caret at the end of a block that is not the last one
removes the separator after the block, whatever the grapheme boundaries. -/
theorem deleteChar_block_end (gb : GraphemeBoundary) (doc : QTextDocument)
    (P T Q' : List Char) (h : doc.text = P ++ T ++ paragraphSeparator :: Q')
    (hf : IsBlockFrame P T (paragraphSeparator :: Q')) :
    QTextCursor.deleteChar gb doc ⟨P.length + T.length, P.length + T.length⟩
      = (⟨P ++ T ++ Q'⟩, ⟨P.length + T.length, P.length + T.length⟩) := by
  have hlen : doc.text.length = P.length + T.length + (Q'.length + 1) := by
    rw [h]; simp only [List.length_append, List.length_cons]
  have hbp := blockPosition_frame doc P T _ h hf T.length (le_refl _)
  have hbl := blockLength_frame doc P T _ h hf T.length (le_refl _)
  unfold QTextCursor.deleteChar QTextDocument.nextCursorPosition QTextDocument.characterCount
  simp only [ne_eq, not_true_eq_false, if_false, hbp, hbl]
  rw [if_pos (by omega), if_neg (by omega), if_pos (by omega)]
  have e1 : doc.text.take (P.length + T.length) = P ++ T := by
    rw [h, ← List.length_append, List.take_left]
  have e2 : doc.text.drop (P.length + (T.length + 1) - 1 + 1) = Q' := by
    have : P.length + (T.length + 1) - 1 + 1 = (P ++ T ++ [paragraphSeparator]).length := by
      simp only [List.length_append, List.length_singleton]; omega
    rw [this, h]
    have : P ++ T ++ paragraphSeparator :: Q' = (P ++ T ++ [paragraphSeparator]) ++ Q' := by
      simp
    rw [this, List.drop_left]
  rw [e1, e2]

/-- The call `deleteChar` with the caret at the start of a non-empty block removes the
first character alone when the second one, if there is one, starts a cluster. -/
theorem deleteChar_block_start (gb : GraphemeBoundary) (doc : QTextDocument)
    (P T Q : List Char) (h : doc.text = P ++ T ++ Q) (hf : IsBlockFrame P T Q)
    (hT : T ≠ []) (hgb : 1 < T.length → gb T 1 = true) :
    QTextCursor.deleteChar gb doc ⟨P.length, P.length⟩
      = (⟨P ++ T.drop 1 ++ Q⟩, ⟨P.length, P.length⟩) := by
  have hTl : 0 < T.length := List.length_pos.2 hT
  have hlen : doc.text.length = P.length + T.length + Q.length := by
    rw [h]; simp only [List.length_append]
  have hbp := blockPosition_frame doc P T Q h hf 0 (Nat.zero_le _)
  have hbl := blockLength_frame doc P T Q h hf 0 (Nat.zero_le _)
  have hbt := blockText_frame doc P T Q h hf 0 (Nat.zero_le _)
  simp only [Nat.add_zero] at hbp hbl hbt
  have hnext : layoutNextCursorPosition gb T 0 = 1 := by
    unfold layoutNextCursorPosition
    rw [if_neg (by omega)]
    obtain ⟨m, hm⟩ : ∃ m, T.length = m + 1 := ⟨T.length - 1, by omega⟩
    rw [hm]
    unfold skipCluster
    rw [if_neg]
    rintro ⟨h1, h2⟩
    rw [hgb (by omega)] at h2
    exact absurd h2 (by decide)
  unfold QTextCursor.deleteChar QTextDocument.nextCursorPosition QTextDocument.characterCount
  simp only [ne_eq, not_true_eq_false, if_false, hbp, hbl, hbt, Nat.sub_self, hnext]
  rw [if_pos (by omega), if_neg (by omega), if_neg (by omega)]
  have e1 : doc.text.take P.length = P := by
    rw [h, List.append_assoc, List.take_left]
  have e2 : doc.text.drop (1 + P.length) = T.drop 1 ++ Q := by
    rw [h, List.append_assoc, Nat.add_comm, ← List.drop_drop, List.drop_left,
      List.drop_append_of_le_length (by omega)]
  rw [e1, e2, List.append_assoc]

theorem map_sep_of_not_mem (T : List Char) (h : paragraphSeparator ∉ T) :
    T.map (fun ch => if ch = paragraphSeparator then '\n' else ch) = T := by
  induction T with
  | nil => rfl
  | cons c cs ih =>
    have hc : c ≠ paragraphSeparator := fun e => h (e ▸ List.mem_cons_self _ _)
    have hcs : paragraphSeparator ∉ cs := fun e => h (List.mem_cons_of_mem _ e)
    simp only [List.map_cons, if_neg hc, ih hcs]

theorem selectedText_empty (doc : QTextDocument) (p : Nat) :
    selectedText doc ⟨p, p⟩ = [] := by
  simp [selectedText, QTextCursor.selectedText, QTextCursor.selectionStart,
    QTextCursor.selectionEnd]

theorem selectedText_first (doc : QTextDocument) (T Q : List Char)
    (h : doc.text = [] ++ T ++ Q) (hT : paragraphSeparator ∉ T) :
    selectedText doc ⟨T.length, 0⟩ = T := by
  unfold selectedText
  rw [selectedText_frame doc [] T Q T.length 0 h rfl (by simp)]
  exact map_sep_of_not_mem T hT

theorem selectedText_inner (doc : QTextDocument) (P0 Tp T Q : List Char)
    (h : doc.text = (P0 ++ Tp ++ [paragraphSeparator]) ++ T ++ Q)
    (hT : paragraphSeparator ∉ T) :
    selectedText doc
        ⟨(P0 ++ Tp ++ [paragraphSeparator]).length + T.length, P0.length + Tp.length⟩
      = '\n' :: T := by
  unfold selectedText
  rw [selectedText_frame doc (P0 ++ Tp) (paragraphSeparator :: T) Q _ _
    (by rw [h]; simp) (by simp) (by simp; omega)]
  simp only [List.map_cons, if_true, map_sep_of_not_mem T hT]

theorem count_sep_frame_left (P0 Tp : List Char) (hTp : paragraphSeparator ∉ Tp) :
    (P0 ++ Tp ++ [paragraphSeparator]).count paragraphSeparator
      = P0.count paragraphSeparator + 1 := by
  rw [List.count_append, List.count_append, List.count_eq_zero.2 hTp]
  simp

/-- Removing a block that has a successor: the block and the separator after it go, the
cursor lands where the block started. -/
theorem removeBlock_not_last (gb : GraphemeBoundary) (doc : QTextDocument) (P T Q' : List Char)
    (h : doc.text = P ++ T ++ paragraphSeparator :: Q')
    (hf : IsBlockFrame P T (paragraphSeparator :: Q')) (i a : Nat) (hi : i ≤ T.length) :
    removeBlock gb doc ⟨P.length + i, a⟩
      = ⟨⟨P ++ Q'⟩, ⟨P.length, P.length⟩,
          (if P ≠ [] ∧ T ≠ [] then '\n' :: T else T) ++ ['\n']⟩ := by
  obtain ⟨T2, Q2, hQ', hT2, hQ2⟩ := exists_first_block Q'
  have hbn := blockNumber_frame doc P T _ h hf i hi
  have hbc := blockCount_frame doc P T _ h hf
  rw [List.count_cons_self] at hbc
  by_cases hT : T = []
  · -- an empty block: nothing is selected, `deleteChar` removes the separator after it
    subst hT
    have hi0 : i = 0 := by simpa using hi
    subst hi0
    have hd2 : (⟨P ++ Q'⟩ : QTextDocument).text = P ++ T2 ++ Q2 := by
      simp only [hQ', List.append_assoc]
    have hf2 : IsBlockFrame P T2 Q2 := ⟨hT2, hf.2.1, hQ2⟩
    have hres := removeBlock_of_steps gb doc ⟨P.length + 0, a⟩ ⟨P.length, P.length⟩
      ⟨P.length, P.length⟩ ⟨P.length, P.length⟩ ⟨P.length, P.length⟩ ⟨P.length, P.length⟩
      ⟨P ++ Q'⟩ ⟨P ++ Q'⟩
      (selectBlock_empty doc P _ h hf a)
      (by
        have := deleteChar_block_end gb doc P [] Q' h hf
        simpa using this)
      (by
        have hbc2 := blockCount_frame ⟨P ++ Q'⟩ P T2 Q2 hd2 hf2
        have hcq : Q'.count paragraphSeparator = Q2.count paragraphSeparator := by
          rw [hQ', List.count_append, List.count_eq_zero.2 hT2]; omega
        have hne : ¬ ((doc.blockCount : Int) = ((⟨P ++ Q'⟩ : QTextDocument).blockCount : Int)) := by
          rw [hbc, hbc2]; omega
        rw [if_neg hne])
      (by
        have hbn2 := blockNumber_frame ⟨P ++ Q'⟩ P T2 Q2 hd2 hf2 0 (Nat.zero_le _)
        simp only [Nat.add_zero] at hbn2 hbn ⊢
        have hnl : ¬ (((⟨P ++ Q'⟩ : QTextDocument).blockNumber P.length : Int)
            < (doc.blockNumber P.length : Int)) := by
          rw [hbn, hbn2]; omega
        rw [if_neg hnl])
      (by
        have := movePosition_startOfBlock ⟨P ++ Q'⟩ P T2 Q2 hd2 hf2 0 P.length (Nat.zero_le _)
          .MoveAnchor
        simpa using this)
    rw [hres, selectedText_empty]
    simp
  · rcases hf.2.1 with hP | ⟨P', hP⟩
    · -- the first block, not empty: its text goes first, then the separator
      subst hP
      have h0 : doc.text = [] ++ T ++ paragraphSeparator :: Q' := h
      have hTl : T.length ≠ 0 := fun e => hT (List.length_eq_zero.1 e)
      have hres := removeBlock_of_steps gb doc ⟨([] : List Char).length + i, a⟩ ⟨T.length, 0⟩
        ⟨0, 0⟩ ⟨0, 0⟩ ⟨0, 0⟩ ⟨0, 0⟩ ⟨paragraphSeparator :: Q'⟩ ⟨Q'⟩
        (by
          have := selectBlock_first doc T _ h0 hf hT i a hi
          simpa using this)
        (by
          unfold QTextCursor.deleteChar QTextCursor.removeSelection
            QTextCursor.selectionStart QTextCursor.selectionEnd
          simp only [ne_eq, hTl, not_false_eq_true, if_true, Nat.min_zero, Nat.zero_max,
            Nat.max_zero, List.take_zero, List.nil_append, h]
          rw [List.drop_left])
        (by
          have hbc2 : (⟨paragraphSeparator :: Q'⟩ : QTextDocument).blockCount
              = Q'.count paragraphSeparator + 1 + 1 := by
            simp [QTextDocument.blockCount]
          have heq : (doc.blockCount : Int)
              = ((⟨paragraphSeparator :: Q'⟩ : QTextDocument).blockCount : Int) := by
            rw [hbc, hbc2]; simp
          have hnl : ¬ ((doc.blockNumber (([] : List Char).length + i) : Int)
              = (doc.blockCount : Int) - 1) := by
            rw [hbn, hbc]; simp; omega
          rw [if_pos heq, if_neg hnl]
          have := deleteChar_block_end gb ⟨paragraphSeparator :: Q'⟩ [] [] Q' rfl
            ⟨List.not_mem_nil _, Or.inl rfl, Or.inr ⟨Q', rfl⟩⟩
          simpa using this)
        (by
          have hnl : ¬ (((⟨Q'⟩ : QTextDocument).blockNumber 0 : Int)
              < (doc.blockNumber (([] : List Char).length + i) : Int)) := by
            rw [hbn]; simp
          rw [if_neg hnl])
        (by
          unfold QTextCursor.movePosition QTextDocument.blockPosition
          simp)
      rw [hres, selectedText_first doc T _ h0 hf.1]
      simp
    · -- a later block, not empty: the separator before it and its text go together
      subst hP
      obtain ⟨P0, Tp, hP', hTp, hP0⟩ := exists_last_block P'
      subst hP'
      have hfp : IsBlockFrame P0 Tp (paragraphSeparator :: (T ++ paragraphSeparator :: Q')) :=
        ⟨hTp, hP0, Or.inr ⟨_, rfl⟩⟩
      have hPl : (P0 ++ Tp ++ [paragraphSeparator]).length = P0.length + Tp.length + 1 := by
        simp; omega
      have hd2 : (⟨P0 ++ Tp ++ paragraphSeparator :: Q'⟩ : QTextDocument).text
          = P0 ++ Tp ++ paragraphSeparator :: Q' := rfl
      have hf2 : IsBlockFrame P0 Tp (paragraphSeparator :: Q') := ⟨hTp, hP0, Or.inr ⟨_, rfl⟩⟩
      have hd2' : (⟨P0 ++ Tp ++ paragraphSeparator :: Q'⟩ : QTextDocument).text
          = (P0 ++ Tp ++ [paragraphSeparator]) ++ T2 ++ Q2 := by
        simp [hQ']
      have hf2' : IsBlockFrame (P0 ++ Tp ++ [paragraphSeparator]) T2 Q2 := ⟨hT2, hf.2.1, hQ2⟩
      have hres := removeBlock_of_steps gb doc ⟨(P0 ++ Tp ++ [paragraphSeparator]).length + i, a⟩
        ⟨(P0 ++ Tp ++ [paragraphSeparator]).length + T.length, P0.length + Tp.length⟩
        ⟨P0.length + Tp.length, P0.length + Tp.length⟩
        ⟨P0.length + Tp.length, P0.length + Tp.length⟩
        ⟨P0.length + Tp.length + 1, P0.length + Tp.length + 1⟩
        ⟨P0.length + Tp.length + 1, P0.length + Tp.length + 1⟩
        ⟨P0 ++ Tp ++ paragraphSeparator :: Q'⟩ ⟨P0 ++ Tp ++ paragraphSeparator :: Q'⟩
        (selectBlock_inner doc P0 Tp T _ h hf hfp hT i a hi)
        (by
          unfold QTextCursor.deleteChar QTextCursor.removeSelection
            QTextCursor.selectionStart QTextCursor.selectionEnd
          have hne : (P0 ++ Tp ++ [paragraphSeparator]).length + T.length
              ≠ P0.length + Tp.length := by omega
          have hmin : min ((P0 ++ Tp ++ [paragraphSeparator]).length + T.length)
              (P0.length + Tp.length) = (P0 ++ Tp).length := by
            simp only [List.length_append, List.length_singleton]; omega
          have hmax : max ((P0 ++ Tp ++ [paragraphSeparator]).length + T.length)
              (P0.length + Tp.length) = (P0 ++ Tp ++ [paragraphSeparator] ++ T).length := by
            simp only [List.length_append, List.length_singleton]; omega
          simp only [ne_eq, hne, not_false_eq_true, if_true, hmin, hmax]
          have e1 : doc.text.take (P0 ++ Tp).length = P0 ++ Tp := by
            rw [h]
            simp only [List.append_assoc]
            rw [← List.append_assoc, List.take_left]
          have e2 : doc.text.drop (P0 ++ Tp ++ [paragraphSeparator] ++ T).length
              = paragraphSeparator :: Q' := by
            rw [h, List.drop_left]
          rw [e1, e2]
          simp [List.length_append])
        (by
          have hbc2 := blockCount_frame _ P0 Tp _ hd2 hf2
          rw [List.count_cons_self] at hbc2
          have hne : ¬ ((doc.blockCount : Int)
              = ((⟨P0 ++ Tp ++ paragraphSeparator :: Q'⟩ : QTextDocument).blockCount : Int)) := by
            rw [hbc, hbc2, count_sep_frame_left P0 Tp hTp]; omega
          rw [if_neg hne])
        (by
          have hbn2 := blockNumber_frame _ P0 Tp _ hd2 hf2 Tp.length (le_refl _)
          have hlt : (((⟨P0 ++ Tp ++ paragraphSeparator :: Q'⟩ : QTextDocument).blockNumber
              (P0.length + Tp.length) : Nat) : Int)
              < (doc.blockNumber ((P0 ++ Tp ++ [paragraphSeparator]).length + i) : Int) := by
            rw [hbn, hbn2, count_sep_frame_left P0 Tp hTp]; omega
          simp only [hlt, if_true]
          exact movePosition_nextBlock_some _ P0 Tp Q' hd2 hf2 Tp.length _ (le_refl _)
            .MoveAnchor)
        (by
          have := movePosition_startOfBlock _ _ T2 Q2 hd2' hf2' 0
            (P0.length + Tp.length + 1) (Nat.zero_le _) .MoveAnchor
          simp only [Nat.add_zero, hPl] at this
          exact this)
      rw [hres, selectedText_inner doc P0 Tp T _ h hf.1, hPl]
      have hPne : P0 ++ Tp ++ [paragraphSeparator] ≠ [] := by simp
      simp [hT]

/-- Removing the only block leaves one empty block. -/
theorem removeBlock_sole (gb : GraphemeBoundary) (doc : QTextDocument) (T : List Char)
    (h : doc.text = [] ++ T ++ []) (hf : IsBlockFrame [] T []) (i a : Nat) (hi : i ≤ T.length) :
    removeBlock gb doc ⟨i, a⟩ = ⟨⟨[]⟩, ⟨0, 0⟩, T ++ ['\n']⟩ := by
  have hbn := blockNumber_frame doc [] T [] h hf i hi
  have hbc := blockCount_frame doc [] T [] h hf
  simp only [List.length_nil, Nat.zero_add, List.count_nil, Nat.add_zero] at hbn hbc
  have hbc0 : (⟨[]⟩ : QTextDocument).blockCount = 1 := rfl
  by_cases hT : T = []
  · subst hT
    have hi0 : i = 0 := by simpa using hi
    subst hi0
    have htext : doc.text = [] := by simpa using h
    have hdoc : doc = ⟨[]⟩ := by cases doc; simp_all
    have hres := removeBlock_of_steps gb doc ⟨0, a⟩ ⟨0, 0⟩ ⟨0, 0⟩ ⟨0, 0⟩ ⟨0, 0⟩ ⟨0, 0⟩ doc doc
      (by
        have := selectBlock_empty doc [] [] h hf a
        simpa using this)
      (by
        unfold QTextCursor.deleteChar
        simp [htext])
      (by
        have hnum : (doc.blockNumber (⟨0, a⟩ : QTextCursor).position : Int)
            = (doc.blockCount : Int) - 1 := by
          show (doc.blockNumber 0 : Int) = _
          rw [hbn, hbc]; simp
        rw [if_pos rfl, if_pos hnum]
        unfold QTextCursor.deletePreviousChar
        simp)
      (by
        have hnl : ¬ ((doc.blockNumber (⟨0, 0⟩ : QTextCursor).position : Int)
            < (doc.blockNumber (⟨0, a⟩ : QTextCursor).position : Int)) := by
          show ¬ ((doc.blockNumber 0 : Int) < (doc.blockNumber 0 : Int))
          omega
        rw [if_neg hnl])
      (by
        unfold QTextCursor.movePosition QTextDocument.blockPosition
        simp)
    rw [hres, selectedText_empty, hdoc]
  · have hTl : T.length ≠ 0 := fun e => hT (List.length_eq_zero.1 e)
    have hres := removeBlock_of_steps gb doc ⟨i, a⟩ ⟨T.length, 0⟩ ⟨0, 0⟩ ⟨0, 0⟩ ⟨0, 0⟩ ⟨0, 0⟩
      ⟨[]⟩ ⟨[]⟩
      (selectBlock_first doc T [] h hf hT i a hi)
      (by
        unfold QTextCursor.deleteChar QTextCursor.removeSelection
          QTextCursor.selectionStart QTextCursor.selectionEnd
        simp only [ne_eq, hTl, not_false_eq_true, if_true, Nat.min_zero, Nat.zero_max,
          Nat.max_zero, List.take_zero, List.nil_append, h, List.append_nil]
        rw [List.drop_length])
      (by
        have heq : (doc.blockCount : Int) = ((⟨[]⟩ : QTextDocument).blockCount : Int) := by
          rw [hbc, hbc0]
        have hnum : (doc.blockNumber (⟨i, a⟩ : QTextCursor).position : Int)
            = (doc.blockCount : Int) - 1 := by
          show (doc.blockNumber i : Int) = _
          rw [hbn, hbc]; simp
        rw [if_pos heq, if_pos hnum]
        unfold QTextCursor.deletePreviousChar
        simp)
      (by
        have hnl : ¬ (((⟨[]⟩ : QTextDocument).blockNumber (⟨0, 0⟩ : QTextCursor).position : Int)
            < (doc.blockNumber (⟨i, a⟩ : QTextCursor).position : Int)) := by
          show ¬ (((⟨[]⟩ : QTextDocument).blockNumber 0 : Int) < (doc.blockNumber i : Int))
          rw [hbn]
          simp [QTextDocument.blockNumber]
        rw [if_neg hnl])
      (by
        unfold QTextCursor.movePosition QTextDocument.blockPosition
        simp)
    rw [hres, selectedText_first doc T [] h hf.1]

/-- Removing the last block of several: the block and the separator before it go, the
cursor lands at the start of the block that is now last. -/
theorem removeBlock_last (gb : GraphemeBoundary) (doc : QTextDocument) (P0 Tp T : List Char)
    (h : doc.text = (P0 ++ Tp ++ [paragraphSeparator]) ++ T ++ [])
    (hf : IsBlockFrame (P0 ++ Tp ++ [paragraphSeparator]) T [])
    (hfp : IsBlockFrame P0 Tp []) (i a : Nat) (hi : i ≤ T.length) :
    removeBlock gb doc ⟨(P0 ++ Tp ++ [paragraphSeparator]).length + i, a⟩
      = ⟨⟨P0 ++ Tp⟩, ⟨P0.length, P0.length⟩,
          (if T ≠ [] then '\n' :: T else T) ++ ['\n']⟩ := by
  have hbn := blockNumber_frame doc _ T [] h hf i hi
  have hbc := blockCount_frame doc _ T [] h hf
  rw [count_sep_frame_left P0 Tp hfp.1] at hbn hbc
  simp only [List.count_nil, Nat.add_zero] at hbc
  have hPl : (P0 ++ Tp ++ [paragraphSeparator]).length = P0.length + Tp.length + 1 := by
    simp; omega
  have hfp' : IsBlockFrame P0 Tp (paragraphSeparator :: (T ++ [])) :=
    ⟨hfp.1, hfp.2.1, Or.inr ⟨_, rfl⟩⟩
  have hd2 : (⟨P0 ++ Tp⟩ : QTextDocument).text = P0 ++ Tp ++ [] := by simp
  have hbn2 := blockNumber_frame ⟨P0 ++ Tp⟩ P0 Tp [] hd2 hfp Tp.length (le_refl _)
  have hbc2 := blockCount_frame ⟨P0 ++ Tp⟩ P0 Tp [] hd2 hfp
  simp only [List.count_nil, Nat.add_zero] at hbc2
  have hstep4 : (if (((⟨P0 ++ Tp⟩ : QTextDocument).blockNumber
          (⟨P0.length + Tp.length, P0.length + Tp.length⟩ : QTextCursor).position : Nat) : Int)
        < (doc.blockNumber (⟨(P0 ++ Tp ++ [paragraphSeparator]).length + i, a⟩ :
            QTextCursor).position : Int) then
        (QTextCursor.movePosition ⟨P0 ++ Tp⟩ ⟨P0.length + Tp.length, P0.length + Tp.length⟩
          .NextBlock .MoveAnchor).2
      else ⟨P0.length + Tp.length, P0.length + Tp.length⟩)
      = ⟨P0.length + Tp.length, P0.length + Tp.length⟩ := by
    have hlt : (((⟨P0 ++ Tp⟩ : QTextDocument).blockNumber (P0.length + Tp.length) : Nat) : Int)
        < (doc.blockNumber ((P0 ++ Tp ++ [paragraphSeparator]).length + i) : Int) := by
      rw [hbn, hbn2]; omega
    simp only [hlt, if_true]
    exact movePosition_nextBlock_none _ P0 Tp hd2 hfp Tp.length _ (le_refl _) .MoveAnchor
  have hstep5 : (QTextCursor.movePosition ⟨P0 ++ Tp⟩
        ⟨P0.length + Tp.length, P0.length + Tp.length⟩ .StartOfBlock .MoveAnchor).2
      = ⟨P0.length, P0.length⟩ :=
    movePosition_startOfBlock _ P0 Tp [] hd2 hfp Tp.length _ (le_refl _) .MoveAnchor
  by_cases hT : T = []
  · subst hT
    have hi0 : i = 0 := by simpa using hi
    subst hi0
    have htl : doc.text.length = P0.length + Tp.length + 1 := by rw [h]; simp; omega
    have hres := removeBlock_of_steps gb doc ⟨(P0 ++ Tp ++ [paragraphSeparator]).length + 0, a⟩
      ⟨(P0 ++ Tp ++ [paragraphSeparator]).length, (P0 ++ Tp ++ [paragraphSeparator]).length⟩
      ⟨(P0 ++ Tp ++ [paragraphSeparator]).length, (P0 ++ Tp ++ [paragraphSeparator]).length⟩
      ⟨P0.length + Tp.length, P0.length + Tp.length⟩
      ⟨P0.length + Tp.length, P0.length + Tp.length⟩
      ⟨P0.length, P0.length⟩ doc ⟨P0 ++ Tp⟩
      (selectBlock_empty doc _ [] h hf a)
      (by
        unfold QTextCursor.deleteChar
        have hnlt : ¬ ((P0 ++ Tp ++ [paragraphSeparator]).length < doc.text.length) := by omega
        simp only [ne_eq, not_true_eq_false, if_false, hnlt])
      (by
        have hnum : (doc.blockNumber
            (⟨(P0 ++ Tp ++ [paragraphSeparator]).length + 0, a⟩ : QTextCursor).position : Int)
            = (doc.blockCount : Int) - 1 := by
          show (doc.blockNumber ((P0 ++ Tp ++ [paragraphSeparator]).length + 0) : Int) = _
          rw [hbn, hbc]; push_cast; omega
        rw [if_pos rfl, if_pos hnum]
        unfold QTextCursor.deletePreviousChar
        have hge : ¬ (P0.length + Tp.length + 1 < 1) := by omega
        have : doc.text.eraseIdx (P0.length + Tp.length) = P0 ++ Tp := by
          rw [h]
          simp only [List.append_nil]
          rw [← List.length_append,
            List.eraseIdx_append_of_length_le (le_refl _)]
          simp
        simp only [ne_eq, not_true_eq_false, if_false, hPl, Nat.add_sub_cancel, this, hge])
      hstep4 hstep5
    rw [hres, selectedText_empty]
    simp
  · have hres := removeBlock_of_steps gb doc ⟨(P0 ++ Tp ++ [paragraphSeparator]).length + i, a⟩
      ⟨(P0 ++ Tp ++ [paragraphSeparator]).length + T.length, P0.length + Tp.length⟩
      ⟨P0.length + Tp.length, P0.length + Tp.length⟩
      ⟨P0.length + Tp.length, P0.length + Tp.length⟩
      ⟨P0.length + Tp.length, P0.length + Tp.length⟩
      ⟨P0.length, P0.length⟩ ⟨P0 ++ Tp⟩ ⟨P0 ++ Tp⟩
      (selectBlock_inner doc P0 Tp T [] h hf hfp' hT i a hi)
      (by
        unfold QTextCursor.deleteChar QTextCursor.removeSelection
          QTextCursor.selectionStart QTextCursor.selectionEnd
        have hne : (P0 ++ Tp ++ [paragraphSeparator]).length + T.length
            ≠ P0.length + Tp.length := by omega
        have hmin : min ((P0 ++ Tp ++ [paragraphSeparator]).length + T.length)
            (P0.length + Tp.length) = (P0 ++ Tp).length := by
          simp only [List.length_append, List.length_singleton]; omega
        have hmax : max ((P0 ++ Tp ++ [paragraphSeparator]).length + T.length)
            (P0.length + Tp.length) = doc.text.length := by
          rw [h]
          simp only [List.length_append, List.length_singleton, List.length_nil]; omega
        simp only [ne_eq, hne, not_false_eq_true, if_true, hmin, hmax]
        have e1 : doc.text.take (P0 ++ Tp).length = P0 ++ Tp := by
          rw [h]
          simp only [List.append_assoc]
          rw [← List.append_assoc, List.take_left]
        rw [e1, List.drop_length]
        simp)
      (by
        have hne : ¬ ((doc.blockCount : Int)
            = ((⟨P0 ++ Tp⟩ : QTextDocument).blockCount : Int)) := by
          rw [hbc, hbc2]; omega
        rw [if_neg hne])
      hstep4 hstep5
    rw [hres, selectedText_inner doc P0 Tp T [] h hf.1]
    simp [hT]

/-! ### Documents as sequences of blocks -/

theorem intercalate_cons_blocksAfter (T : List Char) (bs : List (List Char)) :
    List.intercalate [paragraphSeparator] (T :: bs) = T ++ blocksAfter bs := by
  induction bs generalizing T with
  | nil => simp [List.intercalate, blocksAfter]
  | cons b bs ih =>
    have h := ih b
    simp only [List.intercalate] at h ⊢
    simp only [List.intersperse_cons₂, List.flatten_cons, h, blocksAfter, List.map_cons,
      List.singleton_append, List.cons_append, List.nil_append]

theorem ofBlocks_split (bs1 : List (List Char)) (T : List Char) (bs2 : List (List Char)) :
    (QTextDocument.ofBlocks (bs1 ++ T :: bs2)).text
      = blocksBefore bs1 ++ T ++ blocksAfter bs2 := by
  unfold QTextDocument.ofBlocks
  simp only
  induction bs1 with
  | nil => simp [blocksBefore, intercalate_cons_blocksAfter]
  | cons b bs ih =>
    have hne : bs ++ T :: bs2 ≠ [] := by simp
    obtain ⟨x, xs, hx⟩ : ∃ x xs, bs ++ T :: bs2 = x :: xs := by
      cases hb : bs ++ T :: bs2 with
      | nil => exact absurd hb hne
      | cons x xs => exact ⟨x, xs, rfl⟩
    have hstep : List.intercalate [paragraphSeparator] (b :: (bs ++ T :: bs2))
        = b ++ paragraphSeparator :: List.intercalate [paragraphSeparator] (bs ++ T :: bs2) := by
      rw [hx]
      simp [List.intercalate]
    rw [List.cons_append, hstep, ih]
    simp [blocksBefore]

theorem blocksBefore_append_singleton (bs : List (List Char)) (b : List Char) :
    blocksBefore (bs ++ [b]) = blocksBefore bs ++ b ++ [paragraphSeparator] := by
  simp [blocksBefore]

theorem blocksAfter_cons (b : List Char) (bs : List (List Char)) :
    blocksAfter (b :: bs) = paragraphSeparator :: (b ++ blocksAfter bs) := by
  simp [blocksAfter]

theorem blocksBefore_shape (bs : List (List Char)) :
    blocksBefore bs = [] ∨ ∃ P', blocksBefore bs = P' ++ [paragraphSeparator] := by
  induction bs using List.reverseRecOn with
  | nil => left; rfl
  | append_singleton bs b _ =>
    right
    exact ⟨blocksBefore bs ++ b, blocksBefore_append_singleton bs b⟩

theorem blocksAfter_shape (bs : List (List Char)) :
    blocksAfter bs = [] ∨ ∃ Q', blocksAfter bs = paragraphSeparator :: Q' := by
  cases bs with
  | nil => left; rfl
  | cons b bs => right; exact ⟨_, blocksAfter_cons b bs⟩

theorem isBlockFrame_blocks (bs1 : List (List Char)) (T : List Char) (bs2 : List (List Char))
    (hT : paragraphSeparator ∉ T) :
    IsBlockFrame (blocksBefore bs1) T (blocksAfter bs2) :=
  ⟨hT, blocksBefore_shape bs1, blocksAfter_shape bs2⟩

theorem count_blocksBefore (bs : List (List Char)) (h : SeparatorFree bs) :
    (blocksBefore bs).count paragraphSeparator = bs.length := by
  induction bs with
  | nil => rfl
  | cons b bs ih =>
    have hb : paragraphSeparator ∉ b := h b (List.mem_cons_self _ _)
    have hbs : SeparatorFree bs := fun x hx => h x (List.mem_cons_of_mem _ hx)
    have := ih hbs
    simp only [blocksBefore, List.map_cons, List.flatten_cons, List.count_append,
      List.count_eq_zero.2 hb, List.count_singleton_self] at this ⊢
    rw [this]
    simp
    omega

theorem count_blocksAfter (bs : List (List Char)) (h : SeparatorFree bs) :
    (blocksAfter bs).count paragraphSeparator = bs.length := by
  induction bs with
  | nil => rfl
  | cons b bs ih =>
    have hb : paragraphSeparator ∉ b := h b (List.mem_cons_self _ _)
    have hbs : SeparatorFree bs := fun x hx => h x (List.mem_cons_of_mem _ hx)
    rw [blocksAfter_cons, List.count_cons_self, List.count_append, List.count_eq_zero.2 hb,
      ih hbs]
    simp

/-- The block sequence of a document built from separator-free blocks is that sequence. -/
theorem blocks_ofBlocks (bs : List (List Char)) (h : SeparatorFree bs) (hne : bs ≠ []) :
    (QTextDocument.ofBlocks bs).blocks = bs := by
  unfold QTextDocument.blocks QTextDocument.ofBlocks
  exact List.splitOn_intercalate bs paragraphSeparator h hne

theorem blockCount_ofBlocks (b : List Char) (bs : List (List Char))
    (h : SeparatorFree (b :: bs)) :
    (QTextDocument.ofBlocks (b :: bs)).blockCount = bs.length + 1 := by
  have hs : (QTextDocument.ofBlocks (b :: bs)).text = blocksBefore [] ++ b ++ blocksAfter bs :=
    ofBlocks_split [] b bs
  have hf := isBlockFrame_blocks [] b bs (h b (List.mem_cons_self _ _))
  rw [blockCount_frame _ _ _ _ hs hf, count_blocksAfter bs
    (fun x hx => h x (List.mem_cons_of_mem _ hx))]
  simp [blocksBefore]

/-! ### `removeBlock` on a document given as a sequence of blocks -/

theorem separatorFree_mid (bs1 : List (List Char)) (T : List Char) (bs2 : List (List Char))
    (h : SeparatorFree (bs1 ++ T :: bs2)) :
    SeparatorFree bs1 ∧ paragraphSeparator ∉ T ∧ SeparatorFree bs2 := by
  refine ⟨fun b hb => h b (by simp [hb]), h T (by simp), fun b hb => h b (by simp [hb])⟩

theorem removeBlock_ofBlocks_not_last (gb : GraphemeBoundary) (bs1 : List (List Char)) (T b : List Char)
    (bs2 : List (List Char)) (hfree : SeparatorFree (bs1 ++ T :: b :: bs2))
    (i a : Nat) (hi : i ≤ T.length) :
    removeBlock gb (QTextDocument.ofBlocks (bs1 ++ T :: b :: bs2))
        ⟨(blocksBefore bs1).length + i, a⟩
      = ⟨QTextDocument.ofBlocks (bs1 ++ b :: bs2),
          ⟨(blocksBefore bs1).length, (blocksBefore bs1).length⟩,
          (if bs1 ≠ [] ∧ T ≠ [] then '\n' :: T else T) ++ ['\n']⟩ := by
  obtain ⟨_, hT, _⟩ := separatorFree_mid bs1 T (b :: bs2) hfree
  have hs := ofBlocks_split bs1 T (b :: bs2)
  rw [blocksAfter_cons] at hs
  have hf : IsBlockFrame (blocksBefore bs1) T (paragraphSeparator :: (b ++ blocksAfter bs2)) := by
    have := isBlockFrame_blocks bs1 T (b :: bs2) hT
    rwa [blocksAfter_cons] at this
  rw [removeBlock_not_last gb _ _ T _ hs hf i a hi]
  have hdoc : (⟨blocksBefore bs1 ++ (b ++ blocksAfter bs2)⟩ : QTextDocument)
      = QTextDocument.ofBlocks (bs1 ++ b :: bs2) := by
    have := ofBlocks_split bs1 b bs2
    cases hd : QTextDocument.ofBlocks (bs1 ++ b :: bs2) with
    | mk t =>
      rw [hd] at this
      simp only at this
      rw [this, List.append_assoc]
  have hP : blocksBefore bs1 ≠ [] ↔ bs1 ≠ [] := by
    cases bs1 with
    | nil => simp [blocksBefore]
    | cons x xs => simp [blocksBefore]
  rw [hdoc]
  simp only [hP]

theorem removeBlock_ofBlocks_sole (gb : GraphemeBoundary) (T : List Char) (hT : paragraphSeparator ∉ T)
    (i a : Nat) (hi : i ≤ T.length) :
    removeBlock gb (QTextDocument.ofBlocks [T]) ⟨i, a⟩
      = ⟨QTextDocument.ofBlocks [[]], ⟨0, 0⟩, T ++ ['\n']⟩ := by
  have hs : (QTextDocument.ofBlocks [T]).text = [] ++ T ++ [] := by
    simp [QTextDocument.ofBlocks, List.intercalate]
  have hf : IsBlockFrame [] T [] := ⟨hT, Or.inl rfl, Or.inl rfl⟩
  rw [removeBlock_sole gb _ T hs hf i a hi]
  rfl

theorem removeBlock_ofBlocks_last (gb : GraphemeBoundary) (bs1 : List (List Char)) (b T : List Char)
    (hfree : SeparatorFree (bs1 ++ [b] ++ [T])) (i a : Nat) (hi : i ≤ T.length) :
    removeBlock gb (QTextDocument.ofBlocks (bs1 ++ [b] ++ [T]))
        ⟨(blocksBefore (bs1 ++ [b])).length + i, a⟩
      = ⟨QTextDocument.ofBlocks (bs1 ++ [b]),
          ⟨(blocksBefore bs1).length, (blocksBefore bs1).length⟩,
          (if T ≠ [] then '\n' :: T else T) ++ ['\n']⟩ := by
  have hT : paragraphSeparator ∉ T := hfree T (by simp)
  have hb : paragraphSeparator ∉ b := hfree b (by simp)
  have hs := ofBlocks_split (bs1 ++ [b]) T []
  rw [blocksBefore_append_singleton] at hs
  have hs' : (QTextDocument.ofBlocks (bs1 ++ [b] ++ [T])).text
      = (blocksBefore bs1 ++ b ++ [paragraphSeparator]) ++ T ++ [] := by
    rw [hs]; rfl
  have hf : IsBlockFrame (blocksBefore bs1 ++ b ++ [paragraphSeparator]) T [] :=
    ⟨hT, Or.inr ⟨_, rfl⟩, Or.inl rfl⟩
  have hfp : IsBlockFrame (blocksBefore bs1) b [] :=
    ⟨hb, blocksBefore_shape bs1, Or.inl rfl⟩
  rw [blocksBefore_append_singleton, removeBlock_last gb _ _ b T hs' hf hfp i a hi]
  have hdoc : (⟨blocksBefore bs1 ++ b⟩ : QTextDocument)
      = QTextDocument.ofBlocks (bs1 ++ [b]) := by
    have := ofBlocks_split bs1 b []
    cases hd : QTextDocument.ofBlocks (bs1 ++ [b]) with
    | mk t =>
      rw [hd] at this
      simp only at this
      rw [this]
      simp [blocksAfter]
  rw [hdoc]

theorem blockCount_ofBlocks_mid (bs1 : List (List Char)) (T : List Char)
    (bs2 : List (List Char)) (hfree : SeparatorFree (bs1 ++ T :: bs2)) :
    (QTextDocument.ofBlocks (bs1 ++ T :: bs2)).blockCount = bs1.length + 1 + bs2.length := by
  obtain ⟨h1, hT, h2⟩ := separatorFree_mid bs1 T bs2 hfree
  rw [blockCount_frame _ _ _ _ (ofBlocks_split bs1 T bs2) (isBlockFrame_blocks bs1 T bs2 hT),
    count_blocksBefore bs1 h1, count_blocksAfter bs2 h2]
  omega

theorem blockNumber_ofBlocks_mid (bs1 : List (List Char)) (T : List Char)
    (bs2 : List (List Char)) (hfree : SeparatorFree (bs1 ++ T :: bs2))
    (i : Nat) (hi : i ≤ T.length) :
    (QTextDocument.ofBlocks (bs1 ++ T :: bs2)).blockNumber ((blocksBefore bs1).length + i)
      = bs1.length := by
  obtain ⟨h1, hT, _⟩ := separatorFree_mid bs1 T bs2 hfree
  rw [blockNumber_frame _ _ _ _ (ofBlocks_split bs1 T bs2) (isBlockFrame_blocks bs1 T bs2 hT)
    i hi, count_blocksBefore bs1 h1]

/-- C6: `removeBlock` deletes exactly the cursor's block.  The document has the
separator-free blocks `bs1 ++ T :: bs2` (so `N = |bs1| + 1 + |bs2|` blocks) and the caret is
anywhere in the block `T`, which has number `k = |bs1|`; the anchor is arbitrary.  After
the call the sequence of block texts is the original one with entry `k` removed when
`N > 1` and a single empty block when `N = 1`, and the block count is `max 1 (N - 1)`. -/
theorem removeBlock_deletes_block (gb : GraphemeBoundary) (bs1 : List (List Char)) (T : List Char)
    (bs2 : List (List Char)) (hfree : SeparatorFree (bs1 ++ T :: bs2))
    (i a : Nat) (hi : i ≤ T.length) :
    (QTextDocument.ofBlocks (bs1 ++ T :: bs2)).blocks = bs1 ++ T :: bs2
    ∧ (QTextDocument.ofBlocks (bs1 ++ T :: bs2)).blockCount = bs1.length + 1 + bs2.length
    ∧ (QTextDocument.ofBlocks (bs1 ++ T :: bs2)).blockNumber ((blocksBefore bs1).length + i)
        = bs1.length
    ∧ (removeBlock gb (QTextDocument.ofBlocks (bs1 ++ T :: bs2))
          ⟨(blocksBefore bs1).length + i, a⟩).doc.blocks
        = (if bs1.length + 1 + bs2.length = 1 then [[]]
           else (bs1 ++ T :: bs2).eraseIdx bs1.length)
    ∧ (removeBlock gb (QTextDocument.ofBlocks (bs1 ++ T :: bs2))
          ⟨(blocksBefore bs1).length + i, a⟩).doc.blockCount
        = max 1 (bs1.length + 1 + bs2.length - 1) := by
  obtain ⟨h1, hT, h2⟩ := separatorFree_mid bs1 T bs2 hfree
  refine ⟨blocks_ofBlocks _ hfree (by simp), blockCount_ofBlocks_mid bs1 T bs2 hfree,
    blockNumber_ofBlocks_mid bs1 T bs2 hfree i hi, ?_⟩
  have herase : (bs1 ++ T :: bs2).eraseIdx bs1.length = bs1 ++ bs2 := by
    rw [List.eraseIdx_append_of_length_le (le_refl _)]
    simp
  rw [herase]
  cases bs2 with
  | cons b bs2' =>
    have hfree' : SeparatorFree (bs1 ++ b :: bs2') :=
      fun x hx => hfree x (by
        rcases List.mem_append.1 hx with h | h
        · simp [h]
        · rcases List.mem_cons.1 h with h | h
          · simp [h]
          · simp [h])
    rw [removeBlock_ofBlocks_not_last gb bs1 T b bs2' hfree i a hi]
    simp only
    rw [blocks_ofBlocks _ hfree' (by simp), blockCount_ofBlocks_mid bs1 b bs2' hfree']
    have hN : ¬ (bs1.length + 1 + (b :: bs2').length = 1) := by
      simp only [List.length_cons]; omega
    rw [if_neg hN]
    simp only [List.length_cons, true_and]
    omega
  | nil =>
    induction bs1 using List.reverseRecOn with
    | nil =>
      have := removeBlock_ofBlocks_sole gb T hT i a hi
      simp only [List.nil_append, blocksBefore, List.map_nil, List.flatten_nil,
        List.length_nil, Nat.zero_add]
      rw [this]
      exact ⟨rfl, rfl⟩
    | append_singleton bs1' b _ =>
      have hfree' : SeparatorFree (bs1' ++ [b] ++ [T]) := hfree
      have hfree'' : SeparatorFree (bs1' ++ [b]) := h1
      have := removeBlock_ofBlocks_last gb bs1' b T hfree' i a hi
      rw [show bs1' ++ [b] ++ [T] = bs1' ++ [b] ++ T :: [] from rfl] at this
      rw [this]
      simp only [List.append_nil]
      rw [blocks_ofBlocks _ hfree'' (by simp), blockCount_ofBlocks_mid bs1' b [] hfree'']
      have hN : ¬ ((bs1' ++ [b]).length + 1 + ([] : List (List Char)).length = 1) := by
        simp only [List.length_append, List.length_singleton, List.length_nil]; omega
      rw [if_neg hN]
      simp only [List.length_append, List.length_singleton, List.length_nil, true_and]
      omega

/-- C7: cursor landing after `removeBlock` (invariant I1).  With the document and cursor of
C6 (`N` blocks, caret in block `k = |bs1|`), after the call the cursor has no selection, it
sits at the start of a block, and that block has number `k` when such a block exists
(`k < N - 1`, or `N = 1`) and is the new last block, number `N - 2`, otherwise. -/
theorem removeBlock_cursor_landing (gb : GraphemeBoundary) (bs1 : List (List Char)) (T : List Char)
    (bs2 : List (List Char)) (hfree : SeparatorFree (bs1 ++ T :: bs2))
    (i a : Nat) (hi : i ≤ T.length) :
    (removeBlock gb (QTextDocument.ofBlocks (bs1 ++ T :: bs2))
        ⟨(blocksBefore bs1).length + i, a⟩).cursor.anchor
      = (removeBlock gb (QTextDocument.ofBlocks (bs1 ++ T :: bs2))
        ⟨(blocksBefore bs1).length + i, a⟩).cursor.position
    ∧ (removeBlock gb (QTextDocument.ofBlocks (bs1 ++ T :: bs2))
          ⟨(blocksBefore bs1).length + i, a⟩).doc.blockPosition
        (removeBlock gb (QTextDocument.ofBlocks (bs1 ++ T :: bs2))
          ⟨(blocksBefore bs1).length + i, a⟩).cursor.position
      = (removeBlock gb (QTextDocument.ofBlocks (bs1 ++ T :: bs2))
          ⟨(blocksBefore bs1).length + i, a⟩).cursor.position
    ∧ (removeBlock gb (QTextDocument.ofBlocks (bs1 ++ T :: bs2))
          ⟨(blocksBefore bs1).length + i, a⟩).doc.blockNumber
        (removeBlock gb (QTextDocument.ofBlocks (bs1 ++ T :: bs2))
          ⟨(blocksBefore bs1).length + i, a⟩).cursor.position
      = (if bs1.length < bs1.length + 1 + bs2.length - 1 ∨ bs1.length + 1 + bs2.length = 1
         then bs1.length else bs1.length + 1 + bs2.length - 2) := by
  obtain ⟨h1, hT, h2⟩ := separatorFree_mid bs1 T bs2 hfree
  cases bs2 with
  | cons b bs2' =>
    have hfree' : SeparatorFree (bs1 ++ b :: bs2') :=
      fun x hx => hfree x (by
        rcases List.mem_append.1 hx with h | h
        · simp [h]
        · rcases List.mem_cons.1 h with h | h
          · simp [h]
          · simp [h])
    have hb : paragraphSeparator ∉ b := hfree' b (by simp)
    rw [removeBlock_ofBlocks_not_last gb bs1 T b bs2' hfree i a hi]
    simp only [true_and]
    have hbp := blockPosition_frame _ _ _ _ (ofBlocks_split bs1 b bs2')
      (isBlockFrame_blocks bs1 b bs2' hb) 0 (Nat.zero_le _)
    have hbn := blockNumber_ofBlocks_mid bs1 b bs2' hfree' 0 (Nat.zero_le _)
    simp only [Nat.add_zero] at hbp hbn
    refine ⟨hbp, ?_⟩
    rw [hbn]
    have hk : bs1.length < bs1.length + 1 + (b :: bs2').length - 1 := by
      simp only [List.length_cons]; omega
    rw [if_pos (Or.inl hk)]
  | nil =>
    induction bs1 using List.reverseRecOn with
    | nil =>
      have := removeBlock_ofBlocks_sole gb T hT i a hi
      simp only [List.nil_append, blocksBefore, List.map_nil, List.flatten_nil,
        List.length_nil, Nat.zero_add]
      rw [this]
      exact ⟨rfl, rfl, rfl⟩
    | append_singleton bs1' b _ =>
      have hfree' : SeparatorFree (bs1' ++ [b] ++ [T]) := hfree
      have hfree'' : SeparatorFree (bs1' ++ [b]) := h1
      have hb : paragraphSeparator ∉ b := h1 b (by simp)
      have := removeBlock_ofBlocks_last gb bs1' b T hfree' i a hi
      rw [show bs1' ++ [b] ++ [T] = bs1' ++ [b] ++ T :: [] from rfl] at this
      rw [this]
      simp only [true_and]
      have hbp := blockPosition_frame _ _ _ _ (ofBlocks_split bs1' b [])
        (isBlockFrame_blocks bs1' b [] hb) 0 (Nat.zero_le _)
      have hbn := blockNumber_ofBlocks_mid bs1' b [] hfree'' 0 (Nat.zero_le _)
      simp only [Nat.add_zero] at hbp hbn
      refine ⟨hbp, ?_⟩
      rw [hbn]
      have hk : ¬ ((bs1' ++ [b]).length < (bs1' ++ [b]).length + 1
            + ([] : List (List Char)).length - 1
          ∨ (bs1' ++ [b]).length + 1 + ([] : List (List Char)).length = 1) := by
        simp only [List.length_append, List.length_singleton, List.length_nil]; omega
      rw [if_neg hk]
      simp only [List.length_append, List.length_singleton, List.length_nil]
      omega

/-- Witness of C6 on scenario 6: one block of four spaces becomes one empty block and the
block count stays 1. -/
theorem removeBlock_deletes_block_witness :
    (removeBlock asciiAcuteBoundary (QTextDocument.ofBlocks [[' ', ' ', ' ', ' ']]) ⟨2, 2⟩).doc.blocks = [[]]
    ∧ (removeBlock asciiAcuteBoundary (QTextDocument.ofBlocks [[' ', ' ', ' ', ' ']]) ⟨2, 2⟩).doc.blockCount
        = 1 :=
  (removeBlock_deletes_block asciiAcuteBoundary [] [' ', ' ', ' ', ' '] []
    (by unfold SeparatorFree; decide) 2 2 (by decide)).2.2.2

/-- Witness of C7: removing the last of the three blocks `ab`, `cd`, `ef` puts the cursor,
without selection, at the start of `cd`, the new last block (number 1). -/
theorem removeBlock_cursor_landing_witness :
    (removeBlock asciiAcuteBoundary (QTextDocument.ofBlocks ["ab".toList, "cd".toList, "ef".toList])
        ⟨7, 0⟩).cursor = ⟨3, 3⟩
    ∧ (removeBlock asciiAcuteBoundary (QTextDocument.ofBlocks ["ab".toList, "cd".toList, "ef".toList])
        ⟨7, 0⟩).doc.blockNumber 3 = 1 := by
  have h := removeBlock_cursor_landing asciiAcuteBoundary ["ab".toList, "cd".toList] "ef".toList []
    (by unfold SeparatorFree; decide) 1 0 (by decide)
  have hc : (removeBlock asciiAcuteBoundary (QTextDocument.ofBlocks ["ab".toList, "cd".toList, "ef".toList])
        ⟨7, 0⟩).cursor = ⟨3, 3⟩ := by decide
  refine ⟨hc, ?_⟩
  have h3 := h.2.2
  simpa [hc] using h3

/-- C8 fails on the code: with the two blocks `ab` and `cd` and the caret in `cd`, the
block selection of Qt starts at the separator before the block, so the text stored through
`p_text` is a newline, `cd` and a newline, not `cd` and a newline.  For a first block the
separator is not selected and the stored text is the block text and one newline.  The
stored text is taken before anything is deleted, so this holds for every way of cutting
the text into grapheme clusters. -/
theorem removeBlock_captures_leading_newline (gb : GraphemeBoundary) :
    (removeBlock gb (QTextDocument.ofBlocks ["ab".toList, "cd".toList]) ⟨4, 4⟩).text
        = '\n' :: "cd".toList ++ ['\n']
    ∧ (removeBlock gb (QTextDocument.ofBlocks ["ab".toList, "cd".toList]) ⟨4, 4⟩).text
        ≠ "cd".toList ++ ['\n']
    ∧ (removeBlock gb (QTextDocument.ofBlocks ["ab".toList, "cd".toList]) ⟨1, 1⟩).text
        = "ab".toList ++ ['\n'] := by
  have h1 : (removeBlock gb (QTextDocument.ofBlocks ["ab".toList, "cd".toList]) ⟨4, 4⟩).text
      = '\n' :: "cd".toList ++ ['\n'] := by
    show selectedText _ _ ++ ['\n'] = _
    decide
  have h2 : (removeBlock gb (QTextDocument.ofBlocks ["ab".toList, "cd".toList]) ⟨1, 1⟩).text
      = "ab".toList ++ ['\n'] := by
    show selectedText _ _ ++ ['\n'] = _
    decide
  refine ⟨h1, ?_, h2⟩
  rw [h1]
  decide

/-- C9 fails on the code for a list number that does not fit an `int`.  After the block
`  1. alpha` the call inserts `2. ` as the claim says; after the block `2147483648. x` the
conversion `toInt` fails, so without assertions the code goes on with 0 and inserts `1. `
where the claim says `2147483649. `, and with assertions `V_ASSERT(ok)` aborts the call. -/
theorem insertListMarkAsPreviousBlock_number_overflow :
    (insertListMarkAsPreviousBlock false
        (QTextDocument.ofBlocks ["  1. alpha".toList, "  ".toList]) ⟨13, 13⟩).map
        (fun r => (r.ret, r.doc.blocks))
      = some (true, ["  1. alpha".toList, "  2. ".toList])
    ∧ listMarkCapture "2147483648. x".toList = some "2147483648.".toList
    ∧ (insertListMarkAsPreviousBlock false
        (QTextDocument.ofBlocks ["2147483648. x".toList, []]) ⟨14, 14⟩).map
        (fun r => (r.ret, r.doc.blocks))
      = some (true, ["2147483648. x".toList, "1. ".toList])
    ∧ insertListMarkAsPreviousBlock true
        (QTextDocument.ofBlocks ["2147483648. x".toList, []]) ⟨14, 14⟩ = none := by
  decide

/-! ### Indentation after the previous block -/

theorem insertedChars_plain : ∀ (l : List Char), (∀ c ∈ l, isBlockBreak c = false) →
    insertedChars l = l
  | [], _ => rfl
  | [c], h => by
    have hc := h c (List.mem_singleton_self c)
    simp [insertedChars, hc]
  | c :: d :: rest, h => by
    have hc := h c (List.mem_cons_self _ _)
    have hrest : ∀ x ∈ d :: rest, isBlockBreak x = false :=
      fun x hx => h x (List.mem_cons_of_mem _ hx)
    have hcr : ¬ (c = '\r' ∧ d = '\n') := by
      rintro ⟨rfl, _⟩
      simp [isBlockBreak] at hc
    rw [insertedChars, if_neg hcr, hc]
    simp only [Bool.false_eq_true, if_false]
    rw [insertedChars_plain (d :: rest) hrest]

theorem firstNonSpaceLoop_eq : ∀ (l : List Char) (k : Nat),
    firstNonSpaceLoop l k = k + (l.takeWhile isSpace).length
  | [], k => by simp [firstNonSpaceLoop]
  | c :: cs, k => by
    unfold firstNonSpaceLoop
    by_cases hc : isSpace c = true
    · rw [if_pos hc, firstNonSpaceLoop_eq cs (k + 1), List.takeWhile_cons_of_pos hc]
      simp only [List.length_cons]
      omega
    · rw [if_neg hc, List.takeWhile_cons_of_neg hc]
      simp

theorem drop_takeWhile_length (p : Char → Bool) (l : List Char) :
    l.drop (l.takeWhile p).length = l.dropWhile p := by
  have h : (l.takeWhile p ++ l.dropWhile p).drop (l.takeWhile p).length = l.dropWhile p :=
    List.drop_left' rfl
  rwa [List.takeWhile_append_dropWhile] at h

theorem plainBlocks_separatorFree (bs : List (List Char)) (h : PlainBlocks bs) :
    SeparatorFree bs := by
  intro b hb hmem
  have := h b hb paragraphSeparator hmem
  simp [isBlockBreak] at this

/-- The function `indentBlockAsPreviousBlock` on a block framed in the buffer after a
previous block `Pv`. -/
theorem indentBlockAsPreviousBlock_frame (doc : QTextDocument) (P P0 Pv T Q : List Char)
    (hP : P = P0 ++ Pv ++ [paragraphSeparator])
    (h : doc.text = P ++ T ++ Q)
    (hf : IsBlockFrame P T Q)
    (hfp : IsBlockFrame P0 Pv (paragraphSeparator :: (T ++ Q)))
    (hW : ∀ c ∈ Pv.takeWhile isSpace, isBlockBreak c = false)
    (i a : Nat) (hi : i ≤ T.length) :
    (indentBlockAsPreviousBlock doc ⟨P.length + i, a⟩).doc
      = ⟨P ++ (Pv.takeWhile isSpace ++ T.dropWhile isSpace) ++ Q⟩ := by
  have hPl : P.length = P0.length + Pv.length + 1 := by
    rw [hP]; simp; omega
  have hbn := blockNumber_frame doc _ T Q h hf i hi
  rw [hP, count_sep_frame_left P0 Pv hfp.1, ← hP] at hbn
  have hbp := blockPosition_frame doc _ T Q h hf i hi
  have hbt := blockText_frame doc _ T Q h hf i hi
  have h' : doc.text = P0 ++ Pv ++ (paragraphSeparator :: (T ++ Q)) := by rw [h, hP]; simp
  have hprev := blockText_frame doc P0 Pv _ h' hfp Pv.length (le_refl _)
  have hw : (T.takeWhile isSpace).length ≤ T.length := (List.takeWhile_sublist _).length_le
  have htl : doc.text.length = P.length + T.length + Q.length := by
    rw [h]; simp only [List.length_append]
  have hdrop : T.drop (T.takeWhile isSpace).length = T.dropWhile isSpace :=
    drop_takeWhile_length isSpace T
  generalize (T.takeWhile isSpace).length = w at hw hdrop
  -- the cursor after `moveCursorFirstNonSpaceCharacter`
  have hc1 : moveCursorFirstNonSpaceCharacter doc ⟨P.length + i, a⟩ .MoveAnchor
      = ⟨P.length + (T.takeWhile isSpace).length,
         P.length + (T.takeWhile isSpace).length⟩ := by
    unfold moveCursorFirstNonSpaceCharacter
    simp only [hbp, hbt, firstNonSpaceLoop_eq, Nat.zero_add]
    have hw' : (T.takeWhile isSpace).length ≤ T.length := (List.takeWhile_sublist _).length_le
    have := setPosition_ok doc ⟨P.length + i, a⟩
      (P.length + (T.takeWhile isSpace).length) .MoveAnchor
      (by unfold QTextDocument.characterCount; omega)
    push_cast at this
    rw [this]
  have hdrop' : T.drop (T.takeWhile isSpace).length = T.dropWhile isSpace :=
    drop_takeWhile_length isSpace T
  have hwle : (T.takeWhile isSpace).length ≤ T.length := (List.takeWhile_sublist _).length_le
  clear hw hdrop
  generalize (T.takeWhile isSpace).length = w at hc1 hdrop' hwle
  have hbpw := blockPosition_frame doc _ T Q h hf w hwle
  -- first stage: the leading whitespace of the block is removed
  have hr1 : ∃ fl : Bool,
      (if ¬ (QTextCursor.atBlockStart doc ⟨P.length + w, P.length + w⟩) = true then
          (⟨true,
            (QTextCursor.removeSelectedText doc (QTextCursor.movePosition doc
              ⟨P.length + w, P.length + w⟩ .StartOfBlock .KeepAnchor).2).1,
            (QTextCursor.removeSelectedText doc (QTextCursor.movePosition doc
              ⟨P.length + w, P.length + w⟩ .StartOfBlock .KeepAnchor).2).2⟩ : EditResult)
        else ⟨false, doc, ⟨P.length + w, P.length + w⟩⟩)
      = ⟨fl, ⟨P ++ T.dropWhile isSpace ++ Q⟩, ⟨P.length, P.length⟩⟩ := by
    by_cases hw0 : w = 0
    · refine ⟨false, ?_⟩
      subst hw0
      simp only [Nat.add_zero] at hbpw ⊢
      have hat : QTextCursor.atBlockStart doc ⟨P.length, P.length⟩ = true := by
        unfold QTextCursor.atBlockStart
        simp only [hbpw, beq_self_eq_true]
      have hdw : T.dropWhile isSpace = T := by
        rw [← hdrop', List.drop_zero]
      rw [if_neg (by simp [hat]), hdw]
      cases doc
      simp only at h
      simp only [h]
    · refine ⟨true, ?_⟩
      have hat : ¬ (QTextCursor.atBlockStart doc ⟨P.length + w, P.length + w⟩ = true) := by
        unfold QTextCursor.atBlockStart
        simp only [hbpw, beq_iff_eq]
        omega
      rw [if_pos hat]
      have hmv := movePosition_startOfBlock doc _ T Q h hf w (P.length + w) hwle .KeepAnchor
      rw [hmv]
      unfold QTextCursor.removeSelectedText QTextCursor.removeSelection
        QTextCursor.selectionStart QTextCursor.selectionEnd
      have hne : P.length ≠ P.length + w := by omega
      simp only [ne_eq, hne, not_false_eq_true, if_true]
      have hmin : min P.length (P.length + w) = P.length := by omega
      have hmax : max P.length (P.length + w) = P.length + w := by omega
      rw [hmin, hmax]
      have e1 : doc.text.take P.length = P := by
        rw [h, List.append_assoc, List.take_left]
      have e2 : doc.text.drop (P.length + w) = T.dropWhile isSpace ++ Q := by
        rw [h, List.append_assoc, ← List.drop_drop, List.drop_left,
          List.drop_append_of_le_length hwle, hdrop']
      rw [e1, e2, List.append_assoc]
  obtain ⟨fl, hr1⟩ := hr1
  unfold indentBlockAsPreviousBlock
  have hbn0 : ¬ (doc.blockNumber (⟨P.length + i, a⟩ : QTextCursor).position = 0) := by
    show ¬ (doc.blockNumber (P.length + i) = 0)
    omega
  rw [if_neg hbn0]
  have hprevpos : doc.blockPosition (⟨P.length + i, a⟩ : QTextCursor).position - 1
      = P0.length + Pv.length := by
    show doc.blockPosition (P.length + i) - 1 = _
    rw [hbp]; omega
  simp only [hprevpos, hprev, hc1, hr1]
  by_cases hWe : (Pv.takeWhile isSpace).isEmpty = true
  · have hWnil : Pv.takeWhile isSpace = [] := List.isEmpty_iff.1 hWe
    rw [if_neg (by simp [hWe]), hWnil]
    simp
  · rw [if_pos (by simpa using hWe)]
    unfold QTextCursor.insertText QTextCursor.removeSelectedText
    simp only [ne_eq, not_true_eq_false, if_false, insertedChars_plain _ hW]
    rw [List.append_assoc P, List.take_left, List.drop_left]
    simp

/-- C10: `indentBlockAsPreviousBlock`.  In a well-formed document with the blocks
`bs1 ++ Pv :: T :: bs2` and the caret anywhere in `T` (block number `|bs1| + 1`, any
anchor), after the call the blocks are `bs1 ++ Pv :: (W ++ T') :: bs2`, where `W` is the
leading whitespace of the previous block `Pv` and `T'` is `T` without its own leading
whitespace: the block's text is `W` followed by `T'` and every other block is unchanged.
For a caret in block 0 of any document the call returns false and changes neither the
document nor the cursor. -/
theorem indentBlockAsPreviousBlock_spec (bs1 : List (List Char)) (Pv T : List Char)
    (bs2 : List (List Char)) (hplain : PlainBlocks (bs1 ++ Pv :: T :: bs2))
    (i a : Nat) (hi : i ≤ T.length) :
    (QTextDocument.ofBlocks (bs1 ++ Pv :: T :: bs2)).blockNumber
        ((blocksBefore (bs1 ++ [Pv])).length + i) = bs1.length + 1
    ∧ (indentBlockAsPreviousBlock (QTextDocument.ofBlocks (bs1 ++ Pv :: T :: bs2))
        ⟨(blocksBefore (bs1 ++ [Pv])).length + i, a⟩).doc.blocks
      = bs1 ++ Pv :: (Pv.takeWhile isSpace ++ T.dropWhile isSpace) :: bs2
    ∧ ∀ (T0 : List Char) (bs0 : List (List Char)) (j a0 : Nat),
        SeparatorFree (T0 :: bs0) → j ≤ T0.length →
        indentBlockAsPreviousBlock (QTextDocument.ofBlocks (T0 :: bs0)) ⟨j, a0⟩
          = ⟨false, QTextDocument.ofBlocks (T0 :: bs0), ⟨j, a0⟩⟩ := by
  have hlist : bs1 ++ Pv :: T :: bs2 = (bs1 ++ [Pv]) ++ T :: bs2 := by simp
  have hfree : SeparatorFree ((bs1 ++ [Pv]) ++ T :: bs2) := by
    rw [← hlist]; exact plainBlocks_separatorFree _ hplain
  obtain ⟨h1, hT, h2⟩ := separatorFree_mid (bs1 ++ [Pv]) T bs2 hfree
  have hPv : paragraphSeparator ∉ Pv := h1 Pv (by simp)
  refine ⟨?_, ?_, ?_⟩
  · rw [hlist, blockNumber_ofBlocks_mid (bs1 ++ [Pv]) T bs2 hfree i hi]
    simp
  · have hs := ofBlocks_split (bs1 ++ [Pv]) T bs2
    have hf := isBlockFrame_blocks (bs1 ++ [Pv]) T bs2 hT
    have hfp : IsBlockFrame (blocksBefore bs1) Pv (paragraphSeparator :: (T ++ blocksAfter bs2)) :=
      ⟨hPv, blocksBefore_shape bs1, Or.inr ⟨_, rfl⟩⟩
    have hW : ∀ c ∈ Pv.takeWhile isSpace, isBlockBreak c = false := by
      intro c hc
      exact hplain Pv (by simp) c ((List.takeWhile_sublist _).subset hc)
    have hres := indentBlockAsPreviousBlock_frame _ (blocksBefore (bs1 ++ [Pv]))
      (blocksBefore bs1) Pv T (blocksAfter bs2) (blocksBefore_append_singleton bs1 Pv)
      hs hf hfp hW i a hi
    rw [hlist, hres]
    have hnew : SeparatorFree ((bs1 ++ [Pv]) ++
        (Pv.takeWhile isSpace ++ T.dropWhile isSpace) :: bs2) := by
      intro b hb
      rcases List.mem_append.1 hb with hb | hb
      · exact h1 b hb
      · rcases List.mem_cons.1 hb with hb | hb
        · subst hb
          intro hm
          rcases List.mem_append.1 hm with hm | hm
          · exact hPv ((List.takeWhile_sublist _).subset hm)
          · exact hT ((List.dropWhile_sublist _).subset hm)
        · exact h2 b hb
    have hdoc : (⟨blocksBefore (bs1 ++ [Pv]) ++ (Pv.takeWhile isSpace ++ T.dropWhile isSpace)
          ++ blocksAfter bs2⟩ : QTextDocument)
        = QTextDocument.ofBlocks ((bs1 ++ [Pv]) ++
            (Pv.takeWhile isSpace ++ T.dropWhile isSpace) :: bs2) := by
      have := ofBlocks_split (bs1 ++ [Pv]) (Pv.takeWhile isSpace ++ T.dropWhile isSpace) bs2
      cases hd : QTextDocument.ofBlocks ((bs1 ++ [Pv]) ++
          (Pv.takeWhile isSpace ++ T.dropWhile isSpace) :: bs2) with
      | mk t =>
        rw [hd] at this
        simp only at this
        rw [this]
    rw [hdoc, blocks_ofBlocks _ hnew (by simp)]
    simp
  · intro T0 bs0 j a0 hfree0 hj
    have hb := blockNumber_ofBlocks_mid [] T0 bs0 hfree0 j hj
    simp only [blocksBefore, List.map_nil, List.flatten_nil, List.length_nil, Nat.zero_add,
      List.nil_append] at hb
    unfold indentBlockAsPreviousBlock
    rw [if_pos hb]

/-- Witness of C10: after the block `  ab` the block ` cd` (caret inside it) becomes
`  cd`. -/
theorem indentBlockAsPreviousBlock_spec_witness :
    (indentBlockAsPreviousBlock (QTextDocument.ofBlocks ["  ab".toList, " cd".toList])
        ⟨7, 7⟩).doc.blocks
      = ["  ab".toList, "  cd".toList] :=
  (indentBlockAsPreviousBlock_spec [] "  ab".toList " cd".toList []
    (by unfold PlainBlocks; decide) 2 7 (by decide)).2.1

/-! ### First non-space character -/

theorem takeWhile_length_spec (p : Char → Bool) :
    ∀ (l : List Char),
      (∀ i, i < (l.takeWhile p).length → ∃ c, l[i]? = some c ∧ p c = true)
      ∧ ((l.takeWhile p).length < l.length →
          ∃ c, l[(l.takeWhile p).length]? = some c ∧ p c = false) := by
  intro l
  induction l with
  | nil => simp
  | cons a as ih =>
    by_cases ha : p a = true
    · rw [List.takeWhile_cons_of_pos ha]
      refine ⟨?_, ?_⟩
      · intro i hi
        cases i with
        | zero => exact ⟨a, by simp, ha⟩
        | succ i =>
          simp only [List.length_cons, Nat.add_lt_add_iff_right] at hi
          simpa using ih.1 i hi
      · intro h
        simp only [List.length_cons, Nat.add_lt_add_iff_right] at h
        simpa using ih.2 h
    · rw [List.takeWhile_cons_of_neg ha]
      refine ⟨fun i hi => by simp at hi, fun _ => ⟨a, by simp, by simpa using ha⟩⟩

/-- C13: `moveCursorFirstNonSpaceCharacter`.  For a cursor on a valid position, in a block
with text `T`, the caret is set to the block position plus `idx`, where every character of
`T` before `idx` is whitespace and `idx` is either `|T|` (all of `T` is whitespace, also
when `T` is empty) or the index of a character that is not whitespace; in move mode the
anchor equals the new caret, in keep mode the anchor is unchanged. -/
theorem moveCursorFirstNonSpaceCharacter_spec (doc : QTextDocument) (cur : QTextCursor)
    (mode : MoveMode) (hvalid : cur.position < doc.characterCount) :
    ∃ idx : Nat,
      (moveCursorFirstNonSpaceCharacter doc cur mode).position
          = doc.blockPosition cur.position + idx
      ∧ idx ≤ (doc.blockText cur.position).length
      ∧ (∀ i, i < idx → ∃ c, (doc.blockText cur.position)[i]? = some c ∧ isSpace c = true)
      ∧ (idx < (doc.blockText cur.position).length →
          ∃ c, (doc.blockText cur.position)[idx]? = some c ∧ isSpace c = false)
      ∧ (moveCursorFirstNonSpaceCharacter doc cur mode).anchor
          = (if mode = MoveMode.MoveAnchor then
              (moveCursorFirstNonSpaceCharacter doc cur mode).position
             else cur.anchor) := by
  have hspec := takeWhile_length_spec isSpace (doc.blockText cur.position)
  have hle : ((doc.blockText cur.position).takeWhile isSpace).length
      ≤ (doc.blockText cur.position).length := (List.takeWhile_sublist _).length_le
  have hs := blockPosition_le doc cur.position
  have hfit : doc.blockPosition cur.position
      + ((doc.blockText cur.position).takeWhile isSpace).length < doc.characterCount := by
    unfold QTextDocument.characterCount at hvalid ⊢
    rcases blockText_length_le doc cur.position with h | h
    · omega
    · rw [h]; simp; omega
  obtain ⟨p1, p2⟩ := setPosition_int doc cur
    ((doc.blockPosition cur.position : Int)
      + (((doc.blockText cur.position).takeWhile isSpace).length : Nat)) mode
    (by omega) (by omega)
  have hdef : moveCursorFirstNonSpaceCharacter doc cur mode
      = cur.setPosition doc ((doc.blockPosition cur.position : Int)
          + (((doc.blockText cur.position).takeWhile isSpace).length : Nat)) mode := by
    unfold moveCursorFirstNonSpaceCharacter
    simp only [firstNonSpaceLoop_eq, Nat.zero_add]
  refine ⟨((doc.blockText cur.position).takeWhile isSpace).length, ?_, hle, hspec.1, hspec.2, ?_⟩
  · rw [hdef]; omega
  · rw [hdef]; exact p2

/-- Witness of C13: in the block `  ab` the caret goes to index 2, the first character that
is not whitespace. -/
theorem moveCursorFirstNonSpaceCharacter_spec_witness :
    ∃ idx : Nat,
      (moveCursorFirstNonSpaceCharacter ⟨"  ab".toList⟩ ⟨4, 4⟩ MoveMode.MoveAnchor).position
          = (⟨"  ab".toList⟩ : QTextDocument).blockPosition 4 + idx
      ∧ idx ≤ ((⟨"  ab".toList⟩ : QTextDocument).blockText 4).length
      ∧ (∀ i, i < idx →
          ∃ c, ((⟨"  ab".toList⟩ : QTextDocument).blockText 4)[i]? = some c ∧ isSpace c = true)
      ∧ (idx < ((⟨"  ab".toList⟩ : QTextDocument).blockText 4).length →
          ∃ c, ((⟨"  ab".toList⟩ : QTextDocument).blockText 4)[idx]? = some c
            ∧ isSpace c = false)
      ∧ (moveCursorFirstNonSpaceCharacter ⟨"  ab".toList⟩ ⟨4, 4⟩ MoveMode.MoveAnchor).anchor
          = (if MoveMode.MoveAnchor = MoveMode.MoveAnchor then
              (moveCursorFirstNonSpaceCharacter ⟨"  ab".toList⟩ ⟨4, 4⟩
                MoveMode.MoveAnchor).position
             else 4) :=
  moveCursorFirstNonSpaceCharacter_spec ⟨"  ab".toList⟩ ⟨4, 4⟩ MoveMode.MoveAnchor (by decide)

/-- C18 fails on the code: the block text `2147483648. x` matches the list pattern with
the numeric marker `2147483648.`, and the conversion of its digits to an `int` fails (the
`ok` flag is false).  With assertions `V_ASSERT(ok)` aborts both functions; without them
`isListBlock` reports the sequence number 0 and `insertListMarkAsPreviousBlock` continues
the list with `1. `, not with the successor `2147483649`. -/
theorem list_number_parse_fails :
    listMarkCapture "2147483648. x".toList = some "2147483648.".toList
    ∧ qStringToInt "2147483648".toList = (false, 0)
    ∧ isListBlock true "2147483648. x".toList = none
    ∧ isListBlock false "2147483648. x".toList = some (true, 0)
    ∧ insertListMarkAsPreviousBlock true
        (QTextDocument.ofBlocks ["2147483648. x".toList, []]) ⟨14, 14⟩ = none
    ∧ (insertListMarkAsPreviousBlock false
        (QTextDocument.ofBlocks ["2147483648. x".toList, []]) ⟨14, 14⟩).map
        (fun r => r.doc.blocks)
      = some ["2147483648. x".toList, "1. ".toList] := by
  decide

/-- C14 fails on the code: the starred classes of the pattern in the source are `[ |\t]`,
so a vertical bar next to the `U+FFFC` is swallowed by the match.  For the text newline,
`U+FFFC`, vertical bar, newline the source removes everything up to the last newline, while
the pattern of the specification matches nothing there and only the `U+FFFC` goes.  On a
line that holds only spaces and tabs around the `U+FFFC` the two agree. -/
theorem removeObjectReplacementCharacter_swallows_bar :
    removeObjectReplacementCharacter ['\n', objectReplacementCharacter, '|', '\n'] = ['\n']
    ∧ removeObjectReplacementCharacterSpec ['\n', objectReplacementCharacter, '|', '\n']
        = ['\n', '|', '\n']
    ∧ orcMatchLength orcPadSpec ['\n', objectReplacementCharacter, '|', '\n'] = none
    ∧ removeObjectReplacementCharacter
        ['a', '\n', ' ', objectReplacementCharacter, '\t', '\n', 'b'] = ['a', '\n', 'b']
    ∧ removeObjectReplacementCharacterSpec
        ['a', '\n', ' ', objectReplacementCharacter, '\t', '\n', 'b'] = ['a', '\n', 'b'] := by
  decide

/-! ### Forward and backward find -/

/-- Every valid position lies in a framed block of the buffer. -/
theorem exists_block_frame (doc : QTextDocument) (p : Nat) (hp : p ≤ doc.text.length) :
    ∃ P T Q i, doc.text = P ++ T ++ Q ∧ IsBlockFrame P T Q ∧ i ≤ T.length
      ∧ p = P.length + i := by
  obtain ⟨P0, Tp, h1, hTp, hP0⟩ := exists_last_block (doc.text.take p)
  obtain ⟨T2, Q2, h2, hT2, hQ2⟩ := exists_first_block (doc.text.drop p)
  refine ⟨P0, Tp ++ T2, Q2, Tp.length, ?_, ⟨?_, hP0, hQ2⟩, ?_, ?_⟩
  · rw [List.append_assoc, List.append_assoc, ← h2, ← List.append_assoc, ← h1,
      List.take_append_drop]
  · intro hm
    rcases List.mem_append.1 hm with h | h
    · exact hTp h
    · exact hT2 h
  · simp
  · have := congrArg List.length h1
    rw [List.length_take, List.length_append, Nat.min_eq_left hp] at this
    exact this

/-- The counterexample to C15: in the block `oxo` with the caret on index 1 and target
`o`, one `o` lies in each direction; the forward find puts the caret on index 2, the
backward find from there stops on the `o` at index 0, and both return true: the caret
ends on 0, not on 1. -/
theorem findTargetWithinBlock_round_trip_misses_origin :
    1 ≤ ("oxo".toList.drop 2).count 'o' ∧ 1 ≤ ("oxo".toList.take 1).count 'o'
    ∧ (findTargetWithinBlock ⟨"oxo".toList⟩ ⟨1, 1⟩ MoveMode.MoveAnchor 'o' true true 1)
        = (true, ⟨2, 2⟩)
    ∧ (findTargetWithinBlock ⟨"oxo".toList⟩ ⟨2, 2⟩ MoveMode.MoveAnchor 'o' false true 1)
        = (true, ⟨0, 0⟩) := by
  decide

/-- C15, amended: when the caret is on an occurrence of the target `t` and at least `k`
occurrences of `t` lie after it in the block (`k >= 1`), the forward inclusive find with
repeat `k` followed by the backward inclusive find with repeat `k`, both in move mode, both
return true and leave the caret, and the anchor, where the caret was. -/
theorem findTargetWithinBlock_round_trip (doc : QTextDocument) (cur : QTextCursor)
    (t : Char) (k : Nat) (hk : 1 ≤ k) (hvalid : cur.position < doc.characterCount)
    (hat : (doc.blockText cur.position)[cur.positionInBlock doc]? = some t)
    (hocc : k ≤ ((doc.blockText cur.position).drop (cur.positionInBlock doc + 1)).count t) :
    (findTargetWithinBlock doc cur MoveMode.MoveAnchor t true true k).1 = true
    ∧ (findTargetWithinBlock doc
        (findTargetWithinBlock doc cur MoveMode.MoveAnchor t true true k).2
        MoveMode.MoveAnchor t false true k).1 = true
    ∧ (findTargetWithinBlock doc
        (findTargetWithinBlock doc cur MoveMode.MoveAnchor t true true k).2
        MoveMode.MoveAnchor t false true k).2 = ⟨cur.position, cur.position⟩ := by
  obtain ⟨P, T, Q, i, htext, hf, hi, hp⟩ := exists_block_frame doc cur.position
    (by unfold QTextDocument.characterCount at hvalid; omega)
  have hbt : doc.blockText cur.position = T := by
    rw [hp]; exact blockText_frame doc P T Q htext hf i hi
  have hbp : doc.blockPosition cur.position = P.length := by
    rw [hp]; exact blockPosition_frame doc P T Q htext hf i hi
  have hpib : cur.positionInBlock doc = i := by
    unfold QTextCursor.positionInBlock
    rw [hbp]; omega
  rw [hbt, hpib] at hat hocc
  have hlen : doc.text.length = P.length + T.length + Q.length := by
    rw [htext, List.length_append, List.length_append]
  -- the forward find
  have e1 := findTargetWithinBlock_eq doc cur MoveMode.MoveAnchor t true true k hk hvalid
  rw [hbt, hpib, hbp] at e1
  have hsr : scanRange T i true true = T.drop (i + 1) := by
    unfold scanRange; simp
  rw [hsr] at e1
  cases hkth : kthIndex t k (T.drop (i + 1)) with
  | none =>
    have := (kthIndex_none_iff t _ k hk).1 hkth
    omega
  | some j =>
    rw [hkth] at e1
    simp only at e1
    obtain ⟨hj1, hj2⟩ := (kthIndex_some_iff t _ k j hk).1 hkth
    have hjlt : j < (T.drop (i + 1)).length := (List.getElem?_eq_some_iff.1 hj1).1
    rw [List.length_drop] at hjlt
    have hadj : adjustTargetIndex MoveMode.MoveAnchor true true (scanIndex i true true j)
        = ((i + 1 + j : Nat) : Int) := by
      unfold adjustTargetIndex scanIndex
      simp
    rw [hadj] at e1
    have hset : cur.setPosition doc ((P.length : Int) + ((i + 1 + j : Nat) : Int))
        MoveMode.MoveAnchor = ⟨P.length + (i + 1 + j), P.length + (i + 1 + j)⟩ := by
      unfold QTextCursor.setPosition QTextDocument.characterCount
      rw [if_neg (by omega)]
      have : ((P.length : Int) + ((i + 1 + j : Nat) : Int)).toNat = P.length + (i + 1 + j) := by
        omega
      simp only [this]
    rw [hset] at e1
    rw [e1]
    refine ⟨rfl, ?_⟩
    simp only
    -- the backward find
    have hvalid2 : (⟨P.length + (i + 1 + j), P.length + (i + 1 + j)⟩ : QTextCursor).position
        < doc.characterCount := by
      unfold QTextDocument.characterCount
      simp only
      omega
    have e2 := findTargetWithinBlock_eq doc ⟨P.length + (i + 1 + j), P.length + (i + 1 + j)⟩
      MoveMode.MoveAnchor t false true k hk hvalid2
    have hbt2 : doc.blockText (P.length + (i + 1 + j)) = T :=
      blockText_frame doc P T Q htext hf (i + 1 + j) (by omega)
    have hbp2 : doc.blockPosition (P.length + (i + 1 + j)) = P.length :=
      blockPosition_frame doc P T Q htext hf (i + 1 + j) (by omega)
    have hpib2 : (⟨P.length + (i + 1 + j), P.length + (i + 1 + j)⟩ :
        QTextCursor).positionInBlock doc = i + 1 + j := by
      unfold QTextCursor.positionInBlock
      simp only
      rw [hbp2]; omega
    simp only [hbt2, hpib2, hbp2] at e2
    have hsr2 : scanRange T (i + 1 + j) false true = (T.take (i + 1 + j)).reverse := by
      unfold scanRange; simp
    rw [hsr2] at e2
    have hlt : (T.take (i + 1 + j)).length = i + 1 + j := by
      rw [List.length_take]; omega
    have hk2 : kthIndex t k (T.take (i + 1 + j)).reverse = some j := by
      rw [kthIndex_some_iff t _ k j hk]
      constructor
      · rw [List.getElem?_reverse (by rw [hlt]; omega), hlt]
        have : i + 1 + j - 1 - j = i := by omega
        rw [this, List.getElem?_take_of_lt (by omega)]
        exact hat
      · have h3 : (T.take (i + 1 + j)).reverse.take j
            = ((T.drop (i + 1)).take j).reverse := by
          rw [List.take_reverse, hlt]
          congr 1
          have : i + 1 + j - j = i + 1 := by omega
          rw [this, List.drop_take]
          congr 1
          omega
        rw [h3, List.count_reverse]
        exact hj2
    rw [hk2] at e2
    simp only at e2
    have hadj2 : adjustTargetIndex MoveMode.MoveAnchor false true
        (scanIndex (i + 1 + j) false true j) = (i : Int) := by
      unfold adjustTargetIndex scanIndex
      simp
      omega
    rw [hadj2] at e2
    rw [e2]
    refine ⟨rfl, ?_⟩
    simp only
    unfold QTextCursor.setPosition QTextDocument.characterCount
    rw [if_neg (by omega)]
    have : ((P.length : Int) + (i : Int)).toNat = cur.position := by omega
    simp only [this]

/-- Witness of the amended C15: in `oxoxo` from the `o` at index 0, repeat 2 goes to
index 4 and back to index 0. -/
theorem findTargetWithinBlock_round_trip_witness :
    (findTargetWithinBlock ⟨"oxoxo".toList⟩ ⟨0, 0⟩ MoveMode.MoveAnchor 'o' true true
        (2 : Nat)).1 = true
    ∧ (findTargetWithinBlock ⟨"oxoxo".toList⟩
        (findTargetWithinBlock ⟨"oxoxo".toList⟩ ⟨0, 0⟩ MoveMode.MoveAnchor 'o' true true
          (2 : Nat)).2
        MoveMode.MoveAnchor 'o' false true (2 : Nat)).1 = true
    ∧ (findTargetWithinBlock ⟨"oxoxo".toList⟩
        (findTargetWithinBlock ⟨"oxoxo".toList⟩ ⟨0, 0⟩ MoveMode.MoveAnchor 'o' true true
          (2 : Nat)).2
        MoveMode.MoveAnchor 'o' false true (2 : Nat)).2 = ⟨0, 0⟩ :=
  findTargetWithinBlock_round_trip ⟨"oxoxo".toList⟩ ⟨0, 0⟩ 'o' 2 (by decide) (by decide)
    (by decide) (by decide)

/-! ### Indentation after the previous block, applied twice -/

/-- The cursor that `indentBlockAsPreviousBlock` leaves in a block framed in the buffer
after a previous block `Pv`: right after the inserted whitespace. -/
theorem indentBlockAsPreviousBlock_frame_cursor (doc : QTextDocument) (P P0 Pv T Q : List Char)
    (hP : P = P0 ++ Pv ++ [paragraphSeparator])
    (h : doc.text = P ++ T ++ Q)
    (hf : IsBlockFrame P T Q)
    (hfp : IsBlockFrame P0 Pv (paragraphSeparator :: (T ++ Q)))
    (hW : ∀ c ∈ Pv.takeWhile isSpace, isBlockBreak c = false)
    (i a : Nat) (hi : i ≤ T.length) :
    (indentBlockAsPreviousBlock doc ⟨P.length + i, a⟩).cursor
      = ⟨P.length + (Pv.takeWhile isSpace).length,
         P.length + (Pv.takeWhile isSpace).length⟩ := by
  have hPl : P.length = P0.length + Pv.length + 1 := by
    rw [hP]; simp; omega
  have hbn := blockNumber_frame doc _ T Q h hf i hi
  rw [hP, count_sep_frame_left P0 Pv hfp.1, ← hP] at hbn
  have hbp := blockPosition_frame doc _ T Q h hf i hi
  have hbt := blockText_frame doc _ T Q h hf i hi
  have h' : doc.text = P0 ++ Pv ++ (paragraphSeparator :: (T ++ Q)) := by rw [h, hP]; simp
  have hprev := blockText_frame doc P0 Pv _ h' hfp Pv.length (le_refl _)
  have hw : (T.takeWhile isSpace).length ≤ T.length := (List.takeWhile_sublist _).length_le
  have htl : doc.text.length = P.length + T.length + Q.length := by
    rw [h]; simp only [List.length_append]
  have hdrop : T.drop (T.takeWhile isSpace).length = T.dropWhile isSpace :=
    drop_takeWhile_length isSpace T
  generalize (T.takeWhile isSpace).length = w at hw hdrop
  -- the cursor after `moveCursorFirstNonSpaceCharacter`
  have hc1 : moveCursorFirstNonSpaceCharacter doc ⟨P.length + i, a⟩ .MoveAnchor
      = ⟨P.length + (T.takeWhile isSpace).length,
         P.length + (T.takeWhile isSpace).length⟩ := by
    unfold moveCursorFirstNonSpaceCharacter
    simp only [hbp, hbt, firstNonSpaceLoop_eq, Nat.zero_add]
    have hw' : (T.takeWhile isSpace).length ≤ T.length := (List.takeWhile_sublist _).length_le
    have := setPosition_ok doc ⟨P.length + i, a⟩
      (P.length + (T.takeWhile isSpace).length) .MoveAnchor
      (by unfold QTextDocument.characterCount; omega)
    push_cast at this
    rw [this]
  have hdrop' : T.drop (T.takeWhile isSpace).length = T.dropWhile isSpace :=
    drop_takeWhile_length isSpace T
  have hwle : (T.takeWhile isSpace).length ≤ T.length := (List.takeWhile_sublist _).length_le
  clear hw hdrop
  generalize (T.takeWhile isSpace).length = w at hc1 hdrop' hwle
  have hbpw := blockPosition_frame doc _ T Q h hf w hwle
  -- first stage: the leading whitespace of the block is removed
  have hr1 : ∃ fl : Bool,
      (if ¬ (QTextCursor.atBlockStart doc ⟨P.length + w, P.length + w⟩) = true then
          (⟨true,
            (QTextCursor.removeSelectedText doc (QTextCursor.movePosition doc
              ⟨P.length + w, P.length + w⟩ .StartOfBlock .KeepAnchor).2).1,
            (QTextCursor.removeSelectedText doc (QTextCursor.movePosition doc
              ⟨P.length + w, P.length + w⟩ .StartOfBlock .KeepAnchor).2).2⟩ : EditResult)
        else ⟨false, doc, ⟨P.length + w, P.length + w⟩⟩)
      = ⟨fl, ⟨P ++ T.dropWhile isSpace ++ Q⟩, ⟨P.length, P.length⟩⟩ := by
    by_cases hw0 : w = 0
    · refine ⟨false, ?_⟩
      subst hw0
      simp only [Nat.add_zero] at hbpw ⊢
      have hat : QTextCursor.atBlockStart doc ⟨P.length, P.length⟩ = true := by
        unfold QTextCursor.atBlockStart
        simp only [hbpw, beq_self_eq_true]
      have hdw : T.dropWhile isSpace = T := by
        rw [← hdrop', List.drop_zero]
      rw [if_neg (by simp [hat]), hdw]
      cases doc
      simp only at h
      simp only [h]
    · refine ⟨true, ?_⟩
      have hat : ¬ (QTextCursor.atBlockStart doc ⟨P.length + w, P.length + w⟩ = true) := by
        unfold QTextCursor.atBlockStart
        simp only [hbpw, beq_iff_eq]
        omega
      rw [if_pos hat]
      have hmv := movePosition_startOfBlock doc _ T Q h hf w (P.length + w) hwle .KeepAnchor
      rw [hmv]
      unfold QTextCursor.removeSelectedText QTextCursor.removeSelection
        QTextCursor.selectionStart QTextCursor.selectionEnd
      have hne : P.length ≠ P.length + w := by omega
      simp only [ne_eq, hne, not_false_eq_true, if_true]
      have hmin : min P.length (P.length + w) = P.length := by omega
      have hmax : max P.length (P.length + w) = P.length + w := by omega
      rw [hmin, hmax]
      have e1 : doc.text.take P.length = P := by
        rw [h, List.append_assoc, List.take_left]
      have e2 : doc.text.drop (P.length + w) = T.dropWhile isSpace ++ Q := by
        rw [h, List.append_assoc, ← List.drop_drop, List.drop_left,
          List.drop_append_of_le_length hwle, hdrop']
      rw [e1, e2, List.append_assoc]
  obtain ⟨fl, hr1⟩ := hr1
  unfold indentBlockAsPreviousBlock
  have hbn0 : ¬ (doc.blockNumber (⟨P.length + i, a⟩ : QTextCursor).position = 0) := by
    show ¬ (doc.blockNumber (P.length + i) = 0)
    omega
  rw [if_neg hbn0]
  have hprevpos : doc.blockPosition (⟨P.length + i, a⟩ : QTextCursor).position - 1
      = P0.length + Pv.length := by
    show doc.blockPosition (P.length + i) - 1 = _
    rw [hbp]; omega
  simp only [hprevpos, hprev, hc1, hr1]
  by_cases hWe : (Pv.takeWhile isSpace).isEmpty = true
  · have hWnil : Pv.takeWhile isSpace = [] := List.isEmpty_iff.1 hWe
    rw [if_neg (by simp [hWe]), hWnil]
    simp
  · rw [if_pos (by simpa using hWe)]
    unfold QTextCursor.insertText QTextCursor.removeSelectedText
    simp only [ne_eq, not_true_eq_false, if_false, insertedChars_plain _ hW]

/-- The counterexample to C16: with the blocks `  ab` and `cd` and the caret at the start
of `cd`, one application gives `  cd` with the caret after the two spaces, and a second
application gives `  cd` again: the whitespace `W` of the previous block stands once
before the text, not twice. -/
theorem indentBlockAsPreviousBlock_twice_not_doubled :
    (indentBlockAsPreviousBlock (QTextDocument.ofBlocks ["  ab".toList, "cd".toList])
        ⟨5, 5⟩).doc.blocks = ["  ab".toList, "  cd".toList]
    ∧ (indentBlockAsPreviousBlock (QTextDocument.ofBlocks ["  ab".toList, "cd".toList])
        ⟨5, 5⟩).cursor = ⟨7, 7⟩
    ∧ (indentBlockAsPreviousBlock
        (indentBlockAsPreviousBlock (QTextDocument.ofBlocks ["  ab".toList, "cd".toList])
          ⟨5, 5⟩).doc
        (indentBlockAsPreviousBlock (QTextDocument.ofBlocks ["  ab".toList, "cd".toList])
          ⟨5, 5⟩).cursor).doc.blocks = ["  ab".toList, "  cd".toList]
    ∧ "    cd".toList ≠ "  cd".toList := by
  decide

/-- C16, amended: in a well-formed document with the blocks `bs1 ++ Pv :: T :: bs2` and
the caret anywhere in `T`, applying `indentBlockAsPreviousBlock` twice (the second time on
the document and the cursor the first application leaves) gives the same blocks as
applying it once: the block is `W` followed by `T` without its original leading
whitespace, where `W` is the leading whitespace of the previous block `Pv`, and every
other block is unchanged. -/
theorem indentBlockAsPreviousBlock_twice (bs1 : List (List Char)) (Pv T : List Char)
    (bs2 : List (List Char)) (hplain : PlainBlocks (bs1 ++ Pv :: T :: bs2))
    (i a : Nat) (hi : i ≤ T.length) :
    (indentBlockAsPreviousBlock
        (indentBlockAsPreviousBlock (QTextDocument.ofBlocks (bs1 ++ Pv :: T :: bs2))
          ⟨(blocksBefore (bs1 ++ [Pv])).length + i, a⟩).doc
        (indentBlockAsPreviousBlock (QTextDocument.ofBlocks (bs1 ++ Pv :: T :: bs2))
          ⟨(blocksBefore (bs1 ++ [Pv])).length + i, a⟩).cursor).doc.blocks
      = bs1 ++ Pv :: (Pv.takeWhile isSpace ++ T.dropWhile isSpace) :: bs2
    ∧ (indentBlockAsPreviousBlock (QTextDocument.ofBlocks (bs1 ++ Pv :: T :: bs2))
        ⟨(blocksBefore (bs1 ++ [Pv])).length + i, a⟩).doc.blocks
      = bs1 ++ Pv :: (Pv.takeWhile isSpace ++ T.dropWhile isSpace) :: bs2 := by
  have hlist : bs1 ++ Pv :: T :: bs2 = (bs1 ++ [Pv]) ++ T :: bs2 := by simp
  have hfree : SeparatorFree ((bs1 ++ [Pv]) ++ T :: bs2) := by
    rw [← hlist]; exact plainBlocks_separatorFree _ hplain
  obtain ⟨h1, hT, h2⟩ := separatorFree_mid (bs1 ++ [Pv]) T bs2 hfree
  have hPv : paragraphSeparator ∉ Pv := h1 Pv (by simp)
  have hs := ofBlocks_split (bs1 ++ [Pv]) T bs2
  have hf := isBlockFrame_blocks (bs1 ++ [Pv]) T bs2 hT
  have hfp : IsBlockFrame (blocksBefore bs1) Pv (paragraphSeparator :: (T ++ blocksAfter bs2)) :=
    ⟨hPv, blocksBefore_shape bs1, Or.inr ⟨_, rfl⟩⟩
  have hW : ∀ c ∈ Pv.takeWhile isSpace, isBlockBreak c = false := by
    intro c hc
    exact hplain Pv (by simp) c ((List.takeWhile_sublist _).subset hc)
  have hres := indentBlockAsPreviousBlock_frame _ (blocksBefore (bs1 ++ [Pv]))
    (blocksBefore bs1) Pv T (blocksAfter bs2) (blocksBefore_append_singleton bs1 Pv)
    hs hf hfp hW i a hi
  have hcur := indentBlockAsPreviousBlock_frame_cursor _ (blocksBefore (bs1 ++ [Pv]))
    (blocksBefore bs1) Pv T (blocksAfter bs2) (blocksBefore_append_singleton bs1 Pv)
    hs hf hfp hW i a hi
  have hTn : paragraphSeparator ∉ Pv.takeWhile isSpace ++ T.dropWhile isSpace := by
    intro hm
    rcases List.mem_append.1 hm with hm | hm
    · exact hPv ((List.takeWhile_sublist _).subset hm)
    · exact hT ((List.dropWhile_sublist _).subset hm)
  have hnew : SeparatorFree ((bs1 ++ [Pv]) ++
      (Pv.takeWhile isSpace ++ T.dropWhile isSpace) :: bs2) := by
    intro b hb
    rcases List.mem_append.1 hb with hb | hb
    · exact h1 b hb
    · rcases List.mem_cons.1 hb with hb | hb
      · subst hb; exact hTn
      · exact h2 b hb
  have hdoc : (⟨blocksBefore (bs1 ++ [Pv]) ++ (Pv.takeWhile isSpace ++ T.dropWhile isSpace)
        ++ blocksAfter bs2⟩ : QTextDocument)
      = QTextDocument.ofBlocks ((bs1 ++ [Pv]) ++
          (Pv.takeWhile isSpace ++ T.dropWhile isSpace) :: bs2) := by
    have := ofBlocks_split (bs1 ++ [Pv]) (Pv.takeWhile isSpace ++ T.dropWhile isSpace) bs2
    cases hd : QTextDocument.ofBlocks ((bs1 ++ [Pv]) ++
        (Pv.takeWhile isSpace ++ T.dropWhile isSpace) :: bs2) with
    | mk t =>
      rw [hd] at this
      simp only at this
      rw [this]
  have hblocks : (QTextDocument.ofBlocks ((bs1 ++ [Pv]) ++
      (Pv.takeWhile isSpace ++ T.dropWhile isSpace) :: bs2)).blocks
      = bs1 ++ Pv :: (Pv.takeWhile isSpace ++ T.dropWhile isSpace) :: bs2 := by
    rw [blocks_ofBlocks _ hnew (by simp)]
    simp
  rw [hlist, hres, hcur]
  refine ⟨?_, by rw [hdoc, hblocks]⟩
  -- the second application, on the block `W ++ T'` with the caret after `W`
  have hf2 : IsBlockFrame (blocksBefore (bs1 ++ [Pv]))
      (Pv.takeWhile isSpace ++ T.dropWhile isSpace) (blocksAfter bs2) :=
    ⟨hTn, hf.2.1, hf.2.2⟩
  have hfp2 : IsBlockFrame (blocksBefore bs1) Pv
      (paragraphSeparator :: ((Pv.takeWhile isSpace ++ T.dropWhile isSpace)
        ++ blocksAfter bs2)) :=
    ⟨hPv, blocksBefore_shape bs1, Or.inr ⟨_, rfl⟩⟩
  have hres2 := indentBlockAsPreviousBlock_frame
    ⟨blocksBefore (bs1 ++ [Pv]) ++ (Pv.takeWhile isSpace ++ T.dropWhile isSpace)
      ++ blocksAfter bs2⟩
    (blocksBefore (bs1 ++ [Pv])) (blocksBefore bs1) Pv
    (Pv.takeWhile isSpace ++ T.dropWhile isSpace) (blocksAfter bs2)
    (blocksBefore_append_singleton bs1 Pv) rfl hf2 hfp2 hW
    (Pv.takeWhile isSpace).length
    ((blocksBefore (bs1 ++ [Pv])).length + (Pv.takeWhile isSpace).length)
    (by simp)
  have hdw : (Pv.takeWhile isSpace ++ T.dropWhile isSpace).dropWhile isSpace
      = T.dropWhile isSpace := by
    rw [List.dropWhile_append_of_pos
      (fun c hc => List.mem_takeWhile_imp (p := isSpace) hc)]
    cases hd : T.dropWhile isSpace with
    | nil => rfl
    | cons x xs =>
      have hx := List.head_dropWhile_not isSpace T (by rw [hd]; simp)
      simp only [hd, List.head_cons] at hx
      rw [List.dropWhile_cons_of_neg (by simpa using hx)]
  rw [hdw] at hres2
  rw [hres2, hdoc, hblocks]

/-- Witness of the amended C16: after the block `  ab`, the block ` cd` becomes `  cd`
when the operation is applied once and when it is applied twice. -/
theorem indentBlockAsPreviousBlock_twice_witness :
    (indentBlockAsPreviousBlock
        (indentBlockAsPreviousBlock (QTextDocument.ofBlocks ["  ab".toList, " cd".toList])
          ⟨7, 7⟩).doc
        (indentBlockAsPreviousBlock (QTextDocument.ofBlocks ["  ab".toList, " cd".toList])
          ⟨7, 7⟩).cursor).doc.blocks
      = ["  ab".toList, "  cd".toList] :=
  (indentBlockAsPreviousBlock_twice [] "  ab".toList " cd".toList []
    (by unfold PlainBlocks; decide) 2 7 (by decide)).1

/-! ### Pair selection with the same character as opening and closing -/

/-- With the same character `q` as opening and closing, the leftward loop started with
`nrPair = 1` stops on the first `q` it meets. -/
theorem scanOpening_same (doc : QTextDocument) (q : Char) (start : Int) :
    ∀ (M pre post : List Char) (fuel : Nat),
      doc.text = pre ++ q :: M ++ post → q ∉ M → start ≤ (pre.length : Int) →
      M.length + 1 ≤ fuel →
      scanOpening doc q q start fuel ((pre.length : Int) + M.length) 1 = (pre.length : Int) := by
  intro M
  induction M using List.reverseRecOn with
  | nil =>
    intro pre post fuel h _ hs hfuel
    obtain ⟨f, rfl⟩ : ∃ f, fuel = f + 1 := ⟨fuel - 1, by simp at hfuel; omega⟩
    have hch : doc.characterAt (pre.length : Int) = q :=
      characterAt_mid doc pre post q (by rw [h]; simp)
    rw [scanOpening_succ]
    simp only [List.length_nil, Nat.cast_zero, add_zero]
    rw [if_pos hs, if_pos hch, if_pos (by norm_num)]
  | append_singleton M' x ih =>
    intro pre post fuel h hq hs hfuel
    obtain ⟨f, rfl⟩ : ∃ f, fuel = f + 1 := ⟨fuel - 1, by simp at hfuel; omega⟩
    have hx : x ≠ q := by
      intro hxq
      exact hq (by simp [hxq])
    have hq' : q ∉ M' := fun hm => hq (by simp [hm])
    have h' : doc.text = (pre ++ q :: M') ++ x :: post := by rw [h]; simp
    have hch := characterAt_mid doc (pre ++ q :: M') post x h'
    have hidx : ((pre ++ q :: M').length : Int) = (pre.length : Int) + (M' ++ [x]).length := by
      simp
    rw [hidx] at hch
    have h'' : doc.text = pre ++ q :: M' ++ (x :: post) := by rw [h]; simp
    have hrec := ih pre (x :: post) f h'' hq' hs (by simp at hfuel; omega)
    rw [scanOpening_succ, if_pos (by simp; omega), hch, if_neg hx, if_neg hx]
    have hi : (pre.length : Int) + (M' ++ [x]).length - 1 = (pre.length : Int) + M'.length := by
      simp; omega
    rw [hi]
    exact hrec

/-- With the same character `q` as opening and closing, the rightward loop started with
`nrPair = 1` stops on the first `q` it meets. -/
theorem scanClosing_same (doc : QTextDocument) (q : Char) (end_ : Int) :
    ∀ (M pre post : List Char) (fuel : Nat),
      doc.text = pre ++ M ++ q :: post → q ∉ M → (pre.length : Int) + M.length ≤ end_ →
      M.length + 1 ≤ fuel →
      scanClosing doc q q end_ fuel (pre.length : Int) 1 = (pre.length : Int) + M.length := by
  intro M
  induction M with
  | nil =>
    intro pre post fuel h _ he hfuel
    obtain ⟨f, rfl⟩ : ∃ f, fuel = f + 1 := ⟨fuel - 1, by simp at hfuel; omega⟩
    have hch : doc.characterAt (pre.length : Int) = q :=
      characterAt_mid doc pre post q (by rw [h]; simp)
    simp only [List.length_nil, Nat.cast_zero, add_zero] at he ⊢
    rw [scanClosing_succ, if_pos he, if_pos hch, if_pos (by norm_num)]
  | cons x M' ih =>
    intro pre post fuel h hq he hfuel
    obtain ⟨f, rfl⟩ : ∃ f, fuel = f + 1 := ⟨fuel - 1, by simp at hfuel; omega⟩
    have hx : x ≠ q := by
      intro hxq
      exact hq (by simp [hxq])
    have hq' : q ∉ M' := fun hm => hq (by simp [hm])
    have hch := characterAt_mid doc pre (M' ++ q :: post) x (by rw [h]; simp)
    have h'' : doc.text = (pre ++ [x]) ++ M' ++ q :: post := by rw [h]; simp
    have hlen : (((pre ++ [x]).length : Nat) : Int) = (pre.length : Int) + 1 := by simp
    have hrec := ih (pre ++ [x]) post f h'' hq'
      (by rw [hlen]; simp at he; omega) (by simp at hfuel; omega)
    rw [hlen] at hrec
    rw [scanClosing_succ, if_pos (by simp at he; omega), hch, if_neg hx, if_neg hx, hrec]
    simp; omega

/-- The result of `selectPairTargetAround` with repeat 1 once the round has found the pair
at the positions `o` and `c`. -/
theorem selectPairTargetAround_of_round (doc : QTextDocument) (cur : QTextCursor)
    (O C : Char) (incl cross : Bool) (o c : Nat) (hc : c < doc.text.length) (hoc : o ≤ c)
    (hguard : ¬ ((if cross = true then (0 : Int) else (doc.blockPosition cur.position : Int))
        = (if cross = true then (doc.characterCount : Int) - 1
            else (doc.blockPosition cur.position : Int) + doc.blockLength cur.position - 1)
      ∨ (cur.position : Int) > (if cross = true then (doc.characterCount : Int) - 1
            else (doc.blockPosition cur.position : Int) + doc.blockLength cur.position - 1)))
    (hr : pairRound doc O C
        (if cross = true then (0 : Int) else (doc.blockPosition cur.position : Int))
        (if cross = true then (doc.characterCount : Int) - 1
            else (doc.blockPosition cur.position : Int) + doc.blockLength cur.position - 1)
        (cur.position : Int) (cur.position : Int) = some ((o : Int), (c : Int))) :
    selectPairTargetAround doc cur O C incl cross 1
      = (true, ⟨if incl then c + 1 else c, if incl then o else o + 1⟩) := by
  have hcc : doc.characterCount = doc.text.length + 1 := rfl
  unfold selectPairTargetAround
  simp only [pairRounds_one, hr]
  rw [if_neg hguard]
  cases incl
  · simp only [Bool.false_eq_true, if_false]
    have e1 : ((o : Int) + 1) = ((o + 1 : Nat) : Int) := by push_cast; rfl
    rw [e1, setPosition_ok _ _ _ _ (by omega), setPosition_ok _ _ _ _ (by omega)]
  · simp only [if_true]
    have e2 : ((c : Int) + 1) = ((c + 1 : Nat) : Int) := by push_cast; rfl
    rw [e2, setPosition_ok _ _ _ _ (by omega), setPosition_ok _ _ _ _ (by omega)]

/-- The caret on a `q` that has an earlier `q` in its block: the round pairs it, as the
closing, with the nearest earlier `q`. -/
theorem selectPairTargetAround_same_on (doc : QTextDocument) (cur : QTextCursor) (q : Char)
    (incl cross : Bool) (A M B : List Char)
    (hblock : doc.blockText cur.position = A ++ q :: M ++ q :: B)
    (hpos : cur.positionInBlock doc = A.length + 1 + M.length) (hM : q ∉ M) :
    selectPairTargetAround doc cur q q incl cross 1
        = (true, ⟨doc.blockPosition cur.position + A.length + 1 + M.length
                    + (if incl then 1 else 0),
                  doc.blockPosition cur.position + (if incl then A.length else A.length + 1)⟩)
    ∧ (selectPairTargetAround doc cur q q incl cross 1).2.selectedText doc
        = (if incl then q :: M ++ [q] else M) := by
  have hsle := blockPosition_le doc cur.position
  have hcur : cur.position = doc.blockPosition cur.position + A.length + 1 + M.length := by
    unfold QTextCursor.positionInBlock at hpos
    omega
  have hTlen : (doc.blockText cur.position).length = A.length + 1 + M.length + 1 + B.length := by
    rw [hblock]; simp; omega
  have hfit : doc.blockPosition cur.position + (doc.blockText cur.position).length
      ≤ doc.text.length := by
    rcases blockText_length_le doc cur.position with h | h
    · exact h
    · rw [h] at hTlen; simp at hTlen; omega
  have hframe := block_frame doc cur.position
  rw [hblock] at hframe
  have hblen : doc.blockLength cur.position = A.length + 1 + M.length + 1 + B.length + 1 := by
    unfold QTextDocument.blockLength
    rw [hTlen]
  generalize hs : doc.blockPosition cur.position = s at *
  generalize hrest : (doc.text.drop s).dropWhile (fun c => c != paragraphSeparator) = rest
    at hframe
  have hprelen : (doc.text.take s ++ A).length = s + A.length := by
    rw [List.length_append, List.length_take]
    omega
  have htext : doc.text = (doc.text.take s ++ A) ++ q :: M ++ q :: (B ++ rest) := by
    conv_lhs => rw [hframe]
    simp
  have hlen : doc.text.length = s + A.length + 1 + M.length + 1 + B.length + rest.length := by
    have := congrArg List.length htext
    rw [this]
    simp only [List.length_append, List.length_cons, hprelen]
    omega
  have hcc : doc.characterCount = doc.text.length + 1 := rfl
  have hround : ∀ start end_ : Int, start ≤ (s : Int) + A.length →
      pairRound doc q q start end_ (cur.position : Int) (cur.position : Int)
        = some (((s + A.length : Nat) : Int), ((s + A.length + 1 + M.length : Nat) : Int)) := by
    intro start end_ h1
    have hch : doc.characterAt (cur.position : Int) = q := by
      have := characterAt_mid doc (doc.text.take s ++ A ++ q :: M) (B ++ rest) q
        (htext.trans (by simp))
      have hl : (doc.text.take s ++ A ++ q :: M).length = cur.position := by
        rw [List.length_append, hprelen, List.length_cons]
        omega
      rw [hl] at this
      exact this
    have hscan := scanOpening_same doc q start M (doc.text.take s ++ A) (q :: (B ++ rest))
      (leftFuel start ((cur.position : Int) - 1)) htext (hM) (by rw [hprelen]; push_cast; exact h1)
      (by unfold leftFuel; omega)
    rw [hprelen] at hscan
    have hi : ((s + A.length : Nat) : Int) + (M.length : Int) = (cur.position : Int) - 1 := by
      omega
    rw [hi] at hscan
    unfold pairRound
    simp only [hch, if_true, hscan]
    rw [if_pos (by push_cast; omega)]
    simp only
    rw [hcur]
  have hr := hround (if cross = true then (0 : Int) else (s : Int))
    (if cross = true then (doc.characterCount : Int) - 1
      else (s : Int) + doc.blockLength cur.position - 1) (by split <;> omega)
  have hguard : ¬ ((if cross = true then (0 : Int) else (s : Int))
        = (if cross = true then (doc.characterCount : Int) - 1
            else (s : Int) + doc.blockLength cur.position - 1)
      ∨ (cur.position : Int) > (if cross = true then (doc.characterCount : Int) - 1
            else (s : Int) + doc.blockLength cur.position - 1)) := by
    cases cross
    · simp only [Bool.false_eq_true, if_false]
      rw [hblen]; push_cast; omega
    · simp only [if_true]
      rw [hcc]; push_cast; omega
  have hval := selectPairTargetAround_of_round doc cur q q incl cross (s + A.length)
    (s + A.length + 1 + M.length) (by omega) (by omega) (by rw [hs]; exact hguard)
    (by rw [hs]; exact hr)
  have hval2 : selectPairTargetAround doc cur q q incl cross 1
      = (true, ⟨s + A.length + 1 + M.length + (if incl then 1 else 0),
                s + (if incl then A.length else A.length + 1)⟩) := by
    rw [hval]
    cases incl <;> first | (simp; done) | (simp; omega)
  refine ⟨hval2, ?_⟩
  rw [hval2]
  cases incl
  · simp only [Bool.false_eq_true, if_false]
    apply selectedText_frame doc (doc.text.take s ++ A ++ [q]) M (q :: (B ++ rest))
    · exact htext.trans (by simp)
    · simp [List.length_take]; omega
    · simp [List.length_take]; omega
  · simp only [if_true]
    apply selectedText_frame doc (doc.text.take s ++ A) (q :: M ++ [q]) (B ++ rest)
    · exact htext.trans (by simp)
    · simp [List.length_take]; omega
    · simp [List.length_take]; omega

/-- The caret on a character other than `q` with a `q` on each side in its block: the
round pairs the nearest `q` on the left with the nearest `q` on the right. -/
theorem selectPairTargetAround_same_between (doc : QTextDocument) (cur : QTextCursor)
    (q : Char) (incl cross : Bool) (A M1 M2 B : List Char) (x : Char)
    (hblock : doc.blockText cur.position = A ++ q :: M1 ++ x :: M2 ++ q :: B)
    (hpos : cur.positionInBlock doc = A.length + 1 + M1.length) (hx : x ≠ q)
    (hM1 : q ∉ M1) (hM2 : q ∉ M2) :
    selectPairTargetAround doc cur q q incl cross 1
        = (true, ⟨doc.blockPosition cur.position + A.length + 1 + M1.length + 1 + M2.length
                    + (if incl then 1 else 0),
                  doc.blockPosition cur.position + (if incl then A.length else A.length + 1)⟩)
    ∧ (selectPairTargetAround doc cur q q incl cross 1).2.selectedText doc
        = (if incl then q :: (M1 ++ x :: M2) ++ [q] else M1 ++ x :: M2) := by
  have hsle := blockPosition_le doc cur.position
  have hcur : cur.position = doc.blockPosition cur.position + A.length + 1 + M1.length := by
    unfold QTextCursor.positionInBlock at hpos
    omega
  have hTlen : (doc.blockText cur.position).length
      = A.length + 1 + M1.length + 1 + M2.length + 1 + B.length := by
    rw [hblock]; simp; omega
  have hfit : doc.blockPosition cur.position + (doc.blockText cur.position).length
      ≤ doc.text.length := by
    rcases blockText_length_le doc cur.position with h | h
    · exact h
    · rw [h] at hTlen; simp at hTlen; omega
  have hframe := block_frame doc cur.position
  rw [hblock] at hframe
  have hblen : doc.blockLength cur.position
      = A.length + 1 + M1.length + 1 + M2.length + 1 + B.length + 1 := by
    unfold QTextDocument.blockLength
    rw [hTlen]
  generalize hs : doc.blockPosition cur.position = s at *
  generalize hrest : (doc.text.drop s).dropWhile (fun c => c != paragraphSeparator) = rest
    at hframe
  have hprelen : (doc.text.take s ++ A).length = s + A.length := by
    rw [List.length_append, List.length_take]
    omega
  have htext : doc.text
      = (doc.text.take s ++ A) ++ q :: M1 ++ x :: M2 ++ q :: (B ++ rest) := by
    conv_lhs => rw [hframe]
    simp
  have hlen : doc.text.length
      = s + A.length + 1 + M1.length + 1 + M2.length + 1 + B.length + rest.length := by
    have := congrArg List.length htext
    rw [this]
    simp only [List.length_append, List.length_cons, hprelen]
    omega
  have hcc : doc.characterCount = doc.text.length + 1 := rfl
  have hround : ∀ start end_ : Int, start ≤ (s : Int) + A.length →
      (s : Int) + A.length + 1 + M1.length + 1 + M2.length ≤ end_ →
      pairRound doc q q start end_ (cur.position : Int) (cur.position : Int)
        = some (((s + A.length : Nat) : Int),
            ((s + A.length + 1 + M1.length + 1 + M2.length : Nat) : Int)) := by
    intro start end_ h1 h2
    have hl : (doc.text.take s ++ A ++ q :: M1).length = cur.position := by
      rw [List.length_append, hprelen, List.length_cons]
      omega
    have hch : doc.characterAt (cur.position : Int) = x := by
      have := characterAt_mid doc (doc.text.take s ++ A ++ q :: M1) (M2 ++ q :: (B ++ rest)) x
        (htext.trans (by simp))
      rw [hl] at this
      exact this
    have hleft := scanOpening_same doc q start M1 (doc.text.take s ++ A)
      (x :: M2 ++ q :: (B ++ rest))
      (leftFuel start ((cur.position : Int) - 1)) (htext.trans (by simp)) hM1
      (by rw [hprelen]; push_cast; exact h1) (by unfold leftFuel; omega)
    rw [hprelen] at hleft
    have hi : ((s + A.length : Nat) : Int) + (M1.length : Int) = (cur.position : Int) - 1 := by
      omega
    rw [hi] at hleft
    have hright := scanClosing_same doc q end_ M2 (doc.text.take s ++ A ++ q :: M1 ++ [x])
      (B ++ rest) (rightFuel end_ ((cur.position : Int) + 1)) (htext.trans (by simp)) hM2
      (by rw [List.length_append, hl]; simp; omega)
      (by unfold rightFuel; omega)
    have hl2 : (((doc.text.take s ++ A ++ q :: M1 ++ [x]).length : Nat) : Int)
        = (cur.position : Int) + 1 := by
      rw [List.length_append, hl]; simp
    rw [hl2] at hright
    unfold pairRound
    simp only [hch, hx, if_false, ne_eq, not_false_eq_true, and_self, if_true, hleft, hright]
    rw [if_pos (by push_cast; omega), if_pos (by omega)]
    rw [hcur]
    push_cast
    simp only [add_assoc]
  have hr := hround (if cross = true then (0 : Int) else (s : Int))
    (if cross = true then (doc.characterCount : Int) - 1
      else (s : Int) + doc.blockLength cur.position - 1) (by split <;> omega)
    (by
      split
      · rw [hcc]; push_cast; omega
      · rw [hblen]; push_cast; omega)
  have hguard : ¬ ((if cross = true then (0 : Int) else (s : Int))
        = (if cross = true then (doc.characterCount : Int) - 1
            else (s : Int) + doc.blockLength cur.position - 1)
      ∨ (cur.position : Int) > (if cross = true then (doc.characterCount : Int) - 1
            else (s : Int) + doc.blockLength cur.position - 1)) := by
    cases cross
    · simp only [Bool.false_eq_true, if_false]
      rw [hblen]; push_cast; omega
    · simp only [if_true]
      rw [hcc]; push_cast; omega
  have hval := selectPairTargetAround_of_round doc cur q q incl cross (s + A.length)
    (s + A.length + 1 + M1.length + 1 + M2.length) (by omega) (by omega)
    (by rw [hs]; exact hguard) (by rw [hs]; exact hr)
  have hval2 : selectPairTargetAround doc cur q q incl cross 1
      = (true, ⟨s + A.length + 1 + M1.length + 1 + M2.length + (if incl then 1 else 0),
                s + (if incl then A.length else A.length + 1)⟩) := by
    rw [hval]
    cases incl <;> first | (simp; done) | (simp; omega)
  refine ⟨hval2, ?_⟩
  rw [hval2]
  cases incl
  · simp only [Bool.false_eq_true, if_false]
    apply selectedText_frame doc (doc.text.take s ++ A ++ [q]) (M1 ++ x :: M2)
      (q :: (B ++ rest))
    · exact htext.trans (by simp)
    · simp [List.length_take]; omega
    · simp [List.length_take]; omega
  · simp only [if_true]
    apply selectedText_frame doc (doc.text.take s ++ A) (q :: (M1 ++ x :: M2) ++ [q])
      (B ++ rest)
    · exact htext.trans (by simp)
    · simp [List.length_take]; omega
    · simp [List.length_take]; omega

/-- C19: the same character `q` as opening and closing, repeat 1, with or without
`p_crossBlock`.  When the block text is `A ++ q :: M ++ q :: B` with no `q` in `M` and the
caret is on the second of these two `q`, the call returns true and pairs the caret's `q`, as
the closing, with the nearest earlier `q`, whatever follows in `B`: the inner selection is
`M`, the outer one `q :: M ++ [q]`.  When the block text is
`A ++ q :: M1 ++ x :: M2 ++ q :: B` with `x` other than `q`, no `q` in `M1` nor in `M2`, and
the caret is on `x`, the call returns true and pairs the nearest `q` on the left with the
nearest `q` on the right: the inner selection is `M1 ++ x :: M2`. -/
theorem selectPairTargetAround_same_delimiter (doc : QTextDocument) (cur : QTextCursor)
    (q : Char) (incl cross : Bool) :
    (∀ A M B : List Char,
      doc.blockText cur.position = A ++ q :: M ++ q :: B →
      cur.positionInBlock doc = A.length + 1 + M.length → q ∉ M →
      selectPairTargetAround doc cur q q incl cross 1
          = (true, ⟨doc.blockPosition cur.position + A.length + 1 + M.length
                      + (if incl then 1 else 0),
                    doc.blockPosition cur.position
                      + (if incl then A.length else A.length + 1)⟩)
      ∧ (selectPairTargetAround doc cur q q incl cross 1).2.selectedText doc
          = (if incl then q :: M ++ [q] else M))
    ∧ (∀ (A M1 M2 B : List Char) (x : Char),
      doc.blockText cur.position = A ++ q :: M1 ++ x :: M2 ++ q :: B →
      cur.positionInBlock doc = A.length + 1 + M1.length → x ≠ q → q ∉ M1 → q ∉ M2 →
      selectPairTargetAround doc cur q q incl cross 1
          = (true, ⟨doc.blockPosition cur.position + A.length + 1 + M1.length + 1 + M2.length
                      + (if incl then 1 else 0),
                    doc.blockPosition cur.position
                      + (if incl then A.length else A.length + 1)⟩)
      ∧ (selectPairTargetAround doc cur q q incl cross 1).2.selectedText doc
          = (if incl then q :: (M1 ++ x :: M2) ++ [q] else M1 ++ x :: M2)) :=
  ⟨fun A M B h1 h2 h3 => selectPairTargetAround_same_on doc cur q incl cross A M B h1 h2 h3,
   fun A M1 M2 B x h1 h2 h3 h4 h5 =>
    selectPairTargetAround_same_between doc cur q incl cross A M1 M2 B x h1 h2 h3 h4 h5⟩

/-- Witness of C19: in the block made of a quote, `abc`, a quote, `def`, a quote, with the
caret on the middle quote, the inner selection is `abc`; with the caret on the `e` of
`def`, it is `def`. -/
theorem selectPairTargetAround_same_delimiter_witness :
    (selectPairTargetAround ⟨"\"abc\"def\"".toList⟩ ⟨4, 4⟩ '\"' '\"' false false 1
          = (true, ⟨4, 1⟩)
      ∧ (selectPairTargetAround ⟨"\"abc\"def\"".toList⟩ ⟨4, 4⟩ '\"' '\"' false false
          1).2.selectedText ⟨"\"abc\"def\"".toList⟩ = "abc".toList)
    ∧ (selectPairTargetAround ⟨"\"abc\"def\"".toList⟩ ⟨6, 6⟩ '\"' '\"' false false 1
          = (true, ⟨8, 5⟩)
      ∧ (selectPairTargetAround ⟨"\"abc\"def\"".toList⟩ ⟨6, 6⟩ '\"' '\"' false false
          1).2.selectedText ⟨"\"abc\"def\"".toList⟩ = "def".toList) :=
  ⟨(selectPairTargetAround_same_delimiter ⟨"\"abc\"def\"".toList⟩ ⟨4, 4⟩ '\"' false
      false).1 [] "abc".toList "def\"".toList (by decide) (by decide) (by decide),
   (selectPairTargetAround_same_delimiter ⟨"\"abc\"def\"".toList⟩ ⟨6, 6⟩ '\"' false
      false).2 "\"abc".toList "d".toList "f".toList [] 'e' (by decide) (by decide)
      (by decide) (by decide) (by decide)⟩

/-! ### The positions read by the pair selection -/

/-- C20 fails on the code: in the document `(a)` (character count 4) with the caret on
position 1 and repeat 2, the first round finds the pair at 0 and 2, then `opening` becomes
`-1` and `closing` becomes `3`; `closing` is not beyond `end = 3`, so the function goes to
the second round, which reads `characterAt(-1)`: the position is below 0, the character is
null, and `Q_ASSERT(!ch.isNull())` fails.  This holds with and without `p_crossBlock`.
Without the assertion the call returns false and leaves the cursor. -/
theorem selectPairTargetAround_reads_before_start :
    (⟨"(a)".toList⟩ : QTextDocument).characterCount = 4
    ∧ selectPairTargetAroundReads ⟨"(a)".toList⟩ ⟨1, 1⟩ '(' ')' false 2
        = [1, 1, 1, 1, 1, 0, 2, 3, -1, -1, 3]
    ∧ selectPairTargetAroundReads ⟨"(a)".toList⟩ ⟨1, 1⟩ '(' ')' true 2
        = [1, 1, 1, 1, 1, 0, 2, 3, -1, -1, 3]
    ∧ pairRound ⟨"(a)".toList⟩ '(' ')' 0 3 1 1 = some (0, 2)
    ∧ pairRoundReads ⟨"(a)".toList⟩ '(' ')' 0 3 (-1) 3 = [3, -1, -1, 3]
    ∧ (⟨"(a)".toList⟩ : QTextDocument).characterAt (-1) = nullChar
    ∧ selectPairTargetAround ⟨"(a)".toList⟩ ⟨1, 1⟩ '(' ')' false false 2 = (false, ⟨1, 1⟩) := by
  decide

/-! ### Termination of the scroll loops -/

/-- A nudge towards the maximum when the sum does not overflow. -/
theorem setValue_forward (sb : QScrollBar) (hmin : sb.minimum ≤ sb.value)
    (hlt : sb.value < sb.maximum) (hstep : 1 ≤ sb.singleStep)
    (hhi : sb.maximum + sb.singleStep ≤ INT_MAX) (hlo : -2 ^ 31 ≤ sb.minimum) :
    (sb.setValue (wrapInt (sb.value + sb.singleStep))).value
        = min sb.maximum (sb.value + sb.singleStep)
    ∧ (sb.setValue (wrapInt (sb.value + sb.singleStep))).minimum = sb.minimum
    ∧ (sb.setValue (wrapInt (sb.value + sb.singleStep))).maximum = sb.maximum
    ∧ (sb.setValue (wrapInt (sb.value + sb.singleStep))).singleStep = sb.singleStep := by
  unfold INT_MAX at hhi
  have hw : wrapInt (sb.value + sb.singleStep) = sb.value + sb.singleStep := by
    unfold wrapInt
    omega
  rw [hw]
  unfold QScrollBar.setValue
  simp only
  refine ⟨?_, trivial, trivial, trivial⟩
  omega

/-- A nudge towards the minimum when the difference does not overflow. -/
theorem setValue_backward (sb : QScrollBar) (hmax : sb.value ≤ sb.maximum)
    (hlt : sb.minimum < sb.value) (hstep : 1 ≤ sb.singleStep)
    (hlo : -2 ^ 31 ≤ sb.minimum - sb.singleStep) (hhi : sb.maximum ≤ INT_MAX) :
    (sb.setValue (wrapInt (sb.value - sb.singleStep))).value
        = max sb.minimum (sb.value - sb.singleStep)
    ∧ (sb.setValue (wrapInt (sb.value - sb.singleStep))).minimum = sb.minimum
    ∧ (sb.setValue (wrapInt (sb.value - sb.singleStep))).maximum = sb.maximum
    ∧ (sb.setValue (wrapInt (sb.value - sb.singleStep))).singleStep = sb.singleStep := by
  unfold INT_MAX at hhi
  have hw : wrapInt (sb.value - sb.singleStep) = sb.value - sb.singleStep := by
    unfold wrapInt
    omega
  rw [hw]
  unfold QScrollBar.setValue
  simp only
  refine ⟨?_, trivial, trivial, trivial⟩
  omega

/-- The forward loop exits, after a number of nudges bounded by the distance to the
maximum. -/
theorem scrollForward_terminates (ys : Nat → Int) (limit : Int) :
    ∀ (fuel n : Nat) (sb : QScrollBar),
      sb.minimum ≤ sb.value → sb.value ≤ sb.maximum → 1 ≤ sb.singleStep →
      sb.maximum + sb.singleStep ≤ INT_MAX → -2 ^ 31 ≤ sb.minimum →
      sb.maximum - sb.value + sb.singleStep - 1 < (fuel : Int) * sb.singleStep →
      ∃ r m, scrollForward ys limit fuel n sb = some (r, m)
        ∧ ((m : Int) - n) * sb.singleStep ≤ sb.maximum - sb.value + sb.singleStep - 1 := by
  intro fuel
  induction fuel with
  | zero =>
    intro n sb _ hmax hstep _ _ hf
    simp only [Nat.cast_zero, zero_mul] at hf
    omega
  | succ f ih =>
    intro n sb hmin hmax hstep hhi hlo hf
    unfold scrollForward
    by_cases hc : ys n > limit ∧ sb.value < sb.maximum
    · rw [if_pos hc]
      obtain ⟨e1, e2, e3, e4⟩ := setValue_forward sb hmin hc.2 hstep hhi hlo
      have hf' : sb.maximum - sb.value + sb.singleStep - 1
          < (f : Int) * sb.singleStep + sb.singleStep := by
        have : ((f + 1 : Nat) : Int) * sb.singleStep
            = (f : Int) * sb.singleStep + sb.singleStep := by
          push_cast; ring
        rw [this] at hf
        exact hf
      have hfpos : 1 ≤ (f : Int) := by
        by_contra hneg
        have hz : (f : Int) = 0 := by omega
        rw [hz, zero_mul] at hf'
        omega
      have hfs : sb.singleStep ≤ (f : Int) * sb.singleStep := by nlinarith
      obtain ⟨r, m, hr, hm⟩ := ih (n + 1) (sb.setValue (wrapInt (sb.value + sb.singleStep)))
        (by rw [e1, e2]; omega) (by rw [e1, e3]; omega) (by rw [e4]; exact hstep)
        (by rw [e3, e4]; exact hhi) (by rw [e2]; exact hlo)
        (by rw [e1, e3, e4]; omega)
      refine ⟨r, m, hr, ?_⟩
      rw [e1, e3, e4] at hm
      push_cast at hm
      by_cases hcase : sb.value + sb.singleStep ≤ sb.maximum
      · have : min sb.maximum (sb.value + sb.singleStep) = sb.value + sb.singleStep := by omega
        rw [this] at hm
        have hexp : ((m : Int) - n) * sb.singleStep
            = ((m : Int) - (n + 1)) * sb.singleStep + sb.singleStep := by ring
        rw [hexp]
        omega
      · have : min sb.maximum (sb.value + sb.singleStep) = sb.maximum := by omega
        rw [this] at hm
        have hle : (m : Int) - (n + 1) ≤ 0 := by
          by_contra hneg
          have : (1 : Int) ≤ (m : Int) - (n + 1) := by omega
          nlinarith
        have hexp : ((m : Int) - n) * sb.singleStep
            = ((m : Int) - (n + 1)) * sb.singleStep + sb.singleStep := by ring
        rw [hexp]
        have : ((m : Int) - (n + 1)) * sb.singleStep ≤ 0 := by nlinarith
        omega
    · rw [if_neg hc]
      refine ⟨sb, n, rfl, ?_⟩
      simp only [sub_self, zero_mul]
      omega

/-- The backward loop exits, after a number of nudges bounded by the distance to the
minimum. -/
theorem scrollBackward_terminates (ys : Nat → Int) (limit : Int) :
    ∀ (fuel n : Nat) (sb : QScrollBar),
      sb.minimum ≤ sb.value → sb.value ≤ sb.maximum → 1 ≤ sb.singleStep →
      -2 ^ 31 ≤ sb.minimum - sb.singleStep → sb.maximum ≤ INT_MAX →
      sb.value - sb.minimum + sb.singleStep - 1 < (fuel : Int) * sb.singleStep →
      ∃ r m, scrollBackward ys limit fuel n sb = some (r, m)
        ∧ ((m : Int) - n) * sb.singleStep ≤ sb.value - sb.minimum + sb.singleStep - 1 := by
  intro fuel
  induction fuel with
  | zero =>
    intro n sb hmin _ hstep _ _ hf
    simp only [Nat.cast_zero, zero_mul] at hf
    omega
  | succ f ih =>
    intro n sb hmin hmax hstep hlo hhi hf
    unfold scrollBackward
    by_cases hc : ys n < limit ∧ sb.value > sb.minimum
    · rw [if_pos hc]
      obtain ⟨e1, e2, e3, e4⟩ := setValue_backward sb hmax hc.2 hstep hlo hhi
      have hf' : sb.value - sb.minimum + sb.singleStep - 1
          < (f : Int) * sb.singleStep + sb.singleStep := by
        have : ((f + 1 : Nat) : Int) * sb.singleStep
            = (f : Int) * sb.singleStep + sb.singleStep := by
          push_cast; ring
        rw [this] at hf
        exact hf
      have hfpos : 1 ≤ (f : Int) := by
        by_contra hneg
        have hz : (f : Int) = 0 := by omega
        rw [hz, zero_mul] at hf'
        omega
      have hfs : sb.singleStep ≤ (f : Int) * sb.singleStep := by nlinarith
      obtain ⟨r, m, hr, hm⟩ := ih (n + 1) (sb.setValue (wrapInt (sb.value - sb.singleStep)))
        (by rw [e1, e2]; omega) (by rw [e1, e3]; omega) (by rw [e4]; exact hstep)
        (by rw [e2, e4]; exact hlo) (by rw [e3]; exact hhi)
        (by rw [e1, e2, e4]; omega)
      refine ⟨r, m, hr, ?_⟩
      rw [e1, e2, e4] at hm
      push_cast at hm
      by_cases hcase : sb.minimum ≤ sb.value - sb.singleStep
      · have : max sb.minimum (sb.value - sb.singleStep) = sb.value - sb.singleStep := by omega
        rw [this] at hm
        have hexp : ((m : Int) - n) * sb.singleStep
            = ((m : Int) - (n + 1)) * sb.singleStep + sb.singleStep := by ring
        rw [hexp]
        omega
      · have : max sb.minimum (sb.value - sb.singleStep) = sb.minimum := by omega
        rw [this] at hm
        have hle : (m : Int) - (n + 1) ≤ 0 := by
          by_contra hneg
          have : (1 : Int) ≤ (m : Int) - (n + 1) := by omega
          nlinarith
        have hexp : ((m : Int) - n) * sb.singleStep
            = ((m : Int) - (n + 1)) * sb.singleStep + sb.singleStep := by ring
        rw [hexp]
        have : ((m : Int) - (n + 1)) * sb.singleStep ≤ 0 := by nlinarith
        omega
    · rw [if_neg hc]
      refine ⟨sb, n, rfl, ?_⟩
      simp only [sub_self, zero_mul]
      omega

/-- With a single step of 0 the forward loop never leaves a viewport that keeps the cursor
below the limit. -/
theorem scrollForward_zero_step (fuel : Nat) :
    ∀ n : Nat, scrollForward (fun _ => 5) 0 fuel n ⟨0, 10, 0, 0⟩ = none := by
  induction fuel with
  | zero => intro n; rfl
  | succ f ih =>
    intro n
    unfold scrollForward
    rw [if_pos (by decide)]
    exact ih (n + 1)

/-- The counterexample to C17: a scrollbar with minimum 0, maximum 10, value 0 and single
step 0 (a value `setSingleStep` accepts), destination 0, and a viewport whose cursor
rectangle stays at `y = 5`.  A nudge leaves the scrollbar as it is, the condition of the
loop stays true, and the loop does not exit whatever number of rounds it is given.  And
when the sum `value + singleStep` leaves the range of `int` (value 2147483646, step 2,
maximum 2147483647), the nudge puts the value on the minimum, away from the bound the loop
tests. -/
theorem scrollBlockInPage_zero_step_runs_on :
    (QScrollBar.setValue ⟨0, 10, 0, 0⟩ (wrapInt (0 + 0)) = ⟨0, 10, 0, 0⟩
      ∧ ((5 : Int) > 0 ∧ (0 : Int) < 10))
    ∧ (∀ fuel : Nat, scrollBlockInPage ⟨0, 10, 0, 0⟩ 100 (fun _ => 5) 0 fuel = none)
    ∧ (QScrollBar.setValue ⟨0, 2147483647, 2147483646, 2⟩ (wrapInt (2147483646 + 2))).value
        = 0 := by
  refine ⟨by decide, ?_, by decide⟩
  intro fuel
  unfold scrollBlockInPage
  rw [if_pos rfl]
  exact scrollForward_zero_step fuel 0

/-- C17, amended: for every scrollbar state with `minimum <= value <= maximum`, a single
step of at least 1, and bounds for which `maximum + singleStep` and `minimum - singleStep`
stay in the range of `int`, every destination code, every height and every behaviour of
the cursor rectangle, the scroll loops exit: given any number of rounds above
`(maximum - minimum) / singleStep` rounded up, the function returns, and it has made at
most that many nudges. -/
theorem scrollBlockInPage_terminates (vsbar : QScrollBar) (height : Int) (ys : Nat → Int)
    (p_dest : Int) (fuel : Nat)
    (hmin : vsbar.minimum ≤ vsbar.value) (hmax : vsbar.value ≤ vsbar.maximum)
    (hstep : 1 ≤ vsbar.singleStep)
    (hlo : -2 ^ 31 ≤ vsbar.minimum - vsbar.singleStep)
    (hhi : vsbar.maximum + vsbar.singleStep ≤ INT_MAX)
    (hfuel : ((vsbar.maximum - vsbar.minimum + vsbar.singleStep - 1)
        / vsbar.singleStep).toNat < fuel) :
    ∃ r n, scrollBlockInPage vsbar height ys p_dest fuel = some (r, n)
      ∧ n ≤ ((vsbar.maximum - vsbar.minimum + vsbar.singleStep - 1)
          / vsbar.singleStep).toNat := by
  have hpos : (0 : Int) < vsbar.singleStep := by omega
  have hnum : 0 ≤ vsbar.maximum - vsbar.minimum + vsbar.singleStep - 1 := by omega
  have hq : 0 ≤ (vsbar.maximum - vsbar.minimum + vsbar.singleStep - 1) / vsbar.singleStep :=
    Int.ediv_nonneg hnum (by omega)
  have hfl : (vsbar.maximum - vsbar.minimum + vsbar.singleStep - 1) / vsbar.singleStep
      < (fuel : Int) := by omega
  have hmul : vsbar.maximum - vsbar.minimum + vsbar.singleStep - 1
      < (fuel : Int) * vsbar.singleStep := (Int.ediv_lt_iff_lt_mul hpos).1 hfl
  have hbound : ∀ m : Nat,
      (m : Int) * vsbar.singleStep ≤ vsbar.maximum - vsbar.minimum + vsbar.singleStep - 1 →
      m ≤ ((vsbar.maximum - vsbar.minimum + vsbar.singleStep - 1)
          / vsbar.singleStep).toNat := by
    intro m hm
    have := (Int.le_ediv_iff_mul_le hpos).2 hm
    omega
  have hfwd : ∀ limit : Int, ∃ r n, scrollForward ys limit fuel 0 vsbar = some (r, n)
      ∧ n ≤ ((vsbar.maximum - vsbar.minimum + vsbar.singleStep - 1)
          / vsbar.singleStep).toNat := by
    intro limit
    obtain ⟨r, m, hr, hm⟩ := scrollForward_terminates ys limit fuel 0 vsbar hmin hmax hstep hhi
      (by omega) (by omega)
    refine ⟨r, m, hr, hbound m ?_⟩
    simp only [Nat.cast_zero, sub_zero] at hm
    omega
  have hbwd : ∀ limit : Int, ∃ r n, scrollBackward ys limit fuel 0 vsbar = some (r, n)
      ∧ n ≤ ((vsbar.maximum - vsbar.minimum + vsbar.singleStep - 1)
          / vsbar.singleStep).toNat := by
    intro limit
    unfold INT_MAX at hhi
    obtain ⟨r, m, hr, hm⟩ := scrollBackward_terminates ys limit fuel 0 vsbar hmin hmax hstep
      hlo (by unfold INT_MAX; omega) (by omega)
    refine ⟨r, m, hr, hbound m ?_⟩
    simp only [Nat.cast_zero, sub_zero] at hm
    omega
  unfold scrollBlockInPage
  split
  · exact hfwd 0
  · split
    · simp only
      split
      · exact hfwd _
      · split
        · exact hbwd _
        · exact ⟨vsbar, 0, rfl, Nat.zero_le _⟩
    · split
      · exact hbwd _
      · exact ⟨vsbar, 0, rfl, Nat.zero_le _⟩

/-- Witness of the amended C17: range 0..100, value 40, single step 20, destination 0 and a
cursor rectangle that never reaches the top: the function returns within the bound of 5
nudges. -/
theorem scrollBlockInPage_terminates_witness :
    ∃ r n, scrollBlockInPage ⟨0, 100, 40, 20⟩ 300 (fun _ => 7) 0 6 = some (r, n)
      ∧ n ≤ (((100 : Int) - 0 + 20 - 1) / 20).toNat :=
  scrollBlockInPage_terminates ⟨0, 100, 40, 20⟩ 300 (fun _ => 7) 0 6 (by decide) (by decide)
    (by decide) (by decide) (by decide) (by decide)

/-! ### Indenting the selected blocks -/

/-- The loop of `unindentBlock` on a framed block of which `i` characters are already
deleted. -/
theorem unindentLoop_frame (gb : GraphemeBoundary) (P T Q : List Char)
    (hf : IsBlockFrame P T Q) :
    ∀ (n i : Nat) (doc : QTextDocument), doc.text = P ++ T.drop i ++ Q →
      (∀ k, i ≤ k → k < i + min n ((T.drop i).takeWhile (fun c => c == ' ')).length →
        1 < (T.drop k).length → gb (T.drop k) 1 = true) →
      unindentLoop gb T n i (doc, ⟨P.length, P.length⟩)
        = (⟨P ++ T.drop (i + min n ((T.drop i).takeWhile (fun c => c == ' ')).length) ++ Q⟩,
            ⟨P.length, P.length⟩) := by
  intro n
  induction n with
  | zero =>
    intro i doc h _
    unfold unindentLoop
    cases doc
    simp only at h
    simp [h]
  | succ n ih =>
    intro i doc h hgb
    unfold unindentLoop
    by_cases hc : T.getD i nullChar = ' '
    · rw [if_pos hc]
      have hi : i < T.length := by
        by_contra hge
        rw [List.getD_eq_getElem?_getD, List.getElem?_eq_none (by omega)] at hc
        exact absurd hc (by decide)
      have hget : T[i]? = some ' ' := by
        rw [List.getD_eq_getElem?_getD, List.getElem?_eq_getElem hi] at hc
        rw [List.getElem?_eq_getElem hi]
        simpa using hc
      have hdrop : T.drop i = ' ' :: T.drop (i + 1) := by
        rw [List.drop_eq_getElem_cons hi]
        have := List.getElem?_eq_getElem hi
        rw [hget] at this
        simp only [Option.some.injEq] at this
        rw [← this]
      have hlead : ((T.drop i).takeWhile (fun c => c == ' ')).length
          = ((T.drop (i + 1)).takeWhile (fun c => c == ' ')).length + 1 := by
        rw [hdrop]
        simp only [List.takeWhile_cons, beq_self_eq_true, if_true, List.length_cons]
      have hfi : IsBlockFrame P (T.drop i) Q :=
        ⟨fun hm => hf.1 (List.mem_of_mem_drop hm), hf.2.1, hf.2.2⟩
      have hdel : QTextCursor.deleteChar gb doc ⟨P.length, P.length⟩
          = (⟨P ++ T.drop (i + 1) ++ Q⟩, ⟨P.length, P.length⟩) := by
        have := deleteChar_block_start gb doc P (T.drop i) Q h hfi (by rw [hdrop]; simp)
          (hgb i (le_refl _) (by rw [hlead]; omega))
        rw [this, List.drop_drop, Nat.add_comm i 1]
      simp only [hdel]
      rw [ih (i + 1) _ rfl (fun k hk1 hk2 => hgb k (by omega) (by rw [hlead]; omega)), hdrop]
      simp only [List.takeWhile_cons, beq_self_eq_true, if_true, List.length_cons]
      have : i + 1 + min n ((T.drop (i + 1)).takeWhile (fun c => c == ' ')).length
          = i + min (n + 1) (((T.drop (i + 1)).takeWhile (fun c => c == ' ')).length + 1) := by
        omega
      rw [this]
    · rw [if_neg hc]
      have htw : (T.drop i).takeWhile (fun c => c == ' ') = [] := by
        cases hd : T.drop i with
        | nil => rfl
        | cons x xs =>
          have hi : i < T.length := by
            by_contra hge
            rw [List.drop_eq_nil_of_le (by omega)] at hd
            exact absurd hd (by simp)
          have hx : T[i]? = some x := by
            rw [List.drop_eq_getElem_cons hi] at hd
            rw [List.getElem?_eq_getElem hi]
            simp only [List.cons.injEq] at hd
            rw [hd.1]
          rw [List.getD_eq_getElem?_getD, hx] at hc
          simp only [Option.getD_some] at hc
          rw [List.takeWhile_cons_of_neg (p := fun c => c == ' ') (by simpa using hc)]
      rw [htw]
      cases doc
      simp only at h
      simp [h]

/-- The function `unindentBlock` on a framed block with the cursor at its start, when the
characters it removes are grapheme clusters of their own. -/
theorem unindentBlock_frame (gb : GraphemeBoundary) (doc : QTextDocument)
    (P T Q I : List Char) (h : doc.text = P ++ T ++ Q) (hf : IsBlockFrame P T Q)
    (hgb : DeletesByCharacter gb T (specUnindentCount I T)) :
    unindentBlock gb doc ⟨P.length, P.length⟩ I
      = (⟨P ++ specUnindentedText I T ++ Q⟩, ⟨P.length, P.length⟩) := by
  unfold DeletesByCharacter specUnindentCount at hgb
  have hbt := blockText_frame doc P T Q h hf 0 (Nat.zero_le _)
  have hmv := movePosition_startOfBlock doc P T Q h hf 0 P.length (Nat.zero_le _)
    MoveMode.MoveAnchor
  simp only [Nat.add_zero] at hbt hmv
  unfold unindentBlock specUnindentedText
  simp only [hbt, hmv]
  cases T with
  | nil =>
    simp only [List.isEmpty_nil, if_true, List.head?_nil, List.takeWhile_nil, List.length_nil,
      Nat.min_zero, List.drop_nil]
    rw [if_neg (by simp)]
    cases doc
    simp only at h
    simp [h]
  | cons c T1 =>
    simp only [List.isEmpty_cons, Bool.false_eq_true, if_false, List.getD_cons_zero,
      List.head?_cons, Option.some.injEq]
    by_cases htab : c = '\t'
    · rw [if_pos htab, if_pos htab]
      subst htab
      have hg0 := hgb 0
      simp only [List.head?_cons, if_true, List.drop_zero] at hg0
      rw [deleteChar_block_start gb doc P ('\t' :: T1) Q h hf (by simp)
        (fun hl => hg0 (by omega) hl)]
    · rw [if_neg htab, if_neg htab]
      have hne : ¬ ((c :: T1).head? = some '\t') := by simpa using htab
      rw [if_neg hne] at hgb
      by_cases hsp : isSpace c = true
      · rw [if_pos hsp, unindentLoop_frame gb P (c :: T1) Q hf I.length 0 doc
          (by rw [h]; simp)
          (fun k _ hk hl => hgb k (by simpa using hk) hl)]
        simp
      · rw [if_neg hsp]
        have hc : ¬ ((c == ' ') = true) := by
          intro hcs
          have : c = ' ' := by simpa using hcs
          rw [this] at hsp
          exact hsp (by decide)
        rw [List.takeWhile_cons_of_neg (p := fun c => c == ' ') hc]
        cases doc
        simp only at h
        simp [h]

/-- C22 fails on the code: for the block text made of one space and the indentation text
made of two spaces, the loop of `unindentBlock` reads `text[0]`, deletes the space, and
then reads `text[1]` although the text has length 1: the loop tests `i < width` only, not
`i < text.size()`.  Read through `QCharRef`, the index past the end yields the null
character, the loop stops and the block is left empty, however the text is cut into
grapheme clusters.  The same happens for two spaces and a width of four (read at index 2);
with `  x` the reads stop on the `x`, inside the text. -/
theorem unindentBlock_reads_past_end :
    (⟨[' ']⟩ : QTextDocument).blockText 0 = [' ']
    ∧ unindentBlockReads ⟨[' ']⟩ ⟨0, 0⟩ [' ', ' '] = [0, 0, 0, 1]
    ∧ ¬ (1 < ((⟨[' ']⟩ : QTextDocument).blockText 0).length)
    ∧ (∀ gb : GraphemeBoundary, (unindentBlock gb ⟨[' ']⟩ ⟨0, 0⟩ [' ', ' ']).1 = ⟨[]⟩)
    ∧ unindentBlockReads ⟨"  ".toList⟩ ⟨0, 0⟩ "    ".toList = [0, 0, 0, 1, 2]
    ∧ unindentBlockReads ⟨"  x".toList⟩ ⟨0, 0⟩ "    ".toList = [0, 0, 0, 1, 2] := by
  refine ⟨by decide, by decide, by decide, ?_, by decide, by decide⟩
  intro gb
  have hf : IsBlockFrame [] [' '] [] := ⟨by decide, Or.inl rfl, Or.inl rfl⟩
  have h := unindentBlock_frame gb ⟨[' ']⟩ [] [' '] [] [' ', ' '] rfl hf
    (fun k _ hl => absurd hl (by
      cases k with
      | zero => decide
      | succ k => simp))
  rw [show (⟨0, 0⟩ : QTextCursor) = ⟨([] : List Char).length, ([] : List Char).length⟩ from rfl,
    h]
  decide

/-! ### Shape of a successful pair selection -/

/-- The leftward loop, given enough rounds, ends at or left of its start index, and inside
the range it ends on an opening. -/
theorem scanOpening_shape (doc : QTextDocument) (O C : Char) (start : Int) :
    ∀ (fuel : Nat) (i nr : Int), i - start + 1 ≤ fuel →
      scanOpening doc O C start fuel i nr ≤ i
      ∧ (start ≤ scanOpening doc O C start fuel i nr →
          doc.characterAt (scanOpening doc O C start fuel i nr) = O) := by
  intro fuel
  induction fuel with
  | zero =>
    intro i nr hf
    simp only [Nat.cast_zero] at hf
    unfold scanOpening
    exact ⟨le_refl _, fun h => by omega⟩
  | succ f ih =>
    intro i nr hf
    rw [scanOpening_succ]
    by_cases hi : i ≥ start
    · rw [if_pos hi]
      have hf' : i - 1 - start + 1 ≤ (f : Int) := by push_cast at hf; omega
      by_cases hO : doc.characterAt i = O
      · rw [if_pos hO]
        by_cases hz : nr - 1 = 0
        · rw [if_pos hz]
          exact ⟨le_refl _, fun _ => hO⟩
        · rw [if_neg hz]
          obtain ⟨h1, h2⟩ := ih (i - 1) (nr - 1) hf'
          exact ⟨by omega, h2⟩
      · rw [if_neg hO]
        by_cases hC : doc.characterAt i = C
        · rw [if_pos hC]
          obtain ⟨h1, h2⟩ := ih (i - 1) (nr + 1) hf'
          exact ⟨by omega, h2⟩
        · rw [if_neg hC]
          obtain ⟨h1, h2⟩ := ih (i - 1) nr hf'
          exact ⟨by omega, h2⟩
    · rw [if_neg hi]
      exact ⟨le_refl _, fun h => absurd h hi⟩

/-- The rightward loop, given enough rounds, ends at or right of its start index, and
inside the range it ends on a closing. -/
theorem scanClosing_shape (doc : QTextDocument) (O C : Char) (end_ : Int) :
    ∀ (fuel : Nat) (j nr : Int), end_ - j + 1 ≤ fuel →
      j ≤ scanClosing doc O C end_ fuel j nr
      ∧ (scanClosing doc O C end_ fuel j nr ≤ end_ →
          doc.characterAt (scanClosing doc O C end_ fuel j nr) = C) := by
  intro fuel
  induction fuel with
  | zero =>
    intro j nr hf
    simp only [Nat.cast_zero] at hf
    unfold scanClosing
    exact ⟨le_refl _, fun h => by omega⟩
  | succ f ih =>
    intro j nr hf
    rw [scanClosing_succ]
    by_cases hj : j ≤ end_
    · rw [if_pos hj]
      have hf' : end_ - (j + 1) + 1 ≤ (f : Int) := by push_cast at hf; omega
      by_cases hC : doc.characterAt j = C
      · rw [if_pos hC]
        by_cases hz : nr - 1 = 0
        · rw [if_pos hz]
          exact ⟨le_refl _, fun _ => hC⟩
        · rw [if_neg hz]
          obtain ⟨h1, h2⟩ := ih (j + 1) (nr - 1) hf'
          exact ⟨by omega, h2⟩
      · rw [if_neg hC]
        by_cases hO : doc.characterAt j = O
        · rw [if_pos hO]
          obtain ⟨h1, h2⟩ := ih (j + 1) (nr + 1) hf'
          exact ⟨by omega, h2⟩
        · rw [if_neg hO]
          obtain ⟨h1, h2⟩ := ih (j + 1) nr hf'
          exact ⟨by omega, h2⟩
    · rw [if_neg hj]
      exact ⟨le_refl _, fun h => absurd h hj⟩

theorem leftFuel_enough (start i : Int) : i - start + 1 ≤ (leftFuel start i : Int) := by
  unfold leftFuel
  omega

theorem rightFuel_enough (end_ j : Int) : end_ - j + 1 ≤ (rightFuel end_ j : Int) := by
  unfold rightFuel
  omega

/-- One round of the pair search: when it finds a pair from `opening <= closing`, the pair
is inside the range, encloses both, and sits on an opening and a closing character.  An
`opening` left of the range must not read as the opening character. -/
theorem pairRound_shape (doc : QTextDocument) (O C : Char) (start end_ opening closing : Int)
    (hle : opening ≤ closing) (hce : closing ≤ end_)
    (hbad : opening < start → doc.characterAt opening ≠ O) (o c : Int)
    (h : pairRound doc O C start end_ opening closing = some (o, c)) :
    start ≤ o ∧ o ≤ opening ∧ closing ≤ c ∧ c ≤ end_ ∧ o < c
    ∧ doc.characterAt o = O ∧ doc.characterAt c = C := by
  have hi0 : (if opening = closing then opening - 1 else opening) ≤ opening
      ∧ (if opening = closing then opening - 1 else opening) < closing := by
    split <;> omega
  have hj0 : closing ≤ (if opening = closing then closing + 1 else closing)
      ∧ opening < (if opening = closing then closing + 1 else closing) := by
    split <;> omega
  obtain ⟨s1, s2⟩ := scanOpening_shape doc O C start
    (leftFuel start (if opening = closing then opening - 1 else opening))
    (if opening = closing then opening - 1 else opening) 1 (leftFuel_enough _ _)
  obtain ⟨t1, t2⟩ := scanClosing_shape doc O C end_
    (rightFuel end_ (if opening = closing then closing + 1 else closing))
    (if opening = closing then closing + 1 else closing) 1 (rightFuel_enough _ _)
  obtain ⟨u1, u2⟩ := scanOpening_shape doc O C start
    (leftFuel start (opening - 1)) (opening - 1) 1 (leftFuel_enough _ _)
  obtain ⟨v1, v2⟩ := scanClosing_shape doc O C end_
    (rightFuel end_ (closing + 1)) (closing + 1) 1 (rightFuel_enough _ _)
  unfold pairRound at h
  simp only at h
  generalize (if opening = closing then opening - 1 else opening) = i0 at h hi0 s1 s2
  generalize (if opening = closing then closing + 1 else closing) = j0 at h hj0 t1 t2
  generalize scanOpening doc O C start (leftFuel start i0) i0 1 = iS at h s1 s2
  generalize scanClosing doc O C end_ (rightFuel end_ j0) j0 1 = jS at h t1 t2
  generalize scanOpening doc O C start (leftFuel start (opening - 1)) (opening - 1) 1 = iT
    at h u1 u2
  generalize scanClosing doc O C end_ (rightFuel end_ (closing + 1)) (closing + 1) 1 = jT
    at h v1 v2
  have hrest : (match (if doc.characterAt opening = O then
          if jS ≤ end_ then some jS else none else none : Option Int) with
      | some j => some (opening, j)
      | none =>
        if doc.characterAt opening ≠ O ∧ doc.characterAt closing ≠ C then
          if iT ≥ start then if jT ≤ end_ then some (iT, jT) else none else none
        else none) = some (o, c) →
      start ≤ o ∧ o ≤ opening ∧ closing ≤ c ∧ c ≤ end_ ∧ o < c
      ∧ doc.characterAt o = O ∧ doc.characterAt c = C := by
    intro h
    by_cases hop : doc.characterAt opening = O
    · have hst : start ≤ opening := by
        by_contra hlt
        exact hbad (by omega) hop
      by_cases hj : jS ≤ end_
      · simp only [hop, hj, if_true, Option.some.injEq, Prod.mk.injEq] at h
        obtain ⟨rfl, rfl⟩ := h
        exact ⟨hst, le_refl _, by omega, hj, by omega, hop, t2 hj⟩
      · simp only [hop, hj, if_true, if_false, ne_eq, not_true_eq_false, false_and] at h
        exact absurd h (by simp)
    · by_cases hcl : doc.characterAt closing = C
      · simp only [hop, hcl, if_false, ne_eq, not_true_eq_false, and_false] at h
        exact absurd h (by simp)
      · by_cases hi : iT ≥ start
        · by_cases hj : jT ≤ end_
          · simp only [hop, hcl, hi, hj, if_false, if_true, ne_eq, not_false_eq_true,
              and_self, Option.some.injEq, Prod.mk.injEq] at h
            obtain ⟨rfl, rfl⟩ := h
            exact ⟨hi, by omega, by omega, hj, by omega, u2 hi, v2 hj⟩
          · simp only [hop, hcl, hi, hj, if_false, if_true, ne_eq, not_false_eq_true,
              and_self] at h
            exact absurd h (by simp)
        · simp only [hop, hcl, hi, if_false, ne_eq, not_false_eq_true, and_self,
            if_true] at h
          exact absurd h (by simp)
  by_cases hcl : doc.characterAt closing = C
  · by_cases hi : iS ≥ start
    · simp only [hcl, hi, if_true, Option.some.injEq, Prod.mk.injEq] at h
      obtain ⟨rfl, rfl⟩ := h
      exact ⟨hi, by omega, le_refl _, hce, by omega, s2 hi, hcl⟩
    · rw [if_pos hcl, if_neg hi] at h
      exact hrest h
  · rw [if_neg hcl] at h
    exact hrest h

/-- The rounds of the pair search: a pair they return is inside the range, encloses the
indices the first round started from, and sits on an opening and a closing character.
The range ends on a separator, which is no closing; the character read before the range is
a separator or null, and neither is an opening found inside the range, where no character
is null. -/
theorem pairRounds_shape (doc : QTextDocument) (O C : Char) (start end_ : Int)
    (hO : O ≠ paragraphSeparator) (hC : C ≠ paragraphSeparator)
    (hend : doc.characterAt end_ = paragraphSeparator)
    (hbefore : doc.characterAt (start - 1) = nullChar
      ∨ doc.characterAt (start - 1) = paragraphSeparator)
    (hnn : ∀ p : Int, start ≤ p → p < end_ → doc.characterAt p ≠ nullChar) :
    ∀ (n : Nat) (opening closing : Int), opening ≤ closing → closing ≤ end_ →
      (opening < start → doc.characterAt opening ≠ O) → ∀ o c : Int,
      pairRounds doc O C start end_ n opening closing = some (o, c) →
      start ≤ o ∧ o ≤ opening ∧ closing ≤ c ∧ c ≤ end_ ∧ o < c
      ∧ doc.characterAt o = O ∧ doc.characterAt c = C := by
  intro n
  induction n with
  | zero =>
    intro opening closing _ _ _ o c h
    unfold pairRounds at h
    exact absurd h (by simp)
  | succ n ih =>
    intro opening closing hle hce hbad o c h
    unfold pairRounds at h
    cases hpr : pairRound doc O C start end_ opening closing with
    | none =>
      rw [hpr] at h
      exact absurd h (by simp)
    | some oc =>
      obtain ⟨o1, c1⟩ := oc
      rw [hpr] at h
      simp only at h
      obtain ⟨p1, p2, p3, p4, p5, p6, p7⟩ :=
        pairRound_shape doc O C start end_ opening closing hle hce hbad o1 c1 hpr
      by_cases hn : n = 0
      · rw [if_pos hn] at h
        simp only [Option.some.injEq, Prod.mk.injEq] at h
        obtain ⟨rfl, rfl⟩ := h
        exact ⟨p1, p2, p3, p4, p5, p6, p7⟩
      · rw [if_neg hn] at h
        have hc1 : c1 ≠ end_ := by
          intro heq
          rw [heq, hend] at p7
          exact hC p7.symm
        by_cases hout : o1 - 1 < start ∧ c1 + 1 > end_
        · rw [if_pos hout] at h
          exact absurd h (by simp)
        · rw [if_neg hout] at h
          have hbad' : o1 - 1 < start → doc.characterAt (o1 - 1) ≠ O := by
            intro hlt
            have ho1 : o1 = start := by omega
            have hOn : O ≠ nullChar := by
              intro hz
              rw [hz] at p6
              exact hnn o1 p1 (by omega) p6
            rw [ho1]
            rcases hbefore with hb | hb
            · rw [hb]; exact fun e => hOn e.symm
            · rw [hb]; exact fun e => hO e.symm
          obtain ⟨q1, q2, q3, q4, q5, q6, q7⟩ :=
            ih (o1 - 1) (c1 + 1) (by omega) (by omega) hbad' o c h
          exact ⟨q1, by omega, by omega, q4, q5, q6, q7⟩

/-- The search range of a cursor on a valid position ends on a separator (of its block, or
the final sentinel), and the character before the range is a separator or null. -/
theorem searchRange_bounds (doc : QTextDocument) (cur : QTextCursor) (cross : Bool)
    (hvalid : cur.position < doc.characterCount) :
    doc.characterAt (if cross = true then (doc.characterCount : Int) - 1
        else (doc.blockPosition cur.position : Int) + doc.blockLength cur.position - 1)
      = paragraphSeparator
    ∧ (doc.characterAt ((if cross = true then (0 : Int)
          else (doc.blockPosition cur.position : Int)) - 1) = nullChar
      ∨ doc.characterAt ((if cross = true then (0 : Int)
          else (doc.blockPosition cur.position : Int)) - 1) = paragraphSeparator)
    ∧ (if cross = true then (0 : Int) else (doc.blockPosition cur.position : Int))
        ≤ (cur.position : Int)
    ∧ (if cross = true then (doc.characterCount : Int) - 1
        else (doc.blockPosition cur.position : Int) + doc.blockLength cur.position - 1)
        ≤ (doc.text.length : Int) := by
  have hcc : doc.characterCount = doc.text.length + 1 := rfl
  have hsent : doc.characterAt (doc.text.length : Int) = paragraphSeparator := by
    unfold QTextDocument.characterAt
    simp
  have hneg : doc.characterAt (-1) = nullChar := by
    unfold QTextDocument.characterAt
    simp
  cases cross
  · simp only [Bool.false_eq_true, if_false]
    obtain ⟨P, T, Q, i, htext, hf, hi, hp⟩ := exists_block_frame doc cur.position
      (by omega)
    have hbp : doc.blockPosition cur.position = P.length := by
      rw [hp]; exact blockPosition_frame doc P T Q htext hf i hi
    have hbl : doc.blockLength cur.position = T.length + 1 := by
      rw [hp]; exact blockLength_frame doc P T Q htext hf i hi
    have hlen : doc.text.length = P.length + T.length + Q.length := by
      rw [htext, List.length_append, List.length_append]
    rw [hbp, hbl]
    refine ⟨?_, ?_, by omega, by push_cast; omega⟩
    · have he : (P.length : Int) + ((T.length + 1 : Nat) : Int) - 1
          = ((P ++ T).length : Int) := by
        rw [List.length_append]; push_cast; omega
      rw [he]
      rcases hf.2.2 with hQ | ⟨Q', hQ⟩
      · have : (P ++ T).length = doc.text.length := by
          rw [htext, hQ]; simp
        rw [this]
        exact hsent
      · exact characterAt_mid doc (P ++ T) Q' paragraphSeparator (by rw [htext, hQ])
    · rcases hf.2.1 with hP | ⟨P', hP⟩
      · left
        rw [hP]
        exact hneg
      · right
        have he : ((P.length : Nat) : Int) - 1 = (P'.length : Int) := by
          rw [hP, List.length_append]; push_cast; simp
        rw [he]
        exact characterAt_mid doc P' (T ++ Q) paragraphSeparator
          (by rw [htext, hP]; simp)
  · simp only [if_true]
    refine ⟨?_, Or.inl ?_, by omega, by rw [hcc]; push_cast; omega⟩
    · have : (doc.characterCount : Int) - 1 = (doc.text.length : Int) := by
        rw [hcc]; push_cast; omega
      rw [this]
      exact hsent
    · exact hneg

/-- In a document without null character, no position of the buffer reads as null. -/
theorem characterAt_ne_null (doc : QTextDocument) (hdoc : nullChar ∉ doc.text) (p : Int)
    (h0 : 0 ≤ p) (h1 : p < (doc.text.length : Int)) : doc.characterAt p ≠ nullChar := by
  unfold QTextDocument.characterAt
  rw [if_neg (by omega), if_pos (by omega), List.getD_eq_getElem?_getD,
    List.getElem?_eq_getElem (by omega)]
  simp only [Option.getD_some]
  intro hz
  exact hdoc (hz ▸ List.getElem_mem _)

/-- C21: the shape of every successful pair selection, balanced input or not.  For every
document of the data model (no character of the buffer is null), cursor on a valid
position, delimiters `O` and `C` other than the paragraph separator, both values of
`p_inclusive` and `p_crossBlock` and every repeat `>= 1`: when `selectPairTargetAround`
returns true, its final indices satisfy `start <= opening <= pos <= closing <= end` and
`opening < closing`, the character at `opening` is `O` and the character at `closing` is
`C`, and the cursor ends with the anchor on `opening` and the caret on `closing + 1` in
outer mode, the anchor on `opening + 1` and the caret on `closing` in inner mode, so
anchor `<=` caret; when it returns false the cursor is unchanged. -/
theorem selectPairTargetAround_shape (doc : QTextDocument) (cur : QTextCursor) (O C : Char)
    (incl cross : Bool) (p_repeat : Nat) (hrep : 1 ≤ p_repeat)
    (hvalid : cur.position < doc.characterCount) (hdoc : nullChar ∉ doc.text)
    (hO : O ≠ paragraphSeparator) (hC : C ≠ paragraphSeparator) :
    ((selectPairTargetAround doc cur O C incl cross p_repeat).1 = true →
      ∃ opening closing : Nat,
        (if cross = true then (0 : Int) else (doc.blockPosition cur.position : Int))
          ≤ (opening : Int)
        ∧ opening ≤ cur.position ∧ cur.position ≤ closing
        ∧ (closing : Int) ≤ (if cross = true then (doc.characterCount : Int) - 1
            else (doc.blockPosition cur.position : Int) + doc.blockLength cur.position - 1)
        ∧ opening < closing
        ∧ doc.characterAt (opening : Int) = O ∧ doc.characterAt (closing : Int) = C
        ∧ (selectPairTargetAround doc cur O C incl cross p_repeat).2
            = ⟨if incl then closing + 1 else closing, if incl then opening else opening + 1⟩
        ∧ (selectPairTargetAround doc cur O C incl cross p_repeat).2.anchor
            ≤ (selectPairTargetAround doc cur O C incl cross p_repeat).2.position)
    ∧ ((selectPairTargetAround doc cur O C incl cross p_repeat).1 = false →
        (selectPairTargetAround doc cur O C incl cross p_repeat).2 = cur) := by
  have _ := hrep
  have hcc : doc.characterCount = doc.text.length + 1 := rfl
  obtain ⟨hend, hbef, hsp, hel⟩ := searchRange_bounds doc cur cross hvalid
  have hst0 : (0 : Int)
      ≤ (if cross = true then (0 : Int) else (doc.blockPosition cur.position : Int)) := by
    split <;> omega
  have hnn : ∀ p : Int,
      (if cross = true then (0 : Int) else (doc.blockPosition cur.position : Int)) ≤ p →
      p < (if cross = true then (doc.characterCount : Int) - 1
        else (doc.blockPosition cur.position : Int) + doc.blockLength cur.position - 1) →
      doc.characterAt p ≠ nullChar :=
    fun p h0 h1 => characterAt_ne_null doc hdoc p (by omega) (by omega)
  have hshape := pairRounds_shape doc O C _ _ hO hC hend hbef hnn
  unfold selectPairTargetAround
  simp only
  generalize (if cross = true then (0 : Int) else (doc.blockPosition cur.position : Int)) = st
    at hsp hshape hst0 ⊢
  generalize (if cross = true then (doc.characterCount : Int) - 1
      else (doc.blockPosition cur.position : Int) + doc.blockLength cur.position - 1) = en
    at hend hel hshape ⊢
  by_cases hguard : st = en ∨ (cur.position : Int) > en
  · rw [if_pos hguard]
    exact ⟨fun h => absurd h (by simp), fun _ => rfl⟩
  · rw [if_neg hguard]
    cases hpr : pairRounds doc O C st en p_repeat (cur.position : Int) (cur.position : Int) with
    | none => exact ⟨fun h => absurd h (by simp), fun _ => rfl⟩
    | some oc =>
      obtain ⟨o, c⟩ := oc
      obtain ⟨q1, q2, q3, q4, q5, q6, q7⟩ := hshape p_repeat _ _ (le_refl _) (by omega)
        (fun hlt => absurd hlt (by omega)) o c hpr
      have hc : c ≠ en := by
        intro heq
        rw [heq, hend] at q7
        exact hC q7.symm
      obtain ⟨op, rfl⟩ : ∃ op : Nat, o = (op : Int) := ⟨o.toNat, by omega⟩
      obtain ⟨cl, rfl⟩ : ∃ cl : Nat, c = (cl : Int) := ⟨c.toNat, by omega⟩
      simp only
      refine ⟨fun _ => ⟨op, cl, q1, by omega, by omega, q4, by omega, q6, q7, ?_, ?_⟩,
        fun h => absurd h (by simp)⟩
      · cases incl
        · simp only [Bool.false_eq_true, if_false]
          have e1 : ((op : Int) + 1) = ((op + 1 : Nat) : Int) := by push_cast; rfl
          rw [e1, setPosition_ok _ _ _ _ (by omega), setPosition_ok _ _ _ _ (by omega)]
        · simp only [if_true]
          have e2 : ((cl : Int) + 1) = ((cl + 1 : Nat) : Int) := by push_cast; rfl
          rw [e2, setPosition_ok _ _ _ _ (by omega), setPosition_ok _ _ _ _ (by omega)]
      · cases incl
        · simp only [Bool.false_eq_true, if_false]
          have e1 : ((op : Int) + 1) = ((op + 1 : Nat) : Int) := by push_cast; rfl
          rw [e1, setPosition_ok _ _ _ _ (by omega), setPosition_ok _ _ _ _ (by omega)]
          simp only
          omega
        · simp only [if_true]
          have e2 : ((cl : Int) + 1) = ((cl + 1 : Nat) : Int) := by push_cast; rfl
          rw [e2, setPosition_ok _ _ _ _ (by omega), setPosition_ok _ _ _ _ (by omega)]
          simp only
          omega

/-- Witness of C21 on an unbalanced result: in `(a(x)())` with the caret on
`x` and repeat 2 the call returns true with the inner selection from 1 to 6; its final
indices are 0 and 6, on a `(` and a `)`, around the caret. -/
theorem selectPairTargetAround_shape_witness :
    ∃ opening closing : Nat,
      (if false = true then (0 : Int)
        else ((⟨"(a(x)())".toList⟩ : QTextDocument).blockPosition 3 : Int)) ≤ (opening : Int)
      ∧ opening ≤ 3 ∧ 3 ≤ closing
      ∧ (closing : Int) ≤ (if false = true
          then ((⟨"(a(x)())".toList⟩ : QTextDocument).characterCount : Int) - 1
          else ((⟨"(a(x)())".toList⟩ : QTextDocument).blockPosition 3 : Int)
            + (⟨"(a(x)())".toList⟩ : QTextDocument).blockLength 3 - 1)
      ∧ opening < closing
      ∧ (⟨"(a(x)())".toList⟩ : QTextDocument).characterAt (opening : Int) = '('
      ∧ (⟨"(a(x)())".toList⟩ : QTextDocument).characterAt (closing : Int) = ')'
      ∧ (selectPairTargetAround ⟨"(a(x)())".toList⟩ ⟨3, 3⟩ '(' ')' false false 2).2
          = ⟨if false = true then closing + 1 else closing,
             if false = true then opening else opening + 1⟩
      ∧ (selectPairTargetAround ⟨"(a(x)())".toList⟩ ⟨3, 3⟩ '(' ')' false false 2).2.anchor
          ≤ (selectPairTargetAround ⟨"(a(x)())".toList⟩ ⟨3, 3⟩ '(' ')' false false
              2).2.position :=
  (selectPairTargetAround_shape ⟨"(a(x)())".toList⟩ ⟨3, 3⟩ '(' ')' false false 2 (by decide)
    (by decide) (by decide) (by decide) (by decide)).1 (by decide)

end VNote
